/- Verification of the simulation core of the ld53 game repository:
   the entity/component store (`ecs.hpp`), the hierarchical scene graph
   (`scene_graph.hpp` / `scene_graph.cpp`), and the 2D physics world
   (`physics_world.hpp` / `physics_world.cpp`), shallowly embedded in Lean.

   Machine `float` arithmetic is idealized over an arbitrary
   `LinearOrderedField` (instantiated at `ℚ` or `ℝ` in concrete theorems);
   `std::cos` / `std::sin` are passed as explicit function parameters
   `co si : α → α` so that every definition stays computable.  Entity
   identifiers (`uint32_t`) are modelled as `ℕ` with the explicit sentinel
   value `InvalidIndex = 2^32 - 1` where the code uses it. -/
import Mathlib

namespace LD53

/-! ## Basic 2D algebra (glm::vec2 / glm::mat2 fragments used by the code) -/

/-- `glm::vec2`. -/
structure Vec2 (α : Type) where
  x : α
  y : α
deriving DecidableEq, Repr

instance [Add α] : Add (Vec2 α) := ⟨fun a b => ⟨a.x + b.x, a.y + b.y⟩⟩

instance [Sub α] : Sub (Vec2 α) := ⟨fun a b => ⟨a.x - b.x, a.y - b.y⟩⟩

instance [Neg α] : Neg (Vec2 α) := ⟨fun a => ⟨-a.x, -a.y⟩⟩

instance [Mul α] : SMul α (Vec2 α) := ⟨fun c v => ⟨c * v.x, c * v.y⟩⟩

/-- `glm::dot` on 2D vectors. -/
def Vec2.dot [Mul α] [Add α] (a b : Vec2 α) : α := a.x * b.x + a.y * b.y

/-- The counterclockwise perpendicular of a vector (used to express the
tangential component of a velocity relative to a collision axis). -/
def Vec2.perp [Neg α] (a : Vec2 α) : Vec2 α := ⟨-a.y, a.x⟩

/-- Componentwise absolute value, `glm::abs` on a vector. -/
def Vec2.abs [LinearOrderedRing α] (a : Vec2 α) : Vec2 α := ⟨|a.x|, |a.y|⟩

/-- A 2×2 matrix stored as its two columns, as `glm::mat2` is. -/
structure Mat2 (α : Type) where
  c0 : Vec2 α
  c1 : Vec2 α
deriving DecidableEq, Repr

/-- Matrix–vector product: `m * v = v.x • c0 + v.y • c1` (glm convention). -/
def Mat2.mulVec [Mul α] [Add α] (m : Mat2 α) (v : Vec2 α) : Vec2 α :=
  ⟨m.c0.x * v.x + m.c1.x * v.y, m.c0.y * v.x + m.c1.y * v.y⟩

/-- `glm::transpose` for 2×2 matrices. -/
def Mat2.transpose (m : Mat2 α) : Mat2 α :=
  ⟨⟨m.c0.x, m.c1.x⟩, ⟨m.c0.y, m.c1.y⟩⟩

/-- Matrix–matrix product (columns of the result are `m * columns of n`). -/
def Mat2.mulMat [Mul α] [Add α] (m n : Mat2 α) : Mat2 α :=
  ⟨m.mulVec n.c0, m.mulVec n.c1⟩

/-- Columnwise absolute value, `glm::mat2(glm::abs(m[0]), glm::abs(m[1]))`. -/
def Mat2.absCols [LinearOrderedRing α] (m : Mat2 α) : Mat2 α :=
  ⟨m.c0.abs, m.c1.abs⟩

/-- `rotationMat2` from `physics_world.cpp`: columns
`(cos θ, sin θ)` and `(-sin θ, cos θ)`.  The trigonometric functions are
passed in as `co` and `si`. -/
def rotationMat2 [Neg α] (co si : α → α) (rotation : α) : Mat2 α :=
  ⟨⟨co rotation, si rotation⟩, ⟨-(si rotation), co rotation⟩⟩

/-- `Transform` from `scene_graph.hpp` (position, rotation, depth). -/
structure Transform2 (α : Type) where
  position : Vec2 α
  rotation : α
  depth : α
deriving DecidableEq, Repr

/-! ## Entity/component store (`ecs.hpp`)

`ComponentManager<T>` keeps a dense array `components : List α`, the parallel
dense array `componentIndices` mapping dense slot → entity, and the sparse
array `packedIndices` mapping entity → dense slot or the sentinel
`InvalidIndex`.  Unchecked `operator[]` accesses of the C++ code are modelled
with `List.getD` (the default is irrelevant whenever the documented
precondition holds); `CompStore.get?` is the bounds-checked variant used to
reason about which accesses are in range. -/

/-- `std::numeric_limits<uint32_t>::max()`, the "absent" sentinel. -/
def InvalidIndex : ℕ := 4294967295

/-- The state of one `ComponentManager<T>`. -/
structure CompStore (α : Type) where
  components : List α
  componentIndices : List ℕ
  packedIndices : List ℕ
deriving DecidableEq, Repr

namespace CompStore

/-- `ComponentManager::has`: bounds check on the sparse array, then compare
against the sentinel.  Total for every entity identifier. -/
def hasC (s : CompStore α) (e : ℕ) : Bool :=
  decide (e < s.packedIndices.length) && decide (s.packedIndices.getD e InvalidIndex ≠ InvalidIndex)

/-- `ComponentManager::create`: grow the sparse array to `e + 1` entries
(filling with the sentinel) if needed, map `e` to the next dense slot, and
append a freshly constructed component `v` together with its owner index. -/
def createC (s : CompStore α) (e : ℕ) (v : α) : CompStore α :=
  let pk := if s.packedIndices.length ≤ e
    then s.packedIndices ++ List.replicate (e + 1 - s.packedIndices.length) InvalidIndex
    else s.packedIndices
  { components := s.components ++ [v]
    componentIndices := s.componentIndices ++ [e]
    packedIndices := pk.set e s.components.length }

/-- `ComponentManager::destroy`: if `e`'s dense slot is not the last one,
move the last component and its owner index into that slot and repoint the
moved owner's sparse entry; then shrink both dense arrays and mark `e`
absent.  The sparse read `packedIndices[index]` is unchecked in the C++. -/
def destroyC [Inhabited α] (s : CompStore α) (e : ℕ) : CompStore α :=
  let p := s.packedIndices.getD e 0
  let b := s.componentIndices.getLastD 0
  let s1 := if p < s.components.length - 1 then
      { components := s.components.set p (s.components.getLastD default)
        componentIndices := s.componentIndices.set p b
        packedIndices := s.packedIndices.set b p }
    else s
  { components := s1.components.dropLast
    componentIndices := s1.componentIndices.dropLast
    packedIndices := s1.packedIndices.set e InvalidIndex }

/-- `ComponentManager::get`: unchecked double indexing
`components[packedIndices[index]]`. -/
def getC [Inhabited α] (s : CompStore α) (e : ℕ) : α :=
  s.components.getD (s.packedIndices.getD e 0) default

/-- Bounds-checked image of `get`'s two array accesses: `none` exactly when
one of them would be out of range. -/
def get? (s : CompStore α) (e : ℕ) : Option α :=
  s.packedIndices[e]? >>= fun p => s.components[p]?

/-- The store invariant of the spec: the two dense arrays are parallel,
`packedIndices[componentIndices[i]] == i` for every dense slot, every
non-sentinel sparse entry points back at a dense slot owning it, and the
store is small enough that a dense slot index never collides with the
sentinel. -/
structure Inv (s : CompStore α) : Prop where
  len_eq : s.components.length = s.componentIndices.length
  roundtrip : ∀ (i e : ℕ), s.componentIndices[i]? = some e → s.packedIndices[e]? = some i
  packed_sound : ∀ (e i : ℕ), s.packedIndices[e]? = some i → i ≠ InvalidIndex →
    s.componentIndices[i]? = some e
  size_lt : s.componentIndices.length < InvalidIndex

end CompStore

/-- `EntityManager::destroy` restricted to its per-manager loop: every
registered component manager destroys the entity's component, guarded by
`has`.  (All managers are modelled at one component type; the guard is the
only part the safety claim depends on.) -/
def emDestroyStores [Inhabited α] (ss : List (CompStore α)) (e : ℕ) : List (CompStore α) :=
  ss.map fun t => if t.hasC e then t.destroyC e else t

/-! ## Scene graph (`scene_graph.hpp` / `scene_graph.cpp`)

`SceneGraph` is a `ComponentManager<SceneGraphNode>`; since the dense/sparse
representation is verified separately (`CompStore`), the scene graph state is
modelled at the level that representation implements: a map from entity
identifier to node plus the finite set of identifiers currently holding a
node.  All recursive walks of the C++ (`setDirty`, `getWorldTransform`,
`destroyHierarchy`) take an explicit fuel argument; the well-formedness
hypotheses of the theorems supply enough fuel. -/

variable {α : Type} [LinearOrderedField α]

/-- `SceneGraphNode`. -/
structure SGNode (α : Type) where
  loc : Transform2 α
  world : Transform2 α
  heightForDepth : α
  parent : ℕ
  children : List ℕ
  dirty : Bool
deriving DecidableEq, Repr

/-- The scene graph state: node contents and the set of live identifiers. -/
structure SGState (α : Type) where
  nodes : ℕ → SGNode α
  live : Finset ℕ

/-- Point update of one node. -/
def SGState.upd (s : SGState α) (e : ℕ) (f : SGNode α → SGNode α) : SGState α :=
  { s with nodes := Function.update s.nodes e (f (s.nodes e)) }

/-- The rotation formula of the spec and of `getWorldTransform`:
`rotate(v, θ) = (cosθ·v.x − sinθ·v.y, sinθ·v.x + cosθ·v.y)`. -/
def rotate (co si : α → α) (θ : α) (v : Vec2 α) : Vec2 α :=
  ⟨co θ * v.x - si θ * v.y, si θ * v.x + co θ * v.y⟩

/-- One step of world-transform composition, exactly as computed inside
`SceneGraph::getWorldTransform` for a non-root node `n` with parent world
transform `pt`: rotate-translate the position, add rotations and depths, and
if the parent is the graph root `0` subtract
`local.position.y − heightForDepth` from the depth. -/
def composeWT (co si : α → α) (pt : Transform2 α) (n : SGNode α) : Transform2 α :=
  let w : Transform2 α :=
    { position := pt.position + rotate co si pt.rotation n.loc.position
      rotation := pt.rotation + n.loc.rotation
      depth := pt.depth + n.loc.depth }
  if n.parent = 0 then { w with depth := w.depth - (n.loc.position.y - n.heightForDepth) } else w

/-- The reference (spec-side) world transform: the composition of local
transforms along the parent chain, computed afresh with no caching.  `none`
when the chain does not reach a self-parented node within the fuel. -/
def wspecF (co si : α → α) (s : SGState α) : ℕ → ℕ → Option (Transform2 α)
  | 0, _ => none
  | fuel+1, e =>
    let n := s.nodes e
    if n.parent = e then some n.loc
    else (wspecF co si s fuel n.parent).map fun pt => composeWT co si pt n

/-- `SceneGraph::getWorldTransform`: if the node is dirty, recursively
resolve the parent's world transform (memoizing along the way), compose,
cache, and clear the dirty flag; a dirty self-parented node copies its local
transform.  Returns the transform and the updated (memoized) state. -/
def getWT (co si : α → α) : ℕ → SGState α → ℕ → Transform2 α × SGState α
  | 0, s, e => ((s.nodes e).world, s)
  | fuel+1, s, e =>
    let n := s.nodes e
    if n.dirty then
      if n.parent ≠ e then
        let r := getWT co si fuel s n.parent
        let w := composeWT co si r.1 (r.2.nodes e)
        (w, r.2.upd e fun m => { m with world := w, dirty := false })
      else
        (n.loc, s.upd e fun m => { m with world := m.loc, dirty := false })
    else (n.world, s)

/-- `SceneGraph::setDirty`: mark dirty and recurse into the children, but
treat an already-dirty node as a no-op. -/
def setDirtyF : ℕ → SGState α → ℕ → SGState α
  | 0, s, _ => s
  | fuel+1, s, e =>
    if (s.nodes e).dirty then s
    else
      ((s.nodes e).children).foldl (fun t c => setDirtyF fuel t c)
        (s.upd e fun m => { m with dirty := true })

/-- The found-scan loop of `SceneGraph::removeParent`: index of the first
occurrence of `e` in the children list, if any. -/
def findChildIdx : List ℕ → ℕ → Option ℕ
  | [], _ => none
  | c :: cs, e => if c = e then some 0 else (findChildIdx cs e).map (· + 1)

/-- Swap-remove at index `i`: overwrite with the last element (unless `i` is
already last) and pop the back. -/
def swapRemove (l : List ℕ) (i : ℕ) : List ℕ :=
  if i < l.length - 1 then (l.set i (l.getLastD 0)).dropLast else l.dropLast

/-- `SceneGraph::removeParent`: look for `e` in its parent's children list;
if found, swap-remove that entry, otherwise warn ("transform hierarchy data
is suspect") and change nothing.  The `Bool` records whether the warning was
printed. -/
def removeParent (s : SGState α) (e : ℕ) : SGState α × Bool :=
  let p := (s.nodes e).parent
  match findChildIdx (s.nodes p).children e with
  | some i => ((s.upd p fun m => { m with children := swapRemove m.children i }), false)
  | none => (s, true)

/-- `SceneGraph::addParent`: set the parent field and push `e` onto the
parent's children list. -/
def addParent (s : SGState α) (e p : ℕ) : SGState α :=
  (s.upd e fun m => { m with parent := p }).upd p fun m => { m with children := m.children ++ [e] }

/-- A default-constructed `SceneGraphNode` (all zero, no children, dirty). -/
def SGNode.fresh : SGNode α :=
  { loc := ⟨⟨0, 0⟩, 0, 0⟩, world := ⟨⟨0, 0⟩, 0, 0⟩, heightForDepth := 0
    parent := 0, children := [], dirty := true }

/-- `SceneGraph::create(index, parent)`: default-construct the component,
zero the local position and rotation, mark dirty, and link under `parent`. -/
def sgCreate (s : SGState α) (e p : ℕ) : SGState α :=
  let s1 : SGState α := { nodes := Function.update s.nodes e SGNode.fresh, live := insert e s.live }
  let s2 := s1.upd e fun m =>
    { m with loc := { m.loc with position := ⟨0, 0⟩, rotation := 0 }, dirty := true }
  addParent s2 e p

/-- `SceneGraph::destroy`: unlink from the parent's children list, then
remove the component. -/
def sgDestroy (s : SGState α) (e : ℕ) : SGState α :=
  let r := removeParent s e
  { r.1 with live := r.1.live.erase e }

/-- `SceneGraph::setParent`: no-op when the parent is unchanged, otherwise
unlink, relink, and dirty the subtree. -/
def sgSetParent (fuel : ℕ) (s : SGState α) (e p : ℕ) : SGState α :=
  if (s.nodes e).parent ≠ p then setDirtyF fuel (addParent (removeParent s e).1 e p) e else s

/-- `SceneGraph::setPosition`. -/
def sgSetPosition (fuel : ℕ) (s : SGState α) (e : ℕ) (v : Vec2 α) : SGState α :=
  setDirtyF fuel (s.upd e fun m => { m with loc := { m.loc with position := v } }) e

/-- `SceneGraph::setRotation`. -/
def sgSetRotation (fuel : ℕ) (s : SGState α) (e : ℕ) (v : α) : SGState α :=
  setDirtyF fuel (s.upd e fun m => { m with loc := { m.loc with rotation := v } }) e

/-- `SceneGraph::setDepth`. -/
def sgSetDepth (fuel : ℕ) (s : SGState α) (e : ℕ) (v : α) : SGState α :=
  setDirtyF fuel (s.upd e fun m => { m with loc := { m.loc with depth := v } }) e

/-- `SceneGraph::setHeightForDepth`. -/
def sgSetHeightForDepth (fuel : ℕ) (s : SGState α) (e : ℕ) (v : α) : SGState α :=
  setDirtyF fuel (s.upd e fun m => { m with heightForDepth := v }) e

/-- Reachability downward through children lists (reflexive-transitive). -/
inductive RD (s : SGState α) : ℕ → ℕ → Prop
  | refl (e : ℕ) : RD s e e
  | step {e c x : ℕ} : c ∈ (s.nodes e).children → RD s c x → RD s e x

/-- `b` is a (proper) descendant of `a`: reachable through at least one
children-list edge. -/
def Desc (s : SGState α) (a b : ℕ) : Prop :=
  ∃ c ∈ (s.nodes a).children, RD s c b

/-- Membership in the parent chain of `e` (including `e` itself). -/
inductive Anc (s : SGState α) (e : ℕ) : ℕ → Prop
  | refl : Anc s e e
  | step {x : ℕ} : Anc s e x → Anc s e (s.nodes x).parent

/-- Well-formedness of the hierarchy, certified by a depth function `dep`
bounded by `bound`: parents of live nodes are live, parent/children links
are mutually consistent, children lists are duplicate-free, and `dep`
strictly decreases from child to parent (so parent chains terminate and
subtree recursion is bounded). -/
structure WFd (s : SGState α) (dep : ℕ → ℕ) (bound : ℕ) : Prop where
  parent_live : ∀ e ∈ s.live, (s.nodes e).parent ∈ s.live
  child_mem : ∀ p ∈ s.live, ∀ c ∈ (s.nodes p).children, c ∈ s.live ∧ (s.nodes c).parent = p
  mem_child : ∀ p ∈ s.live, ∀ c ∈ s.live, (s.nodes c).parent = p → c ∈ (s.nodes p).children
  child_nodup : ∀ p ∈ s.live, ((s.nodes p).children).Nodup
  dep_parent : ∀ e ∈ s.live, (s.nodes e).parent ≠ e → dep ((s.nodes e).parent) < dep e
  dep_le : ∀ e ∈ s.live, dep e ≤ bound

/-- The joint laziness invariant: (a) a dirty node only has dirty children;
(b) a clean node's cached world transform agrees with the reference
recomputation from the current local transforms. -/
structure SGInv (co si : α → α) (s : SGState α) : Prop where
  dirtyDown : ∀ p ∈ s.live, ∀ c ∈ (s.nodes p).children,
    (s.nodes p).dirty = true → (s.nodes c).dirty = true
  cleanCache : ∀ e ∈ s.live, (s.nodes e).dirty = false →
    ∃ f, wspecF co si s f e = some ((s.nodes e).world)

/-- An entity manager world as `destroyHierarchy` sees it: the scene graph
plus the other registered component managers and the free list. -/
structure World (α β : Type) where
  sg : SGState α
  stores : List (CompStore β)
  freeIndices : List ℕ

/-- `EntityManager::destroy`: every registered manager (the scene graph
among them) destroys its component if present; the identifier joins the
free list. -/
def emDestroy [Inhabited β] (w : World α β) (e : ℕ) : World α β :=
  { sg := if e ∈ w.sg.live then sgDestroy w.sg e else w.sg
    stores := w.stores.map fun t => if t.hasC e then t.destroyC e else t
    freeIndices := w.freeIndices ++ [e] }

/-- `SceneGraph::destroyHierarchy`: recursively destroy the children read
from `e`'s node, then destroy `e`'s entity in full. -/
def destroyHierarchyF [Inhabited β] : ℕ → World α β → ℕ → World α β
  | 0, w, _ => w
  | fuel+1, w, e =>
    emDestroy (((w.sg.nodes e).children).foldl
      (fun acc c => destroyHierarchyF fuel acc c) w) e

/-- The order in which `destroyHierarchyF` issues `EntityManager::destroy`
calls. -/
def destroySeqF [Inhabited β] : ℕ → World α β → ℕ → List ℕ
  | 0, _, _ => []
  | fuel+1, w, e =>
    (((w.sg.nodes e).children).foldl
        (fun (acc : World α β × List ℕ) c =>
          (destroyHierarchyF fuel acc.1 c, acc.2 ++ destroySeqF fuel acc.1 c))
        (w, [])).2 ++ [e]

/-- Shape agreement between scene-graph states: same live set and, at every
node, the same local transform, height-for-depth, parent and children (the
world cache and the dirty flag are unconstrained). -/
def shapeStep (s t : SGState α) : Prop :=
  t.live = s.live ∧ ∀ x, (t.nodes x).loc = (s.nodes x).loc ∧
    (t.nodes x).heightForDepth = (s.nodes x).heightForDepth ∧
    (t.nodes x).parent = (s.nodes x).parent ∧
    (t.nodes x).children = (s.nodes x).children

/-- `t` results from `s` by only turning dirty flags on (the effect of
`SceneGraph::setDirty`). -/
def flagStep (s t : SGState α) : Prop :=
  shapeStep s t ∧ ∀ x, (t.nodes x).world = (s.nodes x).world ∧
    ((s.nodes x).dirty = true → (t.nodes x).dirty = true)

/-- `t` results from `s` by only filling world caches and clearing dirty
flags (the effect of `SceneGraph::getWorldTransform`). -/
def cacheStep (s t : SGState α) : Prop :=
  shapeStep s t ∧ ∀ x, ((t.nodes x).dirty = true → (s.nodes x).dirty = true)

/-- One-step downward dirty propagation, restricted to nodes of depth at
least `k`: a dirty node of depth `≥ k` only has dirty children. -/
def Hdd (s : SGState α) (dep : ℕ → ℕ) (k : ℕ) : Prop :=
  ∀ p ∈ s.live, k ≤ dep p → (s.nodes p).dirty = true →
    ∀ c ∈ (s.nodes p).children, (s.nodes c).dirty = true

/-- The spec's three-level example chain: the root 0 is self-parented and
lists itself among its children (as the `SceneGraph` constructor creates
it), A = 1 hangs under the root with local position (1,0) and rotation 0,
and B = 2 hangs under A with local position (0,1) and rotation `rB`.  All
nodes start dirty with cleared caches. -/
def chainState (rB : α) : SGState α :=
  { nodes := fun x =>
      if x = 1 then
        { loc := ⟨⟨1, 0⟩, 0, 0⟩, world := ⟨⟨0, 0⟩, 0, 0⟩, heightForDepth := 0,
          parent := 0, children := [2], dirty := true }
      else if x = 2 then
        { loc := ⟨⟨0, 1⟩, rB, 0⟩, world := ⟨⟨0, 0⟩, 0, 0⟩, heightForDepth := 0,
          parent := 1, children := [], dirty := true }
      else
        { loc := ⟨⟨0, 0⟩, 0, 0⟩, world := ⟨⟨0, 0⟩, 0, 0⟩, heightForDepth := 0,
          parent := 0, children := [0, 1], dirty := true }
    live := {0, 1, 2} }

/-- A concrete world for exercising `destroyHierarchy`: root 0
(self-parented and its own child, as the constructor builds it), node 1
under the root with the two children 2 and 3, and one component store
holding a payload for every entity. -/
def destroyWorld : World ℚ ℚ :=
  { sg :=
    { nodes := fun x =>
        if x = 1 then
          { loc := ⟨⟨0, 0⟩, 0, 0⟩, world := ⟨⟨0, 0⟩, 0, 0⟩, heightForDepth := 0,
            parent := 0, children := [2, 3], dirty := true }
        else if x = 2 then
          { loc := ⟨⟨0, 0⟩, 0, 0⟩, world := ⟨⟨0, 0⟩, 0, 0⟩, heightForDepth := 0,
            parent := 1, children := [], dirty := true }
        else if x = 3 then
          { loc := ⟨⟨0, 0⟩, 0, 0⟩, world := ⟨⟨0, 0⟩, 0, 0⟩, heightForDepth := 0,
            parent := 1, children := [], dirty := true }
        else
          { loc := ⟨⟨0, 0⟩, 0, 0⟩, world := ⟨⟨0, 0⟩, 0, 0⟩, heightForDepth := 0,
            parent := 0, children := [0, 1], dirty := true }
      live := {0, 1, 2, 3} }
    stores := [⟨[10, 20, 30, 40], [0, 1, 2, 3], [0, 1, 2, 3]⟩]
    freeIndices := [] }

/-! ## Physics world (`physics_world.hpp` / `physics_world.cpp`) -/

/-- `CollisionRecord`: the two entity identifiers, the signed penetration
depth (negative = overlapping) and the separating axis. -/
structure CollisionRecord (α : Type) where
  index0 : ℕ
  index1 : ℕ
  depth : α
  axis : Vec2 α
deriving DecidableEq, Repr

/-- `collideBoxes` from `physics_world.cpp`: the four-axis SAT test on two
oriented boxes, keeping the axis of shallowest penetration and returning as
soon as any axis reports `depth > 0`.  The `CollisionRecord result {}`
zero-initialization leaves `index0 = index1 = 0`; the caller fills them in.
The stages are written as continuations so that each early `return` of the
C++ is an `if` that skips the remaining stages. -/
def collideBoxes (co si : α → α) (t0 : Transform2 α) (e0 : Vec2 α)
    (t1 : Transform2 α) (e1 : Vec2 α) : CollisionRecord α :=
  let r0 := rotationMat2 co si t0.rotation
  let r1 := rotationMat2 co si t1.rotation
  let r0t := r0.transpose
  let r1t := r1.transpose
  let d := t1.position - t0.position
  let d0 := r0t.mulVec d
  let d1 := r1t.mulVec d
  let ar10 := (r0t.mulMat r1).absCols
  let e10 := ar10.mulVec e1
  let e01 := ar10.transpose.mulVec e0
  let test4 := fun (res : CollisionRecord α) =>
    let dp := |d1.y| - e1.y - e01.y
    if dp > res.depth then
      { res with depth := dp, axis := if d1.y > 0 then r1.c1 else -r1.c1 }
    else res
  let test3 := fun (res : CollisionRecord α) =>
    let dp := |d1.x| - e1.x - e01.x
    if dp > res.depth then
      let res2 := { res with depth := dp, axis := if d1.x > 0 then r1.c0 else -r1.c0 }
      if dp > 0 then res2 else test4 res2
    else test4 res
  let test2 := fun (res : CollisionRecord α) =>
    let dp := |d0.y| - e0.y - e10.y
    if dp > res.depth then
      let res2 := { res with depth := dp, axis := if d0.y < 0 then -r0.c1 else r0.c1 }
      if dp > 0 then res2 else test3 res2
    else test3 res
  let res1 : CollisionRecord α :=
    ⟨0, 0, |d0.x| - e0.x - e10.x, if d0.x < 0 then -r0.c0 else r0.c0⟩
  if res1.depth > 0 then res1 else test2 res1

/-- `collideBoxes` instrumented with the number of candidate axes whose test
was evaluated before returning (1–4): the same staged computation, each
stage also reporting how far the control flow got. -/
def collideBoxesTraced (co si : α → α) (t0 : Transform2 α) (e0 : Vec2 α)
    (t1 : Transform2 α) (e1 : Vec2 α) : CollisionRecord α × ℕ :=
  let r0 := rotationMat2 co si t0.rotation
  let r1 := rotationMat2 co si t1.rotation
  let r0t := r0.transpose
  let r1t := r1.transpose
  let d := t1.position - t0.position
  let d0 := r0t.mulVec d
  let d1 := r1t.mulVec d
  let ar10 := (r0t.mulMat r1).absCols
  let e10 := ar10.mulVec e1
  let e01 := ar10.transpose.mulVec e0
  let test4 := fun (res : CollisionRecord α) =>
    let dp := |d1.y| - e1.y - e01.y
    if dp > res.depth then
      ({ res with depth := dp, axis := if d1.y > 0 then r1.c1 else -r1.c1 }, 4)
    else (res, 4)
  let test3 := fun (res : CollisionRecord α) =>
    let dp := |d1.x| - e1.x - e01.x
    if dp > res.depth then
      let res2 := { res with depth := dp, axis := if d1.x > 0 then r1.c0 else -r1.c0 }
      if dp > 0 then (res2, 3) else test4 res2
    else test4 res
  let test2 := fun (res : CollisionRecord α) =>
    let dp := |d0.y| - e0.y - e10.y
    if dp > res.depth then
      let res2 := { res with depth := dp, axis := if d0.y < 0 then -r0.c1 else r0.c1 }
      if dp > 0 then (res2, 2) else test3 res2
    else test3 res
  let res1 : CollisionRecord α :=
    ⟨0, 0, |d0.x| - e0.x - e10.x, if d0.x < 0 then -r0.c0 else r0.c0⟩
  if res1.depth > 0 then (res1, 1) else test2 res1

/-- One collider as the broad phase sees it: owner identifier, half
extents, world transform, derived world AABB, and whether a collision
callback is registered. -/
structure PhysEntry (α : Type) where
  id : ℕ
  halfExtents : Vec2 α
  t : Transform2 α
  aabbMin : Vec2 α
  aabbMax : Vec2 α
  cb : Bool
deriving DecidableEq, Repr

/-- The AABB refresh of `PhysicsWorld::update` step 2: rotate the half
extents through the componentwise-absolute rotation matrix and center on the
world position. -/
def refreshAABB (co si : α → α) (p : PhysEntry α) : PhysEntry α :=
  let m := (rotationMat2 co si p.t.rotation).absCols
  let h := m.mulVec p.halfExtents
  { p with aabbMin := p.t.position - h, aabbMax := p.t.position + h }

/-- The full 2D AABB test of the sweep inner loop, verbatim from
`PhysicsWorld::update` (`collider0` is the current sweep entity, `collider1`
a surviving active-list entry); note the `>` on the third conjunct against
`≥` on the others. -/
def overlapB (c0 c1 : PhysEntry α) : Bool :=
  decide (c0.aabbMax.x ≥ c1.aabbMin.x) && decide (c0.aabbMax.y ≥ c1.aabbMin.y) &&
    decide (c1.aabbMax.x > c0.aabbMin.x) && decide (c1.aabbMax.y ≥ c0.aabbMin.y)

/-- The sweep of `PhysicsWorld::update` step 3 over the already-sorted
collider list: evict active entries whose AABB ends left of the current
entity, emit a candidate pair for each surviving entry passing the 2D AABB
test, then append the current entity to the active list. -/
def sweepLoop : List (PhysEntry α) → List (PhysEntry α) → List (PhysEntry α × PhysEntry α)
  | _, [] => []
  | acc, cur :: rest =>
    let surv := acc.filter fun a => !(decide (a.aabbMax.x < cur.aabbMin.x))
    ((surv.filter fun a => overlapB cur a).map fun a => (cur, a))
      ++ sweepLoop (surv ++ [cur]) rest

/-- Steps 3 of `PhysicsWorld::update`: sort by AABB min-X (`std::sort` with
an unspecified tie order, modelled by merge sort) and sweep.  The emitted
pairs are exactly those handed to the narrow phase. -/
def sweepCandidates (l : List (PhysEntry α)) : List (PhysEntry α × PhysEntry α) :=
  sweepLoop [] (l.mergeSort fun a b => decide (a.aabbMin.x ≤ b.aabbMin.x))

/-- The identifier pairs of the candidate list (current entity first, as the
code passes them to `collideBoxes`). -/
def sweepIdPairs (l : List (PhysEntry α)) : List (ℕ × ℕ) :=
  (sweepCandidates l).map fun pr => (pr.1.id, pr.2.id)

/-- Step 4 applied after the sweep: run `collideBoxes` on every candidate
pair and keep a record exactly when `depth < 0`, filling in the entity
identifiers. -/
def narrowRecords (co si : α → α) (l : List (PhysEntry α)) : List (CollisionRecord α) :=
  (sweepCandidates l).filterMap fun pr =>
    let res := collideBoxes co si pr.1.t pr.1.halfExtents pr.2.t pr.2.halfExtents
    if res.depth < 0 then some { res with index0 := pr.1.id, index1 := pr.2.id } else none

/-- All unordered pairs of a list, each once, in list order. -/
def allPairs : List β → List (β × β)
  | [] => []
  | x :: xs => (xs.map fun y => (x, y)) ++ allPairs xs

/-- Modelled from the spec: the brute-force pairwise AABB overlap test the
broad phase is claimed to be equivalent to — overlap of the closed intervals
in both X and Y. -/
def aabbOverlapClosed (a b : PhysEntry α) : Bool :=
  decide (a.aabbMin.x ≤ b.aabbMax.x) && decide (b.aabbMin.x ≤ a.aabbMax.x) &&
    decide (a.aabbMin.y ≤ b.aabbMax.y) && decide (b.aabbMin.y ≤ a.aabbMax.y)

/-- The brute-force overlap test that the sweep actually implements: open
interval overlap on X (exact touching on a vertical edge does not count),
closed on Y. -/
def aabbOverlapStrictX (a b : PhysEntry α) : Bool :=
  decide (a.aabbMin.x < b.aabbMax.x) && decide (b.aabbMin.x < a.aabbMax.x) &&
    decide (a.aabbMin.y ≤ b.aabbMax.y) && decide (b.aabbMin.y ≤ a.aabbMax.y)

/-- Brute-force candidate set under the closed-interval overlap test
(identifier pairs, in list order). -/
def bruteIdPairsClosed (l : List (PhysEntry α)) : List (ℕ × ℕ) :=
  ((allPairs l).filter fun pr => aabbOverlapClosed pr.1 pr.2).map fun pr => (pr.1.id, pr.2.id)

/-- Brute-force candidate set under the strict-X overlap test. -/
def bruteIdPairsStrictX (l : List (PhysEntry α)) : List (ℕ × ℕ) :=
  ((allPairs l).filter fun pr => aabbOverlapStrictX pr.1 pr.2).map fun pr => (pr.1.id, pr.2.id)

/-- Membership of an unordered pair in a list of ordered pairs. -/
def pairMem (ps : List (ℕ × ℕ)) (i j : ℕ) : Prop := (i, j) ∈ ps ∨ (j, i) ∈ ps

/-- The canonical (sorted) form of an ordered pair, for counting unordered
duplicates. -/
def pkey (p : ℕ × ℕ) : ℕ × ℕ := (min p.1 p.2, max p.1 p.2)

/-- Step 5 of `PhysicsWorld::update` for one collision record whose two
entities both have dynamic bodies: the static/dynamic case split on
`|mass| < 0.0001`, positional correction and inelastic normal response for
the one-static case, the `10·depth·axis` impulse for the dynamic-dynamic
case, and no change when both are static.  Returns the new
`(position0, position1, velocity0, velocity1)`. -/
def resolveCollision (depth : α) (axis : Vec2 α) (m0 m1 : α) (p0 p1 v0 v1 : Vec2 α) :
    Vec2 α × Vec2 α × Vec2 α × Vec2 α :=
  let body0Static := decide (|m0| < 1 / 10000)
  let body1Static := decide (|m1| < 1 / 10000)
  if body0Static ≠ body1Static then
    if body0Static then
      let rv := v1 - v0
      let rv2 := rv - (Vec2.dot rv axis) • axis
      (p0, p1 - depth • axis, v0, rv2 + v0)
    else
      let rv := v0 - v1
      let rv2 := rv - (Vec2.dot rv axis) • axis
      (p0 + depth • axis, p1, rv2 + v1, v1)
  else if !body0Static then
    let impulse := (10 * depth) • axis
    (p0, p1, v0 + (1 / m0) • impulse, v1 - (1 / m1) • impulse)
  else (p0, p1, v0, v1)

/-- Step 6 of `PhysicsWorld::update` for one record: the two-iteration
dispatch loop, invoking the active entity's callback (when registered) with
the active entity, the other entity and the record. -/
def dispatchRecord (cb : ℕ → Bool) (r : CollisionRecord α) : List (ℕ × ℕ × CollisionRecord α) :=
  (List.range 2).flatMap fun i =>
    let active := if i = 0 then r.index0 else r.index1
    let other := if i = 0 then r.index1 else r.index0
    if cb active then [(active, other, r)] else []

/-! ## Componentwise lemmas for the 2D algebra -/

theorem Vec2.ext2 {a b : Vec2 α} (hx : a.x = b.x) (hy : a.y = b.y) : a = b := by
  cases a; cases b; simp_all

@[simp] theorem Vec2.add_x [Add β] (a b : Vec2 β) : (a + b).x = a.x + b.x := rfl

@[simp] theorem Vec2.add_y [Add β] (a b : Vec2 β) : (a + b).y = a.y + b.y := rfl

@[simp] theorem Vec2.sub_x [Sub β] (a b : Vec2 β) : (a - b).x = a.x - b.x := rfl

@[simp] theorem Vec2.sub_y [Sub β] (a b : Vec2 β) : (a - b).y = a.y - b.y := rfl

@[simp] theorem Vec2.neg_x [Neg β] (a : Vec2 β) : (-a).x = -a.x := rfl

@[simp] theorem Vec2.neg_y [Neg β] (a : Vec2 β) : (-a).y = -a.y := rfl

@[simp] theorem Vec2.smul_x [Mul β] (c : β) (a : Vec2 β) : (c • a).x = c * a.x := rfl

@[simp] theorem Vec2.smul_y [Mul β] (c : β) (a : Vec2 β) : (c • a).y = c * a.y := rfl

@[simp] theorem Vec2.dot_def [Mul β] [Add β] (a b : Vec2 β) :
    Vec2.dot a b = a.x * b.x + a.y * b.y := rfl

@[simp] theorem Vec2.perp_def [Neg β] (a : Vec2 β) : a.perp = ⟨-a.y, a.x⟩ := rfl

/-! ## C5: collision resolution case analysis -/

/-- C5: for a collision record between two dynamic-body entities, written
`resolveCollision depth axis m0 m1 p0 p1 v0 v1 = (q0, q1, w0, w1)`: with a
unit collision axis and negative depth, (i) if exactly body 0 is static
(`|mass| < 1e-4`), body 1 moves out along the axis by `|depth|`, its
post-resolution relative normal velocity w.r.t. the static body vanishes and
its tangential velocity is unchanged, body 0 untouched; (ii) symmetrically
when exactly body 1 is static; (iii) if both are non-static the velocity
changes are an equal-and-opposite impulse weighted by inverse masses
(`m0·Δv0 + m1·Δv1 = 0`, positions untouched), and equal-mass head-on
collisions change symmetrically; (iv) if both are static nothing changes. -/
theorem resolveCollision_static0 {depth : α} {axis : Vec2 α} {m0 m1 : α}
    {p0 p1 v0 v1 : Vec2 α} (h0 : |m0| < 1 / 10000) (h1 : ¬(|m1| < 1 / 10000)) :
    resolveCollision depth axis m0 m1 p0 p1 v0 v1 =
      (p0, p1 - depth • axis, v0, v1 - v0 - (Vec2.dot (v1 - v0) axis) • axis + v0) := by
  simp only [resolveCollision]
  simp only [decide_eq_true h0, decide_eq_false h1]
  simp

theorem resolveCollision_static1 {depth : α} {axis : Vec2 α} {m0 m1 : α}
    {p0 p1 v0 v1 : Vec2 α} (h0 : ¬(|m0| < 1 / 10000)) (h1 : |m1| < 1 / 10000) :
    resolveCollision depth axis m0 m1 p0 p1 v0 v1 =
      (p0 + depth • axis, p1, v0 - v1 - (Vec2.dot (v0 - v1) axis) • axis + v1, v1) := by
  simp only [resolveCollision]
  simp only [decide_eq_false h0, decide_eq_true h1]
  simp

theorem resolveCollision_dynamic {depth : α} {axis : Vec2 α} {m0 m1 : α}
    {p0 p1 v0 v1 : Vec2 α} (h0 : ¬(|m0| < 1 / 10000)) (h1 : ¬(|m1| < 1 / 10000)) :
    resolveCollision depth axis m0 m1 p0 p1 v0 v1 =
      (p0, p1, v0 + (1 / m0) • ((10 * depth) • axis), v1 - (1 / m1) • ((10 * depth) • axis)) := by
  simp only [resolveCollision]
  simp only [decide_eq_false h0, decide_eq_false h1]
  simp

theorem resolveCollision_both_static {depth : α} {axis : Vec2 α} {m0 m1 : α}
    {p0 p1 v0 v1 : Vec2 α} (h0 : |m0| < 1 / 10000) (h1 : |m1| < 1 / 10000) :
    resolveCollision depth axis m0 m1 p0 p1 v0 v1 = (p0, p1, v0, v1) := by
  simp only [resolveCollision]
  simp only [decide_eq_true h0, decide_eq_true h1]
  simp

theorem collision_resolution_cases (depth : α) (axis : Vec2 α) (m0 m1 : α)
    (p0 p1 v0 v1 q0 q1 w0 w1 : Vec2 α)
    (hr : resolveCollision depth axis m0 m1 p0 p1 v0 v1 = (q0, q1, w0, w1))
    (hax : Vec2.dot axis axis = 1) (hd : depth < 0) :
    (|m0| < 1 / 10000 → ¬(|m1| < 1 / 10000) →
      q0 = p0 ∧ w0 = v0 ∧ q1 = p1 + |depth| • axis ∧
      Vec2.dot (w1 - v0) axis = 0 ∧ Vec2.dot w1 axis.perp = Vec2.dot v1 axis.perp) ∧
    (¬(|m0| < 1 / 10000) → |m1| < 1 / 10000 →
      q1 = p1 ∧ w1 = v1 ∧ q0 = p0 - |depth| • axis ∧
      Vec2.dot (w0 - v1) axis = 0 ∧ Vec2.dot w0 axis.perp = Vec2.dot v0 axis.perp) ∧
    (¬(|m0| < 1 / 10000) → ¬(|m1| < 1 / 10000) →
      q0 = p0 ∧ q1 = p1 ∧ m0 • (w0 - v0) + m1 • (w1 - v1) = (⟨0, 0⟩ : Vec2 α) ∧
      (m0 = m1 → v1 = -v0 → w1 = -w0)) ∧
    (|m0| < 1 / 10000 → |m1| < 1 / 10000 →
      q0 = p0 ∧ q1 = p1 ∧ w0 = v0 ∧ w1 = v1) := by
  have habs : |depth| = -depth := abs_of_neg hd
  simp only [Vec2.dot_def] at hax
  refine ⟨fun h0 h1 => ?_, fun h0 h1 => ?_, fun h0 h1 => ?_, fun h0 h1 => ?_⟩
  · rw [resolveCollision_static0 h0 h1] at hr
    simp only [Prod.mk.injEq] at hr
    obtain ⟨e0, e1, e2, e3⟩ := hr
    subst e0; subst e1; subst e2; subst e3
    refine ⟨rfl, rfl, ?_, ?_, ?_⟩
    · rw [habs]
      exact Vec2.ext2 (by simp only [Vec2.sub_x, Vec2.add_x, Vec2.smul_x]; ring)
        (by simp only [Vec2.sub_y, Vec2.add_y, Vec2.smul_y]; ring)
    · simp only [Vec2.dot_def, Vec2.sub_x, Vec2.sub_y, Vec2.add_x, Vec2.add_y,
        Vec2.smul_x, Vec2.smul_y]
      linear_combination (-((v1.x - v0.x) * axis.x + (v1.y - v0.y) * axis.y)) * hax
    · simp only [Vec2.dot_def, Vec2.perp_def, Vec2.sub_x, Vec2.sub_y, Vec2.add_x,
        Vec2.add_y, Vec2.smul_x, Vec2.smul_y]
      ring
  · rw [resolveCollision_static1 h0 h1] at hr
    simp only [Prod.mk.injEq] at hr
    obtain ⟨e0, e1, e2, e3⟩ := hr
    subst e0; subst e1; subst e2; subst e3
    refine ⟨rfl, rfl, ?_, ?_, ?_⟩
    · rw [habs]
      exact Vec2.ext2 (by simp only [Vec2.sub_x, Vec2.add_x, Vec2.smul_x, Vec2.neg_x]; ring)
        (by simp only [Vec2.sub_y, Vec2.add_y, Vec2.smul_y, Vec2.neg_y]; ring)
    · simp only [Vec2.dot_def, Vec2.sub_x, Vec2.sub_y, Vec2.add_x, Vec2.add_y,
        Vec2.smul_x, Vec2.smul_y]
      linear_combination (-((v0.x - v1.x) * axis.x + (v0.y - v1.y) * axis.y)) * hax
    · simp only [Vec2.dot_def, Vec2.perp_def, Vec2.sub_x, Vec2.sub_y, Vec2.add_x,
        Vec2.add_y, Vec2.smul_x, Vec2.smul_y]
      ring
  · rw [resolveCollision_dynamic h0 h1] at hr
    simp only [Prod.mk.injEq] at hr
    obtain ⟨e0, e1, e2, e3⟩ := hr
    subst e0; subst e1; subst e2; subst e3
    have hm0 : m0 ≠ 0 := fun h => h0 (by rw [h, abs_zero]; norm_num)
    have hm1 : m1 ≠ 0 := fun h => h1 (by rw [h, abs_zero]; norm_num)
    refine ⟨rfl, rfl, ?_, ?_⟩
    · refine Vec2.ext2 ?_ ?_ <;>
        · simp only [Vec2.add_x, Vec2.add_y, Vec2.sub_x, Vec2.sub_y,
            Vec2.smul_x, Vec2.smul_y]
          field_simp
          ring
    · intro hm hv
      rw [hv, ← hm]
      refine Vec2.ext2 ?_ ?_ <;>
        · simp only [Vec2.add_x, Vec2.add_y, Vec2.sub_x, Vec2.sub_y, Vec2.neg_x,
            Vec2.neg_y, Vec2.smul_x, Vec2.smul_y]
          ring
  · rw [resolveCollision_both_static h0 h1] at hr
    simp only [Prod.mk.injEq] at hr
    obtain ⟨e0, e1, e2, e3⟩ := hr
    exact ⟨e0.symm, e1.symm, e2.symm, e3.symm⟩

/-- Witness for C5 at concrete inputs: unit axis `(1,0)`, depth `-1`,
masses `0` (static) and `1` (dynamic). -/
theorem collision_resolution_cases_witness :
    resolveCollision (-1 : ℚ) ⟨1, 0⟩ 0 1 ⟨0, 0⟩ ⟨2, 0⟩ ⟨0, 0⟩ ⟨-3, 1⟩ =
      (⟨0, 0⟩, ⟨3, 0⟩, ⟨0, 0⟩, ⟨0, 1⟩) ∧
    Vec2.dot (⟨1, 0⟩ : Vec2 ℚ) ⟨1, 0⟩ = 1 ∧ (-1 : ℚ) < 0 ∧
    ((|(0 : ℚ)| < 1 / 10000 → ¬(|(1 : ℚ)| < 1 / 10000) →
      (⟨0, 0⟩ : Vec2 ℚ) = ⟨0, 0⟩ ∧ (⟨0, 0⟩ : Vec2 ℚ) = ⟨0, 0⟩ ∧
        (⟨3, 0⟩ : Vec2 ℚ) = ⟨2, 0⟩ + |(-1 : ℚ)| • ⟨1, 0⟩ ∧
        Vec2.dot ((⟨0, 1⟩ : Vec2 ℚ) - ⟨0, 0⟩) ⟨1, 0⟩ = 0 ∧
        Vec2.dot (⟨0, 1⟩ : Vec2 ℚ) (Vec2.perp ⟨1, 0⟩) =
          Vec2.dot (⟨-3, 1⟩ : Vec2 ℚ) (Vec2.perp ⟨1, 0⟩)) ∧
      (¬(|(0 : ℚ)| < 1 / 10000) → |(1 : ℚ)| < 1 / 10000 →
        (⟨3, 0⟩ : Vec2 ℚ) = ⟨2, 0⟩ ∧ (⟨0, 1⟩ : Vec2 ℚ) = ⟨-3, 1⟩ ∧
        (⟨0, 0⟩ : Vec2 ℚ) = ⟨0, 0⟩ - |(-1 : ℚ)| • ⟨1, 0⟩ ∧
        Vec2.dot ((⟨0, 0⟩ : Vec2 ℚ) - ⟨-3, 1⟩) ⟨1, 0⟩ = 0 ∧
        Vec2.dot (⟨0, 0⟩ : Vec2 ℚ) (Vec2.perp ⟨1, 0⟩) =
          Vec2.dot (⟨0, 0⟩ : Vec2 ℚ) (Vec2.perp ⟨1, 0⟩)) ∧
      (¬(|(0 : ℚ)| < 1 / 10000) → ¬(|(1 : ℚ)| < 1 / 10000) →
        (⟨0, 0⟩ : Vec2 ℚ) = ⟨0, 0⟩ ∧ (⟨3, 0⟩ : Vec2 ℚ) = ⟨2, 0⟩ ∧
        (0 : ℚ) • ((⟨0, 0⟩ : Vec2 ℚ) - ⟨0, 0⟩) + (1 : ℚ) • ((⟨0, 1⟩ : Vec2 ℚ) - ⟨-3, 1⟩) =
          (⟨0, 0⟩ : Vec2 ℚ) ∧
        ((0 : ℚ) = 1 → (⟨-3, 1⟩ : Vec2 ℚ) = -⟨0, 0⟩ → (⟨0, 1⟩ : Vec2 ℚ) = -⟨0, 0⟩)) ∧
      (|(0 : ℚ)| < 1 / 10000 → |(1 : ℚ)| < 1 / 10000 →
        (⟨0, 0⟩ : Vec2 ℚ) = ⟨0, 0⟩ ∧ (⟨3, 0⟩ : Vec2 ℚ) = ⟨2, 0⟩ ∧
        (⟨0, 0⟩ : Vec2 ℚ) = ⟨0, 0⟩ ∧ (⟨0, 1⟩ : Vec2 ℚ) = ⟨-3, 1⟩)) := by
  have hr : resolveCollision (-1 : ℚ) ⟨1, 0⟩ 0 1 ⟨0, 0⟩ ⟨2, 0⟩ ⟨0, 0⟩ ⟨-3, 1⟩ =
      (⟨0, 0⟩, ⟨3, 0⟩, ⟨0, 0⟩, ⟨0, 1⟩) := by
    norm_num [resolveCollision, Vec2.dot]
    constructor <;> exact Vec2.ext2 (by norm_num) (by norm_num)
  have hax : Vec2.dot (⟨1, 0⟩ : Vec2 ℚ) ⟨1, 0⟩ = 1 := by norm_num [Vec2.dot]
  have hd : (-1 : ℚ) < 0 := by norm_num
  exact ⟨hr, hax, hd,
    collision_resolution_cases (-1 : ℚ) ⟨1, 0⟩ 0 1 ⟨0, 0⟩ ⟨2, 0⟩ ⟨0, 0⟩ ⟨-3, 1⟩
      ⟨0, 0⟩ ⟨3, 0⟩ ⟨0, 0⟩ ⟨0, 1⟩ hr hax hd⟩

/-! ## C3: SAT test on two axis-aligned unit boxes -/

/-- C3: `collideBoxesTraced` is `collideBoxes` instrumented with the number
of axis tests evaluated; on half-extents `(0.5, 0.5)`, zero rotations and
centers `(0,0)` / `(0.9,0)`, `collideBoxes` reports `depth = -0.1` along the
axis `(1,0)` (so `depth < 0` and the physics step emits a record); on
centers `(0,0)` / `(1.1,0)` it reports `depth = 0.1 > 0` having evaluated
only the first of the four candidate axes (so no record is emitted). -/
theorem sat_axis_aligned_unit_boxes :
    collideBoxes Real.cos Real.sin ⟨⟨0, 0⟩, 0, 0⟩ ⟨1/2, 1/2⟩ ⟨⟨9/10, 0⟩, 0, 0⟩ ⟨1/2, 1/2⟩ =
      ⟨0, 0, -(1/10), ⟨1, 0⟩⟩ ∧
    (collideBoxes Real.cos Real.sin ⟨⟨0, 0⟩, 0, 0⟩ ⟨1/2, 1/2⟩
        ⟨⟨9/10, 0⟩, 0, 0⟩ ⟨1/2, 1/2⟩).depth < 0 ∧
    collideBoxes Real.cos Real.sin ⟨⟨0, 0⟩, 0, 0⟩ ⟨1/2, 1/2⟩ ⟨⟨11/10, 0⟩, 0, 0⟩ ⟨1/2, 1/2⟩ =
      ⟨0, 0, 1/10, ⟨1, 0⟩⟩ ∧
    collideBoxesTraced Real.cos Real.sin ⟨⟨0, 0⟩, 0, 0⟩ ⟨1/2, 1/2⟩
        ⟨⟨11/10, 0⟩, 0, 0⟩ ⟨1/2, 1/2⟩ =
      (⟨0, 0, 1/10, ⟨1, 0⟩⟩, 1) ∧
    ¬ ((collideBoxesTraced Real.cos Real.sin ⟨⟨0, 0⟩, 0, 0⟩ ⟨1/2, 1/2⟩
        ⟨⟨11/10, 0⟩, 0, 0⟩ ⟨1/2, 1/2⟩).1.depth < 0) := by
  refine ⟨?_, ?_, ?_, ?_, ?_⟩
  · norm_num [collideBoxes, rotationMat2, Mat2.mulVec, Mat2.transpose, Mat2.mulMat,
      Mat2.absCols, Vec2.abs, Real.cos_zero, Real.sin_zero, abs_of_nonneg]
  · norm_num [collideBoxes, rotationMat2, Mat2.mulVec, Mat2.transpose, Mat2.mulMat,
      Mat2.absCols, Vec2.abs, Real.cos_zero, Real.sin_zero, abs_of_nonneg]
  · norm_num [collideBoxes, rotationMat2, Mat2.mulVec, Mat2.transpose, Mat2.mulMat,
      Mat2.absCols, Vec2.abs, Real.cos_zero, Real.sin_zero, abs_of_nonneg]
  · norm_num [collideBoxesTraced, rotationMat2, Mat2.mulVec, Mat2.transpose, Mat2.mulMat,
      Mat2.absCols, Vec2.abs, Real.cos_zero, Real.sin_zero, abs_of_nonneg]
  · norm_num [collideBoxesTraced, rotationMat2, Mat2.mulVec, Mat2.transpose, Mat2.mulMat,
      Mat2.absCols, Vec2.abs, Real.cos_zero, Real.sin_zero, abs_of_nonneg]

/-! ## C9: removeParent on present and missing children -/

theorem findChildIdx_eq_none {cs : List ℕ} {e : ℕ} (h : e ∉ cs) :
    findChildIdx cs e = none := by
  induction cs with
  | nil => rfl
  | cons c cs ih =>
    simp only [List.mem_cons, not_or] at h
    simp [findChildIdx, Ne.symm h.1, ih h.2]

theorem findChildIdx_some_decomp {cs : List ℕ} {e i : ℕ}
    (h : findChildIdx cs e = some i) :
    ∃ l₁ l₂, cs = l₁ ++ e :: l₂ ∧ i = l₁.length ∧ e ∉ l₁ := by
  induction cs generalizing i with
  | nil => simp [findChildIdx] at h
  | cons c cs ih =>
    by_cases hc : c = e
    · subst hc
      simp [findChildIdx] at h
      exact ⟨[], cs, rfl, h.symm, by simp⟩
    · simp only [findChildIdx, if_neg hc, Option.map_eq_some'] at h
      obtain ⟨j, hj, rfl⟩ := h
      obtain ⟨l₁, l₂, rfl, rfl, hni⟩ := ih hj
      exact ⟨c :: l₁, l₂, rfl, by simp, by
        simp only [List.mem_cons, not_or]
        exact ⟨Ne.symm hc, hni⟩⟩

theorem findChildIdx_exists_of_mem {cs : List ℕ} {e : ℕ} (h : e ∈ cs) :
    ∃ i, findChildIdx cs e = some i := by
  induction cs with
  | nil => simp at h
  | cons c cs ih =>
    by_cases hc : c = e
    · exact ⟨0, by simp [findChildIdx, hc]⟩
    · have hmem : e ∈ cs := by
        rcases List.mem_cons.mp h with h1 | h2
        · exact absurd h1.symm hc
        · exact h2
      obtain ⟨i, hi⟩ := ih hmem
      exact ⟨i + 1, by simp [findChildIdx, hc, hi]⟩

theorem set_append_len {β : Type} (l₁ : List β) (e b : β) (t : List β) :
    (l₁ ++ e :: t).set l₁.length b = l₁ ++ b :: t := by
  induction l₁ with
  | nil => rfl
  | cons a l₁ ih => simp [List.set, ih]

theorem swapRemove_perm_erase {cs : List ℕ} {e i : ℕ}
    (h : findChildIdx cs e = some i) : (swapRemove cs i).Perm (cs.erase e) := by
  obtain ⟨l₁, l₂, rfl, rfl, hnot⟩ := findChildIdx_some_decomp h
  have herase : (l₁ ++ e :: l₂).erase e = l₁ ++ l₂ := by
    rw [List.erase_append_right _ (by simpa using hnot), List.erase_cons_head]
  rw [herase]
  rcases List.eq_nil_or_concat l₂ with rfl | ⟨l₂h, b, rfl⟩
  all_goals simp only [List.concat_eq_append] at *
  · have hlen : ¬ (l₁.length < (l₁ ++ [e]).length - 1) := by simp
    simp [swapRemove, hlen]
  · have hlen : l₁.length < (l₁ ++ e :: (l₂h ++ [b])).length - 1 := by
      simp only [List.length_append, List.length_cons]
      omega
    have hlast : (l₁ ++ e :: (l₂h ++ [b])).getLastD 0 = b := by
      have : l₁ ++ e :: (l₂h ++ [b]) = (l₁ ++ e :: l₂h) ++ [b] := by simp
      rw [this, List.getLastD_concat]
    have hset : (l₁ ++ e :: (l₂h ++ [b])).set l₁.length b = l₁ ++ b :: (l₂h ++ [b]) :=
      set_append_len l₁ e b (l₂h ++ [b])
    have hdrop : (l₁ ++ b :: (l₂h ++ [b])).dropLast = l₁ ++ b :: l₂h := by
      have : l₁ ++ b :: (l₂h ++ [b]) = (l₁ ++ b :: l₂h) ++ [b] := by simp
      rw [this, List.dropLast_concat]
    rw [swapRemove, if_pos hlen, hlast, hset, hdrop]
    exact List.Perm.append_left l₁ (List.perm_append_singleton b l₂h).symm

/-- C9: if `SceneGraph::destroy(e)` runs while `e` is missing from its
parent's children list, `removeParent` reports the "transform hierarchy data
is suspect" warning and otherwise changes nothing, and `destroy` still
removes the component; if `e` is present, `removeParent` does not warn and
removes exactly one occurrence of `e` (by swap-remove, so the surviving list
is a permutation of `children.erase e`), touching no other node. -/
theorem remove_parent_missing_child (s : SGState α) (e : ℕ) :
    (e ∉ (s.nodes (s.nodes e).parent).children →
      removeParent s e = (s, true) ∧
      (sgDestroy s e).nodes = s.nodes ∧ (sgDestroy s e).live = s.live.erase e) ∧
    (e ∈ (s.nodes (s.nodes e).parent).children →
      (removeParent s e).2 = false ∧
      (((removeParent s e).1.nodes (s.nodes e).parent).children).Perm
        (((s.nodes (s.nodes e).parent).children).erase e) ∧
      (∀ x, x ≠ (s.nodes e).parent → (removeParent s e).1.nodes x = s.nodes x) ∧
      (removeParent s e).1.live = s.live ∧
      (sgDestroy s e).live = s.live.erase e ∧
      (((sgDestroy s e).nodes (s.nodes e).parent).children).Perm
        (((s.nodes (s.nodes e).parent).children).erase e)) := by
  constructor
  · intro hmem
    have hr : removeParent s e = (s, true) := by
      rw [removeParent]
      rw [findChildIdx_eq_none hmem]
    exact ⟨hr, by simp [sgDestroy, hr], by simp [sgDestroy, hr]⟩
  · intro hmem
    obtain ⟨i, hi⟩ := findChildIdx_exists_of_mem hmem
    have hr : removeParent s e =
        ((s.upd (s.nodes e).parent fun m => { m with children := swapRemove m.children i }),
          false) := by
      rw [removeParent]
      rw [hi]
    have hperm := swapRemove_perm_erase hi
    refine ⟨by simp [hr], ?_, ?_, by simp [hr, SGState.upd], by simp [sgDestroy, hr, SGState.upd], ?_⟩
    · rw [hr]
      simpa [SGState.upd] using hperm
    · intro x hx
      rw [hr]
      simp [SGState.upd, Function.update_noteq hx]
    · simp only [sgDestroy, hr]
      simpa [SGState.upd] using hperm

/-- Witness for C9 on a concrete two-node graph, exercising both the
found-child case (entity 1 under the root) and the missing-child case
(entity 2 whose parent's list does not contain it). -/
theorem remove_parent_missing_child_witness :
    (let s : SGState ℚ :=
      { nodes := fun n =>
          if n = 0 then
            { loc := ⟨⟨0, 0⟩, 0, 0⟩, world := ⟨⟨0, 0⟩, 0, 0⟩, heightForDepth := 0,
              parent := 0, children := [0, 1], dirty := true }
          else
            { loc := ⟨⟨0, 0⟩, 0, 0⟩, world := ⟨⟨0, 0⟩, 0, 0⟩, heightForDepth := 0,
              parent := 0, children := [], dirty := true }
        live := {0, 1} }
     (1 ∈ (s.nodes (s.nodes 1).parent).children) ∧
       (removeParent s 1).2 = false ∧
       (((removeParent s 1).1.nodes (s.nodes 1).parent).children).Perm
         (((s.nodes (s.nodes 1).parent).children).erase 1) ∧
       (2 ∉ (s.nodes (s.nodes 2).parent).children → removeParent s 2 = (s, true))) := by
  intro s
  have h1 : (1 : ℕ) ∈ (s.nodes (s.nodes 1).parent).children := by
    show (1 : ℕ) ∈ [0, 1]
    simp
  have hmain := remove_parent_missing_child s 1
  have hfound := hmain.2 h1
  exact ⟨h1, hfound.1, hfound.2.1, fun hm => ((remove_parent_missing_child s 2).1 hm).1⟩

/-! ## C7 and C10: component store swap-remove, create, and bounds checking -/

theorem getElem?_dropLastD {β : Type} (l : List β) (i : ℕ) :
    l.dropLast[i]? = if i < l.length - 1 then l[i]? else none := by
  rw [List.dropLast_eq_take, List.getElem?_take]

theorem getD_of_getElem? {β : Type} {l : List β} {i : ℕ} {v : β} (d : β)
    (h : l[i]? = some v) : l.getD i d = v := by
  rw [List.getD_eq_getElem?_getD, h]
  rfl

namespace CompStore

variable {β : Type}

theorem hasC_true_elim {s : CompStore β} {e : ℕ} (h : s.hasC e = true) :
    e < s.packedIndices.length ∧
      s.packedIndices[e]? = some (s.packedIndices.getD e 0) ∧
      s.packedIndices.getD e 0 ≠ InvalidIndex := by
  rw [hasC, Bool.and_eq_true, decide_eq_true_eq, decide_eq_true_eq] at h
  obtain ⟨hl, hv⟩ := h
  cases hx : s.packedIndices[e]? with
  | none => exact absurd (List.getElem?_eq_none_iff.mp hx) (by omega)
  | some v =>
    rw [getD_of_getElem? 0 hx]
    rw [getD_of_getElem? InvalidIndex hx] at hv
    exact ⟨hl, rfl, hv⟩

theorem hasC_of_packed {s : CompStore β} {e p : ℕ}
    (hp : s.packedIndices[e]? = some p) (hne : p ≠ InvalidIndex) :
    s.hasC e = true := by
  obtain ⟨hl, -⟩ := List.getElem?_eq_some_iff.mp hp
  rw [hasC, Bool.and_eq_true, decide_eq_true_eq, decide_eq_true_eq]
  exact ⟨hl, by rw [List.getD_eq_getElem?_getD, hp]; exact hne⟩

theorem hasC_false_iff {s : CompStore β} {e : ℕ} :
    s.hasC e = false ↔
      s.packedIndices[e]? = none ∨ s.packedIndices[e]? = some InvalidIndex := by
  constructor
  · intro h
    cases hx : s.packedIndices[e]? with
    | none => exact Or.inl rfl
    | some v =>
      by_cases hv : v = InvalidIndex
      · exact Or.inr (by rw [hv])
      · have htrue := hasC_of_packed hx hv
        rw [h] at htrue
        simp at htrue
  · intro h
    cases hh : s.hasC e with
    | false => rfl
    | true =>
      obtain ⟨-, hsome, hne⟩ := hasC_true_elim hh
      rcases h with h | h
      · rw [h] at hsome
        cases hsome
      · rw [h] at hsome
        injection hsome with hh2
        exact (hne hh2.symm).elim

/-- Under the invariant, `has` answers exactly semantic membership, for
every 32-bit identifier including out-of-range ones. -/
theorem hasC_iff_mem (s : CompStore β) (hinv : s.Inv) (e : ℕ) :
    s.hasC e = true ↔ ∃ i : ℕ, s.componentIndices[i]? = some e := by
  constructor
  · intro h
    obtain ⟨-, hsome, hne⟩ := hasC_true_elim h
    exact ⟨_, hinv.packed_sound e _ hsome hne⟩
  · rintro ⟨i, hi⟩
    have hp := hinv.roundtrip i e hi
    obtain ⟨hlt, -⟩ := List.getElem?_eq_some_iff.mp hi
    have hs := hinv.size_lt
    exact hasC_of_packed hp (by omega)

theorem hasC_ext {s t : CompStore β} (x : ℕ)
    (hl : t.packedIndices.length = s.packedIndices.length)
    (hx : t.packedIndices[x]? = s.packedIndices[x]?) : t.hasC x = s.hasC x := by
  simp [hasC, hl, List.getD_eq_getElem?_getD, hx]

theorem destroyC_spec [Inhabited β] (s : CompStore β) (e : ℕ)
    (hinv : s.Inv) (he : s.hasC e = true) :
    (s.destroyC e).Inv ∧
    (s.destroyC e).components.length = s.components.length - 1 ∧
    (s.destroyC e).hasC e = false ∧
    (∀ x : ℕ, x ≠ e → (s.destroyC e).hasC x = s.hasC x) ∧
    (∀ x : ℕ, x ≠ e → s.hasC x = true → (s.destroyC e).getC x = s.getC x) ∧
    (s.packedIndices.getD e 0 < s.components.length - 1 →
      (s.destroyC e).componentIndices[s.packedIndices.getD e 0]? =
        some (s.componentIndices.getLastD 0)) := by
  obtain ⟨hel, hpe, hpne⟩ := hasC_true_elim he
  have hcie : s.componentIndices[s.packedIndices.getD e 0]? = some e :=
    hinv.packed_sound e _ hpe hpne
  have hpn : s.packedIndices.getD e 0 < s.componentIndices.length :=
    (List.getElem?_eq_some_iff.mp hcie).1
  have hlen := hinv.len_eq
  have hsz := hinv.size_lt
  have hbsome : s.componentIndices[s.componentIndices.length - 1]? =
      some (s.componentIndices.getLastD 0) := by
    rw [List.getLastD_eq_getLast?, List.getLast?_eq_getElem?]
    cases hx : s.componentIndices[s.componentIndices.length - 1]? with
    | none => exact absurd (List.getElem?_eq_none_iff.mp hx) (by omega)
    | some v => rfl
  have hcolast : s.components[s.components.length - 1]? =
      some (s.components.getLastD default) := by
    rw [List.getLastD_eq_getLast?, List.getLast?_eq_getElem?]
    cases hx : s.components[s.components.length - 1]? with
    | none => exact absurd (List.getElem?_eq_none_iff.mp hx) (by omega)
    | some v => rfl
  have hpkb : s.packedIndices[s.componentIndices.getLastD 0]? =
      some (s.componentIndices.length - 1) := hinv.roundtrip _ _ hbsome
  have hinj : ∀ i j x : ℕ, s.componentIndices[i]? = some x →
      s.componentIndices[j]? = some x → i = j := by
    intro i j x hi hj
    have h1 := hinv.roundtrip i x hi
    have h2 := hinv.roundtrip j x hj
    rw [h1] at h2
    exact Option.some.inj h2
  have hslot : ∀ i x y : ℕ, s.componentIndices[i]? = some x →
      s.componentIndices[i]? = some y → x = y := by
    intro i x y hx hy
    rw [hx] at hy
    exact Option.some.inj hy
  by_cases hsw : s.packedIndices.getD e 0 < s.components.length - 1
  · -- swap case: e's slot is not the last one
    have hd : s.destroyC e =
        ⟨(s.components.set (s.packedIndices.getD e 0) (s.components.getLastD default)).dropLast,
          ((s.componentIndices.set (s.packedIndices.getD e 0)
            (s.componentIndices.getLastD 0)).dropLast),
          ((s.packedIndices.set (s.componentIndices.getLastD 0)
            (s.packedIndices.getD e 0)).set e InvalidIndex)⟩ := by
      simp only [destroyC, if_pos hsw]
    have hbe : s.componentIndices.getLastD 0 ≠ e := by
      intro h
      rw [h, hpe] at hpkb
      injection hpkb with h2
      omega
    have hblt : s.componentIndices.getLastD 0 < s.packedIndices.length :=
      (List.getElem?_eq_some_iff.mp hpkb).1
    have hci' : ∀ i : ℕ,
        (((s.componentIndices.set (s.packedIndices.getD e 0)
            (s.componentIndices.getLastD 0)).dropLast))[i]? =
          if i < s.componentIndices.length - 1 then
            (if i = s.packedIndices.getD e 0 then some (s.componentIndices.getLastD 0)
             else s.componentIndices[i]?)
          else none := by
      intro i
      rw [getElem?_dropLastD, List.length_set]
      by_cases h1 : i < s.componentIndices.length - 1
      · rw [if_pos h1, if_pos h1]
        by_cases h2 : i = s.packedIndices.getD e 0
        · subst h2
          rw [if_pos rfl, List.getElem?_set_eq hpn]
        · rw [if_neg h2, List.getElem?_set_ne (fun h => h2 h.symm)]
      · rw [if_neg h1, if_neg h1]
    have hco' : ∀ i : ℕ,
        ((s.components.set (s.packedIndices.getD e 0)
            (s.components.getLastD default)).dropLast)[i]? =
          if i < s.components.length - 1 then
            (if i = s.packedIndices.getD e 0 then some (s.components.getLastD default)
             else s.components[i]?)
          else none := by
      intro i
      rw [getElem?_dropLastD, List.length_set]
      by_cases h1 : i < s.components.length - 1
      · rw [if_pos h1, if_pos h1]
        by_cases h2 : i = s.packedIndices.getD e 0
        · subst h2
          rw [if_pos rfl, List.getElem?_set_eq (by omega)]
        · rw [if_neg h2, List.getElem?_set_ne (fun h => h2 h.symm)]
      · rw [if_neg h1, if_neg h1]
    have hpk' : ∀ x : ℕ,
        (((s.packedIndices.set (s.componentIndices.getLastD 0)
            (s.packedIndices.getD e 0)).set e InvalidIndex))[x]? =
          if x = e then some InvalidIndex
          else if x = s.componentIndices.getLastD 0 then some (s.packedIndices.getD e 0)
          else s.packedIndices[x]? := by
      intro x
      by_cases h1 : x = e
      · subst h1
        rw [if_pos rfl, List.getElem?_set_eq (by rw [List.length_set]; exact hel)]
      · rw [if_neg h1, List.getElem?_set_ne (fun h => h1 h.symm)]
        by_cases h2 : x = s.componentIndices.getLastD 0
        · subst h2
          rw [if_pos rfl, List.getElem?_set_eq hblt]
        · rw [if_neg h2, List.getElem?_set_ne (fun h => h2 h.symm)]
    have hInv : (s.destroyC e).Inv := by
      rw [hd]
      refine ⟨?_, ?_, ?_, ?_⟩
      · simp only [List.length_dropLast, List.length_set]
        omega
      · intro i x hx
        rw [hci' i] at hx
        split_ifs at hx with h1 h2
        · injection hx with h3
          subst h3
          rw [hpk' _, if_neg hbe, if_pos rfl, h2]
        · have hxe : x ≠ e := by
            intro h
            subst h
            exact h2 (hinj i _ x hx hcie)
          have hxb : x ≠ s.componentIndices.getLastD 0 := by
            intro h
            subst h
            exact absurd (hinj i (s.componentIndices.length - 1) _ hx hbsome) (by omega)
          rw [hpk' x, if_neg hxe, if_neg hxb]
          exact hinv.roundtrip i x hx
      · intro x i hx hi
        rw [hpk' x] at hx
        split_ifs at hx with h1 h2
        · injection hx with h3
          exact absurd h3.symm hi
        · injection hx with h3
          subst h3
          subst h2
          rw [hci' (s.packedIndices.getD e 0), if_pos (by omega), if_pos rfl]
        · have hold := hinv.packed_sound x i hx hi
          have hilt : i < s.componentIndices.length := (List.getElem?_eq_some_iff.mp hold).1
          have hip : i ≠ s.packedIndices.getD e 0 := by
            intro h
            subst h
            exact h1 (hslot _ x e hold hcie)
          have hib : i ≠ s.componentIndices.length - 1 := by
            intro h
            subst h
            exact h2 (hslot _ x _ hold hbsome)
          rw [hci' i, if_pos (by omega), if_neg hip]
          exact hold
      · simp only [List.length_dropLast, List.length_set]
        omega
    refine ⟨hInv, ?_, ?_, ?_, ?_, ?_⟩
    · rw [hd]
      simp only [List.length_dropLast, List.length_set]
    · apply hasC_false_iff.mpr
      rw [hd, hpk' e, if_pos rfl]
      exact Or.inr rfl
    · intro x hx
      by_cases hxb : x = s.componentIndices.getLastD 0
      · subst hxb
        rw [hasC_of_packed hpkb (by omega), hd]
        exact hasC_of_packed (by rw [hpk' _, if_neg hbe, if_pos rfl]) hpne
      · apply hasC_ext x
        · rw [hd]
          simp only [List.length_set]
        · rw [hd, hpk' x, if_neg hx, if_neg hxb]
    · intro x hx hhx
      obtain ⟨-, hpex, hpnex⟩ := hasC_true_elim hhx
      have hcx : s.componentIndices[s.packedIndices.getD x 0]? = some x :=
        hinv.packed_sound x _ hpex hpnex
      have hcxlt : s.packedIndices.getD x 0 < s.componentIndices.length :=
        (List.getElem?_eq_some_iff.mp hcx).1
      by_cases hxb : x = s.componentIndices.getLastD 0
      · subst hxb
        have hxn : s.packedIndices.getD (s.componentIndices.getLastD 0) 0 =
            s.componentIndices.length - 1 := by
          rw [hpex] at hpkb
          exact Option.some.inj hpkb
        rw [getC, getC, hd]
        have h1 : (((s.packedIndices.set (s.componentIndices.getLastD 0)
            (s.packedIndices.getD e 0)).set e InvalidIndex)).getD
              (s.componentIndices.getLastD 0) 0 = s.packedIndices.getD e 0 :=
          getD_of_getElem? 0 (by rw [hpk' _, if_neg hbe, if_pos rfl])
        rw [h1, hxn]
        have h2 : ((s.components.set (s.packedIndices.getD e 0)
            (s.components.getLastD default)).dropLast)[s.packedIndices.getD e 0]? =
            some (s.components.getLastD default) := by
          rw [hco' _, if_pos hsw, if_pos rfl]
        rw [getD_of_getElem? default h2]
        have h3 : s.componentIndices.length - 1 = s.components.length - 1 := by omega
        rw [h3, getD_of_getElem? default hcolast]
      · have hxp : s.packedIndices.getD x 0 ≠ s.packedIndices.getD e 0 := by
          intro h
          rw [h] at hcx
          exact hx (hslot _ x e hcx hcie)
        have hxn : s.packedIndices.getD x 0 ≠ s.componentIndices.length - 1 := by
          intro h
          rw [h] at hcx
          exact hxb (hslot _ x _ hcx hbsome)
        obtain ⟨v, hv⟩ : ∃ v, s.components[s.packedIndices.getD x 0]? = some v := by
          cases hxx : s.components[s.packedIndices.getD x 0]? with
          | none => exact absurd (List.getElem?_eq_none_iff.mp hxx) (by omega)
          | some v => exact ⟨v, rfl⟩
        rw [getC, getC, hd]
        have h1 : (((s.packedIndices.set (s.componentIndices.getLastD 0)
            (s.packedIndices.getD e 0)).set e InvalidIndex)).getD x 0 =
              s.packedIndices.getD x 0 := by
          rw [List.getD_eq_getElem?_getD, hpk' x, if_neg hx, if_neg hxb,
            ← List.getD_eq_getElem?_getD]
        rw [h1]
        rw [getD_of_getElem? default
          (by rw [hco' _, if_pos (by omega), if_neg hxp]; exact hv)]
        rw [getD_of_getElem? default hv]
    · intro h
      rw [hd, hci' _, if_pos (by omega), if_pos rfl]
  · -- e's slot is the last one: plain pop
    have hd : s.destroyC e =
        ⟨s.components.dropLast, s.componentIndices.dropLast,
          s.packedIndices.set e InvalidIndex⟩ := by
      simp only [destroyC, if_neg hsw]
    have hpeq : s.packedIndices.getD e 0 = s.componentIndices.length - 1 := by omega
    have heb : s.componentIndices.getLastD 0 = e := by
      rw [hpeq] at hcie
      exact hslot _ _ e hbsome hcie
    have hpk' : ∀ x : ℕ, ((s.packedIndices.set e InvalidIndex))[x]? =
        if x = e then some InvalidIndex else s.packedIndices[x]? := by
      intro x
      by_cases h1 : x = e
      · subst h1
        rw [if_pos rfl, List.getElem?_set_eq hel]
      · rw [if_neg h1, List.getElem?_set_ne (fun h => h1 h.symm)]
    have hInv : (s.destroyC e).Inv := by
      rw [hd]
      refine ⟨?_, ?_, ?_, ?_⟩
      · simp only [List.length_dropLast]
        omega
      · intro i x hx
        rw [getElem?_dropLastD] at hx
        split_ifs at hx with h1
        · have hxe : x ≠ e := by
            intro h
            subst h
            have := hinj i _ x hx hcie
            omega
          rw [hpk' x, if_neg hxe]
          exact hinv.roundtrip i x hx
      · intro x i hx hi
        rw [hpk' x] at hx
        split_ifs at hx with h1
        · injection hx with h3
          exact absurd h3.symm hi
        · have hold := hinv.packed_sound x i hx hi
          have hilt : i < s.componentIndices.length := (List.getElem?_eq_some_iff.mp hold).1
          have hib : i ≠ s.componentIndices.length - 1 := by
            intro h
            subst h
            exact h1 (hslot _ x _ hold (heb ▸ hbsome))
          rw [getElem?_dropLastD, if_pos (by omega)]
          exact hold
      · simp only [List.length_dropLast]
        omega
    refine ⟨hInv, ?_, ?_, ?_, ?_, ?_⟩
    · rw [hd]
      simp only [List.length_dropLast]
    · apply hasC_false_iff.mpr
      rw [hd, hpk' e, if_pos rfl]
      exact Or.inr rfl
    · intro x hx
      apply hasC_ext x
      · rw [hd]
        simp only [List.length_set]
      · rw [hd, hpk' x, if_neg hx]
    · intro x hx hhx
      obtain ⟨-, hpex, hpnex⟩ := hasC_true_elim hhx
      have hcx : s.componentIndices[s.packedIndices.getD x 0]? = some x :=
        hinv.packed_sound x _ hpex hpnex
      have hcxlt : s.packedIndices.getD x 0 < s.componentIndices.length :=
        (List.getElem?_eq_some_iff.mp hcx).1
      have hxn : s.packedIndices.getD x 0 ≠ s.componentIndices.length - 1 := by
        intro h
        rw [h] at hcx
        exact hx (hslot _ x e hcx (heb ▸ hbsome))
      obtain ⟨v, hv⟩ : ∃ v, s.components[s.packedIndices.getD x 0]? = some v := by
        cases hxx : s.components[s.packedIndices.getD x 0]? with
        | none => exact absurd (List.getElem?_eq_none_iff.mp hxx) (by omega)
        | some v => exact ⟨v, rfl⟩
      rw [getC, getC, hd]
      have h1 : ((s.packedIndices.set e InvalidIndex)).getD x 0 =
          s.packedIndices.getD x 0 := by
        rw [List.getD_eq_getElem?_getD, hpk' x, if_neg hx, ← List.getD_eq_getElem?_getD]
      rw [h1]
      rw [getD_of_getElem? default
        (by rw [getElem?_dropLastD, if_pos (by omega)]; exact hv)]
      rw [getD_of_getElem? default hv]
    · intro h
      exact absurd h hsw

theorem createC_spec [Inhabited β] (s : CompStore β) (e : ℕ) (v : β)
    (hinv : s.Inv) (he : s.hasC e = false)
    (hsz : s.componentIndices.length + 1 < InvalidIndex) :
    (s.createC e v).Inv ∧
    (s.createC e v).components = s.components ++ [v] ∧
    (s.createC e v).hasC e = true ∧
    (s.createC e v).getC e = v ∧
    (s.createC e v).packedIndices.length = max s.packedIndices.length (e + 1) ∧
    (∀ x : ℕ, x ≠ e → (s.createC e v).hasC x = s.hasC x) ∧
    (∀ x : ℕ, x ≠ e → s.hasC x = true → (s.createC e v).getC x = s.getC x) := by
  have hlen := hinv.len_eq
  have hszlt := hinv.size_lt
  have hd : s.createC e v =
      ⟨s.components ++ [v], s.componentIndices ++ [e],
        (if s.packedIndices.length ≤ e
          then s.packedIndices ++ List.replicate (e + 1 - s.packedIndices.length) InvalidIndex
          else s.packedIndices).set e s.components.length⟩ := by
    simp only [createC]
  have hpadlen : (if s.packedIndices.length ≤ e
      then s.packedIndices ++ List.replicate (e + 1 - s.packedIndices.length) InvalidIndex
      else s.packedIndices).length = max s.packedIndices.length (e + 1) := by
    split_ifs with h
    · simp only [List.length_append, List.length_replicate]
      omega
    · omega
  have hpadget : ∀ x : ℕ, (if s.packedIndices.length ≤ e
      then s.packedIndices ++ List.replicate (e + 1 - s.packedIndices.length) InvalidIndex
      else s.packedIndices)[x]? =
        if x < s.packedIndices.length then s.packedIndices[x]?
        else if x < max s.packedIndices.length (e + 1) then some InvalidIndex else none := by
    intro x
    split_ifs with h h1 h2
    · exact List.getElem?_append_left h1
    · rw [List.getElem?_append_right (by omega), List.getElem?_replicate, if_pos (by omega)]
    · rw [List.getElem?_append_right (by omega), List.getElem?_replicate, if_neg (by omega)]
    · rfl
    · omega
    · exact List.getElem?_eq_none_iff.mpr (by omega)
  have hee : e < (if s.packedIndices.length ≤ e
      then s.packedIndices ++ List.replicate (e + 1 - s.packedIndices.length) InvalidIndex
      else s.packedIndices).length := by
    rw [hpadlen]
    omega
  have hpk' : ∀ x : ℕ, ((if s.packedIndices.length ≤ e
      then s.packedIndices ++ List.replicate (e + 1 - s.packedIndices.length) InvalidIndex
      else s.packedIndices).set e s.components.length)[x]? =
        if x = e then some s.components.length
        else if x < s.packedIndices.length then s.packedIndices[x]?
        else if x < max s.packedIndices.length (e + 1) then some InvalidIndex else none := by
    intro x
    by_cases h1 : x = e
    · subst h1
      rw [if_pos rfl, List.getElem?_set_eq hee]
    · rw [if_neg h1, List.getElem?_set_ne (fun h => h1 h.symm), hpadget x]
  have hci' : ∀ i : ℕ, (s.componentIndices ++ [e])[i]? =
      if i < s.componentIndices.length then s.componentIndices[i]?
      else if i = s.componentIndices.length then some e else none := by
    intro i
    split_ifs with h1 h2
    · exact List.getElem?_append_left h1
    · subst h2
      exact List.getElem?_concat_length s.componentIndices e
    · rw [List.getElem?_eq_none_iff]
      simp only [List.length_append, List.length_cons, List.length_nil]
      omega
  have hInv : (s.createC e v).Inv := by
    rw [hd]
    refine ⟨?_, ?_, ?_, ?_⟩
    · simp [hlen]
    · intro i x hx
      rw [hci' i] at hx
      split_ifs at hx with h1 h2
      · have hxe : x ≠ e := by
          intro h
          subst h
          exact absurd ((hasC_iff_mem s hinv x).mpr ⟨i, hx⟩) (by rw [he]; simp)
        have hold := hinv.roundtrip i x hx
        have hxlt : x < s.packedIndices.length := (List.getElem?_eq_some_iff.mp hold).1
        rw [hpk' x, if_neg hxe, if_pos hxlt]
        exact hold
      · injection hx with h3
        subst h3
        rw [hpk' _, if_pos rfl, h2, hlen]
    · intro x i hx hi
      rw [hpk' x] at hx
      split_ifs at hx with h1 h2 h3
      · injection hx with h3
        subst h1
        rw [hci' i, ← h3, hlen, if_neg (by omega), if_pos rfl]
      · have hold := hinv.packed_sound x i hx hi
        have hilt : i < s.componentIndices.length := (List.getElem?_eq_some_iff.mp hold).1
        rw [hci' i, if_pos hilt]
        exact hold
      · exact absurd (Option.some.inj hx).symm hi
    · simp only [List.length_append, List.length_cons, List.length_nil]
      omega
  have hpke : ((if s.packedIndices.length ≤ e
      then s.packedIndices ++ List.replicate (e + 1 - s.packedIndices.length) InvalidIndex
      else s.packedIndices).set e s.components.length)[e]? = some s.components.length := by
    rw [hpk' e, if_pos rfl]
  refine ⟨hInv, by rw [hd], ?_, ?_, ?_, ?_, ?_⟩
  · rw [hd]
    exact hasC_of_packed hpke (by omega)
  · rw [hd, getC, getD_of_getElem? 0 hpke, getD_of_getElem? default
      (List.getElem?_concat_length s.components v)]
  · rw [hd]
    simp only [List.length_set]
    exact hpadlen
  · intro x hx
    cases hhx : s.hasC x with
    | true =>
      obtain ⟨hxl, hpex, hpnex⟩ := hasC_true_elim hhx
      rw [hd]
      exact hasC_of_packed (by rw [hpk' x, if_neg hx, if_pos hxl]; exact hpex) hpnex
    | false =>
      rcases hasC_false_iff.mp hhx with h | h
      · have hxge : s.packedIndices.length ≤ x := List.getElem?_eq_none_iff.mp h
        rw [hd]
        apply hasC_false_iff.mpr
        by_cases hxm : x < max s.packedIndices.length (e + 1)
        · exact Or.inr (by rw [hpk' x, if_neg hx, if_neg (by omega), if_pos hxm])
        · exact Or.inl (by rw [hpk' x, if_neg hx, if_neg (by omega), if_neg hxm])
      · have hxl : x < s.packedIndices.length := (List.getElem?_eq_some_iff.mp h).1
        rw [hd]
        exact hasC_false_iff.mpr (Or.inr (by rw [hpk' x, if_neg hx, if_pos hxl]; exact h))
  · intro x hx hhx
    obtain ⟨hxl, hpex, hpnex⟩ := hasC_true_elim hhx
    have hcx : s.componentIndices[s.packedIndices.getD x 0]? = some x :=
      hinv.packed_sound x _ hpex hpnex
    have hcxlt : s.packedIndices.getD x 0 < s.componentIndices.length :=
      (List.getElem?_eq_some_iff.mp hcx).1
    obtain ⟨w, hw⟩ : ∃ w, s.components[s.packedIndices.getD x 0]? = some w := by
      cases hxx : s.components[s.packedIndices.getD x 0]? with
      | none => exact absurd (List.getElem?_eq_none_iff.mp hxx) (by omega)
      | some w => exact ⟨w, rfl⟩
    rw [hd, getC, getC]
    have h1 : ((if s.packedIndices.length ≤ e
        then s.packedIndices ++ List.replicate (e + 1 - s.packedIndices.length) InvalidIndex
        else s.packedIndices).set e s.components.length).getD x 0 =
          s.packedIndices.getD x 0 := by
      rw [List.getD_eq_getElem?_getD, hpk' x, if_neg hx, if_pos hxl,
        ← List.getD_eq_getElem?_getD]
    rw [h1, getD_of_getElem? default
      (by rw [List.getElem?_append_left (by omega)]; exact hw), getD_of_getElem? default hw]

end CompStore

/-- C7: for a store satisfying the invariant and an entity `e` holding the
component, `destroy(e)` swaps the last dense element into `e`'s slot (when
not already last), shrinks the dense arrays by one, marks `e` absent, and
re-establishes the invariant; every other entity keeps its `has` status and
its `get` value.  `create(e)` on an entity without the component appends
densely, grows the sparse map to `max(len, e+1)`, and preserves the
invariant. -/
theorem store_swap_remove_and_create {β : Type} [Inhabited β] (s : CompStore β) (e : ℕ)
    (hinv : s.Inv) (he : s.hasC e = true) :
    ((s.destroyC e).Inv ∧
      (s.destroyC e).components.length = s.components.length - 1 ∧
      (s.destroyC e).hasC e = false ∧
      (∀ x : ℕ, x ≠ e → (s.destroyC e).hasC x = s.hasC x) ∧
      (∀ x : ℕ, x ≠ e → s.hasC x = true → (s.destroyC e).getC x = s.getC x) ∧
      (s.packedIndices.getD e 0 < s.components.length - 1 →
        (s.destroyC e).componentIndices[s.packedIndices.getD e 0]? =
          some (s.componentIndices.getLastD 0))) ∧
    (∀ (t : CompStore β) (x : ℕ) (v : β), t.Inv → t.hasC x = false →
      t.componentIndices.length + 1 < InvalidIndex →
      (t.createC x v).Inv ∧
      (t.createC x v).components = t.components ++ [v] ∧
      (t.createC x v).hasC x = true ∧
      (t.createC x v).packedIndices.length = max t.packedIndices.length (x + 1)) :=
  ⟨CompStore.destroyC_spec s e hinv he, fun t x v h1 h2 h3 =>
    let h := CompStore.createC_spec t x v h1 h2 h3
    ⟨h.1, h.2.1, h.2.2.1, h.2.2.2.2.1⟩⟩

theorem witness_store_inv :
    (⟨[10, 20, 30], [5, 1, 3],
      [InvalidIndex, 1, InvalidIndex, 2, InvalidIndex, 0]⟩ : CompStore ℕ).Inv := by
  refine ⟨rfl, ?_, ?_, by norm_num [InvalidIndex]⟩
  · intro i e h
    rcases Nat.lt_or_ge i 3 with hi | hi
    · interval_cases i <;> simp at h <;> subst h <;> decide
    · rw [List.getElem?_eq_none_iff.mpr (by simpa using hi)] at h
      cases h
  · intro e i h hne
    rcases Nat.lt_or_ge e 6 with hLT | hGE
    · interval_cases e <;> simp at h <;>
        first
        | exact absurd h.symm hne
        | (subst h; decide)
    · rw [List.getElem?_eq_none_iff.mpr (by simpa using hGE)] at h
      cases h

/-- Witness for C7: a three-entity store, destroying entity `5` (dense slot
0, not the last slot, so the swap path runs). -/
theorem store_swap_remove_and_create_witness :
    (⟨[10, 20, 30], [5, 1, 3],
      [InvalidIndex, 1, InvalidIndex, 2, InvalidIndex, 0]⟩ : CompStore ℕ).Inv ∧
    (⟨[10, 20, 30], [5, 1, 3],
      [InvalidIndex, 1, InvalidIndex, 2, InvalidIndex, 0]⟩ : CompStore ℕ).hasC 5 = true ∧
    ((⟨[10, 20, 30], [5, 1, 3],
      [InvalidIndex, 1, InvalidIndex, 2, InvalidIndex, 0]⟩ : CompStore ℕ).destroyC 5).Inv ∧
    ((⟨[10, 20, 30], [5, 1, 3],
      [InvalidIndex, 1, InvalidIndex, 2, InvalidIndex, 0]⟩ : CompStore ℕ).destroyC
        5).components.length = 3 - 1 ∧
    ((⟨[10, 20, 30], [5, 1, 3],
      [InvalidIndex, 1, InvalidIndex, 2, InvalidIndex, 0]⟩ : CompStore ℕ).destroyC
        5).hasC 5 = false := by
  have he : (⟨[10, 20, 30], [5, 1, 3],
      [InvalidIndex, 1, InvalidIndex, 2, InvalidIndex, 0]⟩ : CompStore ℕ).hasC 5 = true := by
    decide
  have h := store_swap_remove_and_create
    (⟨[10, 20, 30], [5, 1, 3],
      [InvalidIndex, 1, InvalidIndex, 2, InvalidIndex, 0]⟩ : CompStore ℕ) 5
    witness_store_inv he
  exact ⟨witness_store_inv, he, h.1.1, h.1.2.1, h.1.2.2.1⟩

/-- C10: `has` is bounds-checked and total — under the invariant it answers
exactly semantic membership for every identifier, including ones the store
has never seen; `get`'s unchecked double indexing goes out of range exactly
when `has` is false (so `has` is its precondition); the guarded per-manager
loop of `EntityManager::destroy` is therefore safe for arbitrary entities
and leaves every store without the entity; and `destroy` without its `has`
precondition can corrupt the invariant (concrete store shown). -/
theorem has_total_get_requires_has :
    (∀ (β : Type) (s : CompStore β) (e : ℕ), s.Inv →
      (s.hasC e = true ↔ ∃ i : ℕ, s.componentIndices[i]? = some e)) ∧
    (∀ (β : Type) (s : CompStore β) (e : ℕ), s.Inv → s.hasC e = false →
      s.get? e = none) ∧
    (∀ (β : Type) [Inhabited β] (s : CompStore β) (e : ℕ), s.Inv → s.hasC e = true →
      s.get? e = some (s.getC e)) ∧
    (∀ (β : Type) [Inhabited β] (ss : List (CompStore β)) (e : ℕ), (∀ t ∈ ss, t.Inv) →
      ∀ t ∈ emDestroyStores ss e, t.Inv ∧ t.hasC e = false) ∧
    ¬ ((⟨[42], [7], [InvalidIndex, InvalidIndex, InvalidIndex, InvalidIndex,
        InvalidIndex, InvalidIndex, InvalidIndex, 0]⟩ : CompStore ℕ).destroyC 3).Inv := by
  refine ⟨fun β s e hinv => CompStore.hasC_iff_mem s hinv e, ?_, ?_, ?_, ?_⟩
  · intro β s e hinv hfalse
    rw [CompStore.get?]
    rcases CompStore.hasC_false_iff.mp hfalse with h | h
    · rw [h]
      rfl
    · rw [h]
      have hnone : s.components[InvalidIndex]? = none := by
        rw [List.getElem?_eq_none_iff]
        have h1 := hinv.len_eq
        have h2 := hinv.size_lt
        omega
      simp [hnone]
  · intro β hβ s e hinv htrue
    obtain ⟨hel, hpe, hpne⟩ := CompStore.hasC_true_elim htrue
    have hcie := hinv.packed_sound e _ hpe hpne
    have hpn : s.packedIndices.getD e 0 < s.componentIndices.length :=
      (List.getElem?_eq_some_iff.mp hcie).1
    obtain ⟨v, hv⟩ : ∃ v, s.components[s.packedIndices.getD e 0]? = some v := by
      cases hxx : s.components[s.packedIndices.getD e 0]? with
      | none =>
        have h1 := hinv.len_eq
        exact absurd (List.getElem?_eq_none_iff.mp hxx) (by omega)
      | some v => exact ⟨v, rfl⟩
    rw [CompStore.get?, hpe]
    rw [CompStore.getC, getD_of_getElem? 0 hpe, getD_of_getElem? default hv]
    simpa using hv
  · intro β hβ ss e hall t ht
    rw [emDestroyStores, List.mem_map] at ht
    obtain ⟨u, hu, rfl⟩ := ht
    by_cases hhas : u.hasC e = true
    · rw [if_pos hhas]
      have h := CompStore.destroyC_spec u e (hall u hu) hhas
      exact ⟨h.1, h.2.2.1⟩
    · rw [if_neg hhas]
      exact ⟨hall u hu, by simpa using hhas⟩
  · intro h
    have h2 := h.packed_sound 7 0 (by decide) (by decide)
    exact absurd h2 (by decide)

/-! ## C4 and C8: the broad phase versus the brute-force pair set -/

theorem sweepLoop_nil (acc : List (PhysEntry α)) : sweepLoop acc [] = [] := rfl

theorem sweepLoop_cons (acc : List (PhysEntry α)) (cur : PhysEntry α)
    (rest : List (PhysEntry α)) :
    sweepLoop acc (cur :: rest) =
      (((acc.filter fun a => !(decide (a.aabbMax.x < cur.aabbMin.x))).filter
        fun a => overlapB cur a).map fun a => (cur, a)) ++
      sweepLoop ((acc.filter fun a => !(decide (a.aabbMax.x < cur.aabbMin.x))) ++ [cur])
        rest := rfl

theorem allPairs_mem_iff {γ : Type} (l : List γ) (p q : γ) :
    (p, q) ∈ allPairs l ↔ [p, q].Sublist l := by
  induction l with
  | nil => simp [allPairs]
  | cons x xs ih =>
    rw [allPairs, List.mem_append, List.mem_map, List.sublist_cons_iff]
    constructor
    · rintro (⟨y, hy, heq⟩ | h)
      · obtain ⟨h1, h2⟩ : x = p ∧ y = q := by
          rw [Prod.mk.injEq] at heq
          exact heq
        refine Or.inr ⟨[q], by rw [h1], ?_⟩
        rw [← h2]
        exact List.singleton_sublist.mpr hy
      · exact Or.inl (ih.mp h)
    · rintro (h | ⟨r, hr, hsub⟩)
      · exact Or.inr (ih.mpr h)
      · injection hr with hr1 hr2
        subst hr1
        rw [← hr2] at hsub
        exact Or.inl ⟨q, List.singleton_sublist.mp hsub, rfl⟩

theorem sublist_pair_of_mem {γ : Type} {l : List γ} (hnd : l.Nodup) {p q : γ}
    (hp : p ∈ l) (hq : q ∈ l) (hne : p ≠ q) :
    [p, q].Sublist l ∨ [q, p].Sublist l := by
  induction l with
  | nil => simp at hp
  | cons x xs ih =>
    rcases List.mem_cons.mp hp with rfl | hp2
    · left
      have hq2 : q ∈ xs := by
        rcases List.mem_cons.mp hq with rfl | h
        · exact absurd rfl hne
        · exact h
      exact List.cons_sublist_cons.mpr (List.singleton_sublist.mpr hq2)
    · rcases List.mem_cons.mp hq with rfl | hq2
      · right
        exact List.cons_sublist_cons.mpr (List.singleton_sublist.mpr hp2)
      · rcases ih (List.Nodup.of_cons hnd) hp2 hq2 with h | h
        · exact Or.inl (h.cons x)
        · exact Or.inr (h.cons x)

theorem sweepLoop_mem (l : List (PhysEntry α)) :
    ∀ acc : List (PhysEntry α),
      (∀ a ∈ acc, ∀ b ∈ l, a.aabbMin.x ≤ b.aabbMin.x) →
      l.Pairwise (fun a b => a.aabbMin.x ≤ b.aabbMin.x) →
      (acc ++ l).Nodup →
      ∀ p q : PhysEntry α,
        ((p, q) ∈ sweepLoop acc l ↔
          p ∈ l ∧ (q ∈ acc ∨ [q, p].Sublist l) ∧
            ¬(q.aabbMax.x < p.aabbMin.x) ∧ overlapB p q = true) := by
  induction l with
  | nil =>
    intro acc hacc hsort hnd p q
    simp [sweepLoop_nil]
  | cons cur rest ih =>
    intro acc hacc hsort hnd p q
    obtain ⟨hcur, hrest⟩ := List.pairwise_cons.mp hsort
    obtain ⟨hndacc, hndcr, hdisj⟩ := List.nodup_append.mp hnd
    have hcurrest : cur ∉ rest := (List.nodup_cons.mp hndcr).1
    have hcuracc : cur ∉ acc := fun h => hdisj h (List.mem_cons_self cur rest)
    have hsurv : ∀ a, a ∈ (acc.filter fun a => !(decide (a.aabbMax.x < cur.aabbMin.x))) ↔
        a ∈ acc ∧ ¬(a.aabbMax.x < cur.aabbMin.x) := by
      intro a
      rw [List.mem_filter]
      simp
    have hnd2 : (((acc.filter fun a => !(decide (a.aabbMax.x < cur.aabbMin.x))) ++ [cur])
        ++ rest).Nodup := by
      have hsub : ((((acc.filter fun a => !(decide (a.aabbMax.x < cur.aabbMin.x))) ++ [cur])
          ++ rest)).Sublist ((acc ++ [cur]) ++ rest) :=
        List.Sublist.append_right (List.Sublist.append_right
          (List.filter_sublist acc) [cur]) rest
      apply List.Nodup.sublist hsub
      have hre : (acc ++ [cur]) ++ rest = acc ++ cur :: rest := by simp
      rw [hre]
      exact hnd
    have ihh := ih ((acc.filter fun a => !(decide (a.aabbMax.x < cur.aabbMin.x))) ++ [cur])
      (by
        intro a ha b hb
        rcases List.mem_append.mp ha with h | h
        · exact hacc a ((hsurv a).mp h).1 b (List.mem_cons_of_mem cur hb)
        · rw [List.mem_singleton.mp h]
          exact hcur b hb)
      hrest hnd2 p q
    rw [sweepLoop_cons, List.mem_append, ihh, List.mem_map]
    constructor
    · rintro (⟨a, ha, heq⟩ | ⟨hp, hq, hs, ho⟩)
      · obtain ⟨haf, hov⟩ := List.mem_filter.mp ha
        obtain ⟨h1, h2⟩ : cur = p ∧ a = q := by
          rw [Prod.mk.injEq] at heq
          exact heq
        obtain ⟨hqacc, hqs⟩ := (hsurv a).mp haf
        rw [← h1, ← h2]
        exact ⟨List.mem_cons_self _ _, Or.inl hqacc, hqs, hov⟩
      · refine ⟨List.mem_cons_of_mem cur hp, ?_, hs, ho⟩
        rcases hq with hq | hq
        · rcases List.mem_append.mp hq with h | h
          · exact Or.inl ((hsurv q).mp h).1
          · rw [List.mem_singleton.mp h]
            exact Or.inr (List.cons_sublist_cons.mpr (List.singleton_sublist.mpr hp))
        · exact Or.inr (hq.cons cur)
    · rintro ⟨hp, hq, hs, ho⟩
      rcases List.mem_cons.mp hp with rfl | hp2
      · -- the pair is emitted at the head step
        left
        rcases hq with hqacc | hqsub
        · exact ⟨q, List.mem_filter.mpr ⟨(hsurv q).mpr ⟨hqacc, hs⟩, ho⟩, rfl⟩
        · -- [q, p] <+ p :: rest forces p ∈ rest, impossible by Nodup
          exfalso
          rcases List.sublist_cons_iff.mp hqsub with h | ⟨r, hr, hrs⟩
          · exact hcurrest (h.subset (by simp))
          · injection hr with hr1 hr2
            rw [← hr2] at hrs
            exact hcurrest (hrs.subset (by simp))
      · -- the pair comes from the recursive call
        right
        refine ⟨hp2, ?_, hs, ho⟩
        rcases hq with hqacc | hqsub
        · left
          apply List.mem_append.mpr
          left
          apply (hsurv q).mpr
          refine ⟨hqacc, ?_⟩
          intro hlt
          exact hs (lt_of_lt_of_le hlt (hcur p hp2))
        · rcases List.sublist_cons_iff.mp hqsub with h | ⟨r, hr, hrs⟩
          · exact Or.inr h
          · injection hr with hr1 hr2
            subst hr1
            rw [← hr2] at hrs
            exact Or.inl (List.mem_append.mpr (Or.inr (List.mem_singleton.mpr rfl)))

theorem sublist_pair_antisymm {γ : Type} {l : List γ} (hnd : l.Nodup) {p q : γ}
    (h1 : [p, q].Sublist l) (h2 : [q, p].Sublist l) : p = q := by
  induction l with
  | nil => cases h1
  | cons x xs ih =>
    rcases List.sublist_cons_iff.mp h1 with ha | ⟨r, hr, hrs⟩
    · rcases List.sublist_cons_iff.mp h2 with hb | ⟨r, hr, hrs⟩
      · exact ih (List.Nodup.of_cons hnd) ha hb
      · injection hr with hr1 hr2
        subst hr1
        exact absurd (ha.subset (by simp)) (List.nodup_cons.mp hnd).1
    · injection hr with hr1 hr2
      subst hr1
      rcases List.sublist_cons_iff.mp h2 with hb | ⟨r2, hr2b, hrs2⟩
      · exact absurd (hb.subset (by simp)) (List.nodup_cons.mp hnd).1
      · injection hr2b with hb1 hb2
        exact hb1.symm

theorem sweepLoop_nodup (l : List (PhysEntry α)) :
    ∀ acc : List (PhysEntry α),
      (∀ a ∈ acc, ∀ b ∈ l, a.aabbMin.x ≤ b.aabbMin.x) →
      l.Pairwise (fun a b => a.aabbMin.x ≤ b.aabbMin.x) →
      (acc ++ l).Nodup →
      (sweepLoop acc l).Nodup := by
  induction l with
  | nil =>
    intro acc _ _ _
    rw [sweepLoop_nil]
    exact List.nodup_nil
  | cons cur rest ih =>
    intro acc hacc hsort hnd
    obtain ⟨hcur, hrest⟩ := List.pairwise_cons.mp hsort
    obtain ⟨hndacc, hndcr, hdisj⟩ := List.nodup_append.mp hnd
    have hcurrest : cur ∉ rest := (List.nodup_cons.mp hndcr).1
    have hacc2 : ∀ a ∈ ((acc.filter fun a => !(decide (a.aabbMax.x < cur.aabbMin.x)))
        ++ [cur]), ∀ b ∈ rest, a.aabbMin.x ≤ b.aabbMin.x := by
      intro a ha b hb
      rcases List.mem_append.mp ha with h | h
      · exact hacc a (List.mem_of_mem_filter h) b (List.mem_cons_of_mem cur hb)
      · rw [List.mem_singleton.mp h]
        exact hcur b hb
    have hnd2 : (((acc.filter fun a => !(decide (a.aabbMax.x < cur.aabbMin.x))) ++ [cur])
        ++ rest).Nodup := by
      have hsub : ((((acc.filter fun a => !(decide (a.aabbMax.x < cur.aabbMin.x))) ++ [cur])
          ++ rest)).Sublist ((acc ++ [cur]) ++ rest) :=
        List.Sublist.append_right (List.Sublist.append_right
          (List.filter_sublist acc) [cur]) rest
      apply List.Nodup.sublist hsub
      have hre : (acc ++ [cur]) ++ rest = acc ++ cur :: rest := by simp
      rw [hre]
      exact hnd
    rw [sweepLoop_cons]
    apply List.nodup_append.mpr
    refine ⟨?_, ih _ hacc2 hrest hnd2, ?_⟩
    · apply List.Nodup.map
      · intro a b h
        rw [Prod.mk.injEq] at h
        exact h.2
      · exact List.Nodup.filter _ (List.Nodup.filter _ hndacc)
    · intro x hx hx2
      obtain ⟨a, ha, heq⟩ := List.mem_map.mp hx
      have hx1 : x.1 = cur := by rw [← heq]
      have hmem := x
      obtain ⟨p, q⟩ := x
      have hp : (p, q) ∈ sweepLoop ((acc.filter fun a =>
          !(decide (a.aabbMax.x < cur.aabbMin.x))) ++ [cur]) rest := hx2
      have hchar := (sweepLoop_mem rest _ hacc2 hrest hnd2 p q).mp hp
      have : p = cur := hx1
      rw [this] at hchar
      exact hcurrest hchar.1

theorem sweepCandidates_mem (l : List (PhysEntry α)) (hnd : l.Nodup)
    (p q : PhysEntry α) :
    (p, q) ∈ sweepCandidates l ↔
      ([q, p].Sublist (l.mergeSort fun a b => decide (a.aabbMin.x ≤ b.aabbMin.x)) ∧
        ¬(q.aabbMax.x < p.aabbMin.x) ∧ overlapB p q = true) := by
  have hperm := List.mergeSort_perm l (fun a b => decide (a.aabbMin.x ≤ b.aabbMin.x))
  have hsortb := @List.sorted_mergeSort (PhysEntry α)
    (fun a b => decide (a.aabbMin.x ≤ b.aabbMin.x))
    (fun a b c hab hbc => by
      rw [decide_eq_true_eq] at *
      exact le_trans hab hbc)
    (fun a b => by
      rw [Bool.or_eq_true, decide_eq_true_eq, decide_eq_true_eq]
      exact le_total _ _)
    l
  have hsort : (l.mergeSort fun a b => decide (a.aabbMin.x ≤ b.aabbMin.x)).Pairwise
      (fun a b => a.aabbMin.x ≤ b.aabbMin.x) := by
    refine hsortb.imp ?_
    intro a b h
    exact of_decide_eq_true h
  have hnd2 : ((l.mergeSort fun a b => decide (a.aabbMin.x ≤ b.aabbMin.x))).Nodup :=
    hperm.nodup_iff.mpr hnd
  have hchar := sweepLoop_mem (l.mergeSort fun a b => decide (a.aabbMin.x ≤ b.aabbMin.x))
    [] (by simp) hsort (by simpa using hnd2) p q
  rw [sweepCandidates, hchar]
  constructor
  · rintro ⟨hp, hq, hs, ho⟩
    rcases hq with hq | hq
    · cases hq
    · exact ⟨hq, hs, ho⟩
  · rintro ⟨hsub, hs, ho⟩
    exact ⟨hsub.subset (by simp), Or.inr hsub, hs, ho⟩

theorem mergeSortX_sorted (l : List (PhysEntry α)) :
    ((l.mergeSort fun a b => decide (a.aabbMin.x ≤ b.aabbMin.x))).Pairwise
      (fun a b => a.aabbMin.x ≤ b.aabbMin.x) := by
  have hsortb := @List.sorted_mergeSort (PhysEntry α)
    (fun a b => decide (a.aabbMin.x ≤ b.aabbMin.x))
    (fun a b c hab hbc => by
      rw [decide_eq_true_eq] at *
      exact le_trans hab hbc)
    (fun a b => by
      rw [Bool.or_eq_true, decide_eq_true_eq, decide_eq_true_eq]
      exact le_total _ _)
    l
  refine hsortb.imp ?_
  intro a b h
  exact of_decide_eq_true h

theorem overlapB_iff (p q : PhysEntry α) :
    overlapB p q = true ↔
      p.aabbMax.x ≥ q.aabbMin.x ∧ p.aabbMax.y ≥ q.aabbMin.y ∧
        q.aabbMax.x > p.aabbMin.x ∧ q.aabbMax.y ≥ p.aabbMin.y := by
  rw [overlapB]
  simp [and_assoc]

theorem aabbOverlapStrictX_iff (p q : PhysEntry α) :
    aabbOverlapStrictX p q = true ↔
      p.aabbMin.x < q.aabbMax.x ∧ q.aabbMin.x < p.aabbMax.x ∧
        p.aabbMin.y ≤ q.aabbMax.y ∧ q.aabbMin.y ≤ p.aabbMax.y := by
  rw [aabbOverlapStrictX]
  simp [and_assoc]

theorem aabbOverlapStrictX_symm {p q : PhysEntry α}
    (h : aabbOverlapStrictX p q = true) : aabbOverlapStrictX q p = true := by
  rw [aabbOverlapStrictX_iff] at *
  tauto

/-- Every candidate pair the sweep emits consists of two distinct entries of
the input whose AABBs overlap strictly in X and closed in Y. -/
theorem sweep_pair_strict (l : List (PhysEntry α)) (hnd : l.Nodup)
    (hwf : ∀ p ∈ l, p.aabbMin.x < p.aabbMax.x) (p q : PhysEntry α)
    (h : (p, q) ∈ sweepCandidates l) :
    p ∈ l ∧ q ∈ l ∧ p ≠ q ∧ aabbOverlapStrictX p q = true := by
  obtain ⟨hsub, hs, ho⟩ := (sweepCandidates_mem l hnd p q).mp h
  have hperm := List.mergeSort_perm l (fun a b => decide (a.aabbMin.x ≤ b.aabbMin.x))
  have hnd2 : ((l.mergeSort fun a b => decide (a.aabbMin.x ≤ b.aabbMin.x))).Nodup :=
    hperm.nodup_iff.mpr hnd
  have hp : p ∈ l := hperm.mem_iff.mp (hsub.subset (by simp))
  have hq : q ∈ l := hperm.mem_iff.mp (hsub.subset (by simp))
  have hqp : q.aabbMin.x ≤ p.aabbMin.x := by
    have hpw := (mergeSortX_sorted l).sublist hsub
    exact (List.pairwise_cons.mp hpw).1 p (by simp)
  have hne : q ≠ p := by
    have hndp := hnd2.sublist hsub
    exact (List.nodup_cons.mp hndp).1 ∘ (by
      intro he
      rw [he]
      simp)
  rw [overlapB_iff] at ho
  refine ⟨hp, hq, fun he => hne he.symm, ?_⟩
  rw [aabbOverlapStrictX_iff]
  exact ⟨ho.2.2.1, lt_of_le_of_lt hqp (hwf p hp), ho.2.2.2, ho.2.1⟩

/-- Every unordered pair of distinct entries overlapping strictly in X and
closed in Y is emitted by the sweep in one of its two orientations. -/
theorem strict_pair_sweep (l : List (PhysEntry α)) (hnd : l.Nodup)
    (p q : PhysEntry α) (hp : p ∈ l) (hq : q ∈ l) (hpq : p ≠ q)
    (ho : aabbOverlapStrictX p q = true) :
    (p, q) ∈ sweepCandidates l ∨ (q, p) ∈ sweepCandidates l := by
  have hperm := List.mergeSort_perm l (fun a b => decide (a.aabbMin.x ≤ b.aabbMin.x))
  have hnd2 : ((l.mergeSort fun a b => decide (a.aabbMin.x ≤ b.aabbMin.x))).Nodup :=
    hperm.nodup_iff.mpr hnd
  rw [aabbOverlapStrictX_iff] at ho
  rcases sublist_pair_of_mem hnd2 (hperm.mem_iff.mpr hp) (hperm.mem_iff.mpr hq) hpq
    with hsub | hsub
  · right
    refine (sweepCandidates_mem l hnd q p).mpr ⟨hsub, ?_, ?_⟩
    · exact not_lt.mpr (le_of_lt ho.2.1)
    · rw [overlapB_iff]
      exact ⟨le_of_lt ho.1, ho.2.2.1, ho.2.1, ho.2.2.2⟩
  · left
    refine (sweepCandidates_mem l hnd p q).mpr ⟨hsub, ?_, ?_⟩
    · exact not_lt.mpr (le_of_lt ho.1)
    · rw [overlapB_iff]
      exact ⟨le_of_lt ho.2.1, ho.2.2.2, ho.1, ho.2.2.1⟩

/-- C4 (amended): for colliders with duplicate-free identifiers and AABBs of
positive width, the unordered candidate pairs on which the sweep-and-prune
broad phase runs the narrow phase are exactly the brute-force pairwise pairs
overlapping strictly (open intervals) in X and closed in Y — AABBs touching
exactly on a vertical edge are dropped by the `>` in the sweep's X test,
touching on a horizontal edge are kept. -/
theorem broad_phase_equals_strictX_brute_force (l : List (PhysEntry α))
    (hnd : (l.map PhysEntry.id).Nodup)
    (hwf : ∀ p ∈ l, p.aabbMin.x < p.aabbMax.x) (i j : ℕ) :
    pairMem (sweepIdPairs l) i j ↔ pairMem (bruteIdPairsStrictX l) i j := by
  have hndl : l.Nodup := List.Nodup.of_map _ hnd
  have hinj := List.inj_on_of_nodup_map hnd
  have hfwd : ∀ i j : ℕ, (i, j) ∈ sweepIdPairs l →
      (i, j) ∈ bruteIdPairsStrictX l ∨ (j, i) ∈ bruteIdPairsStrictX l := by
    intro i j hmem
    obtain ⟨pr, hpr, heq⟩ := List.mem_map.mp hmem
    obtain ⟨p, q⟩ := pr
    obtain ⟨h1, h2⟩ : p.id = i ∧ q.id = j := by
      rw [Prod.mk.injEq] at heq
      exact heq
    obtain ⟨hp, hq, hpq, ho⟩ := sweep_pair_strict l hndl hwf p q hpr
    rcases sublist_pair_of_mem hndl hp hq hpq with hsub | hsub
    · left
      exact List.mem_map.mpr ⟨(p, q), List.mem_filter.mpr
        ⟨(allPairs_mem_iff l p q).mpr hsub, ho⟩, by rw [h1, h2]⟩
    · right
      exact List.mem_map.mpr ⟨(q, p), List.mem_filter.mpr
        ⟨(allPairs_mem_iff l q p).mpr hsub, aabbOverlapStrictX_symm ho⟩, by rw [h1, h2]⟩
  have hbwd : ∀ i j : ℕ, (i, j) ∈ bruteIdPairsStrictX l →
      (i, j) ∈ sweepIdPairs l ∨ (j, i) ∈ sweepIdPairs l := by
    intro i j hmem
    obtain ⟨pr, hpr, heq⟩ := List.mem_map.mp hmem
    obtain ⟨p, q⟩ := pr
    obtain ⟨h1, h2⟩ : p.id = i ∧ q.id = j := by
      rw [Prod.mk.injEq] at heq
      exact heq
    obtain ⟨hap, ho⟩ := List.mem_filter.mp hpr
    have hsub := (allPairs_mem_iff l p q).mp hap
    have hp : p ∈ l := hsub.subset (by simp)
    have hq : q ∈ l := hsub.subset (by simp)
    have hpq : p ≠ q := by
      have hndp := hndl.sublist hsub
      intro he
      rw [he] at hndp
      simp at hndp
    rcases strict_pair_sweep l hndl p q hp hq hpq ho with h | h
    · exact Or.inl (List.mem_map.mpr ⟨(p, q), h, by rw [h1, h2]⟩)
    · exact Or.inr (List.mem_map.mpr ⟨(q, p), h, by rw [h1, h2]⟩)
  constructor
  · rintro (h | h)
    · rcases hfwd i j h with h2 | h2
      · exact Or.inl h2
      · exact Or.inr h2
    · rcases hfwd j i h with h2 | h2
      · exact Or.inr h2
      · exact Or.inl h2
  · rintro (h | h)
    · rcases hbwd i j h with h2 | h2
      · exact Or.inl h2
      · exact Or.inr h2
    · rcases hbwd j i h with h2 | h2
      · exact Or.inr h2
      · exact Or.inl h2

/-- C4, counterexample to the claim as stated: two AABBs touching exactly on
a vertical edge (`[0,1]×[0,1]` and `[1,2]×[0,1]`).  The brute-force
closed-interval overlap test reports the pair, but the sweep does not (its
X test `collider1.aabbMax.x > collider0.aabbMin.x` is strict), so the
candidate set is not the closed-overlap brute-force set. -/
theorem broad_phase_touching_edge_counterexample :
    pairMem (bruteIdPairsClosed
      [(⟨0, ⟨0, 0⟩, ⟨⟨0, 0⟩, 0, 0⟩, ⟨0, 0⟩, ⟨1, 1⟩, false⟩ : PhysEntry ℚ),
        ⟨1, ⟨0, 0⟩, ⟨⟨0, 0⟩, 0, 0⟩, ⟨1, 0⟩, ⟨2, 1⟩, false⟩]) 0 1 ∧
    ¬ pairMem (sweepIdPairs
      [(⟨0, ⟨0, 0⟩, ⟨⟨0, 0⟩, 0, 0⟩, ⟨0, 0⟩, ⟨1, 1⟩, false⟩ : PhysEntry ℚ),
        ⟨1, ⟨0, 0⟩, ⟨⟨0, 0⟩, 0, 0⟩, ⟨1, 0⟩, ⟨2, 1⟩, false⟩]) 0 1 := by
  constructor
  · exact Or.inl (by decide)
  · have hms : (([(⟨0, ⟨0, 0⟩, ⟨⟨0, 0⟩, 0, 0⟩, ⟨0, 0⟩, ⟨1, 1⟩, false⟩ : PhysEntry ℚ),
        ⟨1, ⟨0, 0⟩, ⟨⟨0, 0⟩, 0, 0⟩, ⟨1, 0⟩, ⟨2, 1⟩, false⟩]).mergeSort
          fun a b => decide (a.aabbMin.x ≤ b.aabbMin.x)) =
        [(⟨0, ⟨0, 0⟩, ⟨⟨0, 0⟩, 0, 0⟩, ⟨0, 0⟩, ⟨1, 1⟩, false⟩ : PhysEntry ℚ),
          ⟨1, ⟨0, 0⟩, ⟨⟨0, 0⟩, 0, 0⟩, ⟨1, 0⟩, ⟨2, 1⟩, false⟩] :=
      List.mergeSort_of_sorted (by decide)
    rw [pairMem, sweepIdPairs, sweepCandidates, hms]
    decide

/-- Witness for C4 on two genuinely overlapping boxes with positive-width
AABBs and distinct identifiers. -/
theorem broad_phase_equals_strictX_brute_force_witness :
    (([(⟨0, ⟨0, 0⟩, ⟨⟨0, 0⟩, 0, 0⟩, ⟨0, 0⟩, ⟨2, 2⟩, false⟩ : PhysEntry ℚ),
        ⟨1, ⟨0, 0⟩, ⟨⟨0, 0⟩, 0, 0⟩, ⟨1, 1⟩, ⟨3, 3⟩, false⟩].map PhysEntry.id).Nodup) ∧
    (∀ p ∈ [(⟨0, ⟨0, 0⟩, ⟨⟨0, 0⟩, 0, 0⟩, ⟨0, 0⟩, ⟨2, 2⟩, false⟩ : PhysEntry ℚ),
        ⟨1, ⟨0, 0⟩, ⟨⟨0, 0⟩, 0, 0⟩, ⟨1, 1⟩, ⟨3, 3⟩, false⟩],
      p.aabbMin.x < p.aabbMax.x) ∧
    (pairMem (sweepIdPairs
        [(⟨0, ⟨0, 0⟩, ⟨⟨0, 0⟩, 0, 0⟩, ⟨0, 0⟩, ⟨2, 2⟩, false⟩ : PhysEntry ℚ),
          ⟨1, ⟨0, 0⟩, ⟨⟨0, 0⟩, 0, 0⟩, ⟨1, 1⟩, ⟨3, 3⟩, false⟩]) 0 1 ↔
      pairMem (bruteIdPairsStrictX
        [(⟨0, ⟨0, 0⟩, ⟨⟨0, 0⟩, 0, 0⟩, ⟨0, 0⟩, ⟨2, 2⟩, false⟩ : PhysEntry ℚ),
          ⟨1, ⟨0, 0⟩, ⟨⟨0, 0⟩, 0, 0⟩, ⟨1, 1⟩, ⟨3, 3⟩, false⟩]) 0 1) :=
  ⟨by decide, by decide,
    broad_phase_equals_strictX_brute_force _ (by decide) (by decide) 0 1⟩

theorem map_filterMap_sublist {γ δ ε : Type} (cs : List γ) (f : γ → Option δ)
    (g : γ → ε) (k : δ → ε) (h : ∀ x y, f x = some y → k y = g x) :
    (((cs.filterMap f).map k)).Sublist (cs.map g) := by
  induction cs with
  | nil => simp
  | cons x xs ih =>
    rw [List.filterMap_cons, List.map_cons]
    cases hfx : f x with
    | none => exact ih.cons (g x)
    | some y =>
      rw [List.map_cons, h x y hfx]
      exact List.cons_sublist_cons.mpr ih

theorem sweep_keys_nodup (l : List (PhysEntry α)) (hnd : (l.map PhysEntry.id).Nodup) :
    (((sweepCandidates l).map fun pr => pkey (pr.1.id, pr.2.id))).Nodup := by
  have hndl : l.Nodup := List.Nodup.of_map _ hnd
  have hperm := List.mergeSort_perm l (fun a b => decide (a.aabbMin.x ≤ b.aabbMin.x))
  have hnd2 : ((l.mergeSort fun a b => decide (a.aabbMin.x ≤ b.aabbMin.x))).Nodup :=
    hperm.nodup_iff.mpr hndl
  have hndid : (((l.mergeSort fun a b => decide (a.aabbMin.x ≤ b.aabbMin.x)).map
      PhysEntry.id)).Nodup := ((hperm.map PhysEntry.id).nodup_iff).mpr hnd
  have hinj := List.inj_on_of_nodup_map hndid
  have hpairs : (sweepCandidates l).Nodup := by
    rw [sweepCandidates]
    exact sweepLoop_nodup _ [] (by simp) (mergeSortX_sorted l) (by simpa using hnd2)
  refine List.Nodup.map_on ?_ hpairs
  intro x hx y hy hkey
  obtain ⟨p, q⟩ := x
  obtain ⟨p2, q2⟩ := y
  obtain ⟨hsub1, -, -⟩ := (sweepCandidates_mem l hndl p q).mp hx
  obtain ⟨hsub2, -, -⟩ := (sweepCandidates_mem l hndl p2 q2).mp hy
  have hpm : p ∈ (l.mergeSort fun a b => decide (a.aabbMin.x ≤ b.aabbMin.x)) :=
    hsub1.subset (by simp)
  have hqm : q ∈ (l.mergeSort fun a b => decide (a.aabbMin.x ≤ b.aabbMin.x)) :=
    hsub1.subset (by simp)
  have hpm2 : p2 ∈ (l.mergeSort fun a b => decide (a.aabbMin.x ≤ b.aabbMin.x)) :=
    hsub2.subset (by simp)
  have hqm2 : q2 ∈ (l.mergeSort fun a b => decide (a.aabbMin.x ≤ b.aabbMin.x)) :=
    hsub2.subset (by simp)
  have hne1 : q ≠ p := by
    have hndp := hnd2.sublist hsub1
    intro he
    rw [he] at hndp
    simp at hndp
  have hne1id : q.id ≠ p.id := fun h => hne1 (hinj hqm hpm h)
  have hne2id : q2.id ≠ p2.id := fun h => by
    have hndp := hnd2.sublist hsub2
    rw [hinj hqm2 hpm2 h] at hndp
    simp at hndp
  rw [pkey, pkey, Prod.mk.injEq] at hkey
  have hcases : (p.id = p2.id ∧ q.id = q2.id) ∨ (p.id = q2.id ∧ q.id = p2.id) := by
    rcases hkey with ⟨h1, h2⟩
    simp only [] at h1 h2
    omega
  rcases hcases with ⟨h1, h2⟩ | ⟨h1, h2⟩
  · rw [Prod.mk.injEq]
    exact ⟨hinj hpm hpm2 h1, hinj hqm hqm2 h2⟩
  · exfalso
    have hpq2 : p = q2 := hinj hpm hqm2 h1
    have hqp2 : q = p2 := hinj hqm hpm2 h2
    rw [← hpq2, ← hqp2] at hsub2
    exact hne1 (sublist_pair_antisymm hnd2 hsub2 hsub1).symm

/-- C8: in a physics step, each unordered collider pair yields at most one
collision record (the unordered-key list of the step's records is
duplicate-free, and every record relates two distinct entities), and the
per-record dispatch loop runs exactly twice — once per role — invoking the
active entity's callback (when registered) with (active, other, record),
each side independent of the other's registration. -/
theorem collision_records_unique_dispatch (co si : α → α) :
    (∀ l : List (PhysEntry α), ((l.map PhysEntry.id)).Nodup →
      (((narrowRecords co si l).map fun r => pkey (r.index0, r.index1))).Nodup ∧
      ∀ r ∈ narrowRecords co si l, r.index0 ≠ r.index1) ∧
    (∀ (cb : ℕ → Bool) (r : CollisionRecord α),
      dispatchRecord cb r =
        (if cb r.index0 then [(r.index0, r.index1, r)] else []) ++
          (if cb r.index1 then [(r.index1, r.index0, r)] else []) ∧
      (r.index0 ≠ r.index1 →
        (((r.index0, r.index1, r) ∈ dispatchRecord cb r) ↔ cb r.index0 = true) ∧
        (((r.index1, r.index0, r) ∈ dispatchRecord cb r) ↔ cb r.index1 = true))) := by
  constructor
  · intro l hnd
    have hndl : l.Nodup := List.Nodup.of_map _ hnd
    constructor
    · have hsub : (((narrowRecords co si l).map fun r => pkey (r.index0, r.index1))).Sublist
          ((sweepCandidates l).map fun pr => pkey (pr.1.id, pr.2.id)) := by
        rw [narrowRecords]
        apply map_filterMap_sublist
        intro pr r hr
        simp only [] at hr
        split_ifs at hr with hd
        injection hr with hr2
        rw [← hr2]
      exact (sweep_keys_nodup l hnd).sublist hsub
    · intro r hr
      rw [narrowRecords, List.mem_filterMap] at hr
      obtain ⟨pr, hpr, hfr⟩ := hr
      simp only [] at hfr
      split_ifs at hfr with hd
      injection hfr with hfr2
      obtain ⟨p, q⟩ := pr
      obtain ⟨hsub1, -, -⟩ := (sweepCandidates_mem l hndl p q).mp hpr
      have hperm := List.mergeSort_perm l (fun a b => decide (a.aabbMin.x ≤ b.aabbMin.x))
      have hnd2 : ((l.mergeSort fun a b => decide (a.aabbMin.x ≤ b.aabbMin.x))).Nodup :=
        hperm.nodup_iff.mpr hndl
      have hndid : (((l.mergeSort fun a b =>
          decide (a.aabbMin.x ≤ b.aabbMin.x)).map PhysEntry.id)).Nodup :=
        ((hperm.map PhysEntry.id).nodup_iff).mpr hnd
      have hinj := List.inj_on_of_nodup_map hndid
      have hne1 : q ≠ p := by
        have hndp := hnd2.sublist hsub1
        intro he
        rw [he] at hndp
        simp at hndp
      have h0 : r.index0 = p.id := by rw [← hfr2]
      have h1 : r.index1 = q.id := by rw [← hfr2]
      rw [h0, h1]
      intro he
      exact hne1 (hinj (hsub1.subset (by simp)) (hsub1.subset (by simp)) he.symm)
  · intro cb r
    have heq : dispatchRecord cb r =
        (if cb r.index0 then [(r.index0, r.index1, r)] else []) ++
          (if cb r.index1 then [(r.index1, r.index0, r)] else []) := by
      rw [dispatchRecord]
      show ([0, 1].flatMap fun i =>
        if cb (if i = 0 then r.index0 else r.index1)
        then [(if i = 0 then r.index0 else r.index1,
               if i = 0 then r.index1 else r.index0, r)] else []) = _
      simp
    refine ⟨heq, fun hne => ?_⟩
    rw [heq]
    constructor
    · constructor
      · intro hmem
        rcases List.mem_append.mp hmem with h | h
        · by_contra hcb
          rw [if_neg (by simpa using hcb)] at h
          cases h
        · split_ifs at h with h2
          · rw [List.mem_singleton, Prod.mk.injEq] at h
            exact absurd h.1 hne
          · cases h
      · intro hcb
        exact List.mem_append.mpr (Or.inl (by rw [if_pos hcb]; simp))
    · constructor
      · intro hmem
        rcases List.mem_append.mp hmem with h | h
        · split_ifs at h with h2
          · rw [List.mem_singleton, Prod.mk.injEq] at h
            exact absurd h.1.symm hne
          · cases h
        · by_contra hcb
          rw [if_neg (by simpa using hcb)] at h
          cases h
      · intro hcb
        exact List.mem_append.mpr (Or.inr (by rw [if_pos hcb]; simp))

/-- Witness for C8: two overlapping colliders with callbacks on both sides;
the step yields one record with distinct entities, and a record between
entities 0 and 1 dispatches in both roles when both callbacks are
registered. -/
theorem collision_records_unique_dispatch_witness :
    (([(⟨0, ⟨0, 0⟩, ⟨⟨0, 0⟩, 0, 0⟩, ⟨0, 0⟩, ⟨2, 2⟩, true⟩ : PhysEntry ℚ),
        ⟨1, ⟨0, 0⟩, ⟨⟨0, 0⟩, 0, 0⟩, ⟨1, 1⟩, ⟨3, 3⟩, true⟩].map PhysEntry.id)).Nodup ∧
    (((narrowRecords (fun _ => 1) (fun _ => 0)
        [(⟨0, ⟨0, 0⟩, ⟨⟨0, 0⟩, 0, 0⟩, ⟨0, 0⟩, ⟨2, 2⟩, true⟩ : PhysEntry ℚ),
          ⟨1, ⟨0, 0⟩, ⟨⟨0, 0⟩, 0, 0⟩, ⟨1, 1⟩, ⟨3, 3⟩, true⟩]).map
      fun r => pkey (r.index0, r.index1))).Nodup ∧
    ((0 : ℕ) ≠ 1 → ((((0 : ℕ), (1 : ℕ), (⟨0, 1, -1, ⟨1, 0⟩⟩ : CollisionRecord ℚ)) ∈
        dispatchRecord (fun _ => true) (⟨0, 1, -1, ⟨1, 0⟩⟩ : CollisionRecord ℚ)) ↔
      (fun _ : ℕ => true) 0 = true)) := by
  have h1 := (collision_records_unique_dispatch
    (fun _ : ℚ => (1 : ℚ)) (fun _ => 0)).1
    [(⟨0, ⟨0, 0⟩, ⟨⟨0, 0⟩, 0, 0⟩, ⟨0, 0⟩, ⟨2, 2⟩, true⟩ : PhysEntry ℚ),
      ⟨1, ⟨0, 0⟩, ⟨⟨0, 0⟩, 0, 0⟩, ⟨1, 1⟩, ⟨3, 3⟩, true⟩] (by decide)
  have h2 := ((collision_records_unique_dispatch
    (fun _ : ℚ => (1 : ℚ)) (fun _ => 0)).2 (fun _ => true)
    (⟨0, 1, -1, ⟨1, 0⟩⟩ : CollisionRecord ℚ)).2
  exact ⟨by decide, h1.1, fun hne => (h2 hne).1⟩

/-! ## Scene graph: step relations, reachability, and the reference
recursion -/

theorem shapeStep_refl (s : SGState α) : shapeStep s s :=
  ⟨rfl, fun _ => ⟨rfl, rfl, rfl, rfl⟩⟩

theorem shapeStep_trans {s t u : SGState α} (h1 : shapeStep s t)
    (h2 : shapeStep t u) : shapeStep s u := by
  obtain ⟨hl1, hn1⟩ := h1
  obtain ⟨hl2, hn2⟩ := h2
  refine ⟨hl2.trans hl1, fun x => ?_⟩
  obtain ⟨a1, b1, c1, d1⟩ := hn1 x
  obtain ⟨a2, b2, c2, d2⟩ := hn2 x
  exact ⟨a2.trans a1, b2.trans b1, c2.trans c1, d2.trans d1⟩

theorem flagStep_refl (s : SGState α) : flagStep s s :=
  ⟨shapeStep_refl s, fun _ => ⟨rfl, id⟩⟩

theorem flagStep_trans {s t u : SGState α} (h1 : flagStep s t)
    (h2 : flagStep t u) : flagStep s u :=
  ⟨shapeStep_trans h1.1 h2.1, fun x =>
    ⟨((h2.2 x).1).trans ((h1.2 x).1), fun hd => (h2.2 x).2 ((h1.2 x).2 hd)⟩⟩

theorem cacheStep_refl (s : SGState α) : cacheStep s s :=
  ⟨shapeStep_refl s, fun _ => id⟩

theorem cacheStep_trans {s t u : SGState α} (h1 : cacheStep s t)
    (h2 : cacheStep t u) : cacheStep s u :=
  ⟨shapeStep_trans h1.1 h2.1, fun x hd => h1.2 x (h2.2 x hd)⟩

theorem WFd_transfer {s t : SGState α} {dep : ℕ → ℕ} {bound : ℕ}
    (hs : shapeStep s t) (hwf : WFd s dep bound) : WFd t dep bound := by
  obtain ⟨hl, hn⟩ := hs
  constructor
  · intro e he
    rw [hl] at he ⊢
    rw [(hn e).2.2.1]
    exact hwf.parent_live e he
  · intro p hp c hc
    rw [hl] at hp
    rw [(hn p).2.2.2] at hc
    obtain ⟨h1, h2⟩ := hwf.child_mem p hp c hc
    exact ⟨by rw [hl]; exact h1, by rw [(hn c).2.2.1]; exact h2⟩
  · intro p hp c hc hpc
    rw [hl] at hp hc
    rw [(hn c).2.2.1] at hpc
    rw [(hn p).2.2.2]
    exact hwf.mem_child p hp c hc hpc
  · intro p hp
    rw [hl] at hp
    rw [(hn p).2.2.2]
    exact hwf.child_nodup p hp
  · intro e he hne
    rw [hl] at he
    rw [(hn e).2.2.1] at hne ⊢
    exact hwf.dep_parent e he hne
  · intro e he
    rw [hl] at he
    exact hwf.dep_le e he

theorem RD_trans {s : SGState α} {a b c : ℕ} (h1 : RD s a b) (h2 : RD s b c) :
    RD s a c := by
  revert h2
  induction h1 with
  | refl _ => exact id
  | step hc _ ih => exact fun h2 => RD.step hc (ih h2)

theorem RD_last {s : SGState α} {a x : ℕ} (h : RD s a x) :
    x = a ∨ ∃ z, RD s a z ∧ x ∈ (s.nodes z).children := by
  induction h with
  | refl _ => exact Or.inl rfl
  | @step e c x hc _ ih =>
    rcases ih with h1 | ⟨z, hz, hxz⟩
    · exact Or.inr ⟨e, RD.refl e, by rw [h1]; exact hc⟩
    · exact Or.inr ⟨z, RD.step hc hz, hxz⟩

theorem RD_unfold {s : SGState α} {e x : ℕ} :
    RD s e x ↔ x = e ∨ ∃ c ∈ (s.nodes e).children, RD s c x := by
  constructor
  · intro h
    cases h with
    | refl _ => exact Or.inl rfl
    | step hc hr => exact Or.inr ⟨_, hc, hr⟩
  · rintro (rfl | ⟨c, hc, hr⟩)
    · exact RD.refl x
    · exact RD.step hc hr

theorem RD_mono_edges {s t : SGState α}
    (h : ∀ a b, b ∈ (t.nodes a).children → b ∈ (s.nodes a).children) :
    ∀ {x y : ℕ}, RD t x y → RD s x y := by
  intro x y hr
  induction hr with
  | refl e => exact RD.refl e
  | step hc _ ih => exact RD.step (h _ _ hc) ih

theorem RD_shape {s t : SGState α} (h : shapeStep s t) {a b : ℕ} :
    RD t a b ↔ RD s a b := by
  constructor
  · exact RD_mono_edges (fun p q hq => by rw [← (h.2 p).2.2.2]; exact hq)
  · exact RD_mono_edges (fun p q hq => by rw [(h.2 p).2.2.2]; exact hq)

theorem RD_congr_on {s t : SGState α} {a : ℕ}
    (h : ∀ z, RD s a z → (t.nodes z).children = (s.nodes z).children) :
    ∀ {x : ℕ}, RD s a x → RD t a x := by
  have main : ∀ p x, RD s p x → RD s a p → RD t p x := by
    intro p x hr
    induction hr with
    | refl e => exact fun _ => RD.refl e
    | @step p c x hc _ ih =>
      intro hap
      have hac : RD s a c := RD_trans hap (RD.step hc (RD.refl c))
      exact RD.step (by rw [h p hap]; exact hc) (ih hac)
  exact fun {x} hr => main a x hr (RD.refl a)

theorem RD_live_dep {s : SGState α} {dep : ℕ → ℕ} {bound : ℕ}
    (hwf : WFd s dep bound) {a x : ℕ} (hr : RD s a x) (ha : a ∈ s.live) :
    x ∈ s.live ∧ dep a ≤ dep x := by
  revert ha
  induction hr with
  | refl e => exact fun ha => ⟨ha, le_refl _⟩
  | @step e c x hc _ ih =>
    intro he
    obtain ⟨hcl, hcp⟩ := hwf.child_mem e he c hc
    have hdep : dep e ≤ dep c := by
      by_cases hce : c = e
      · rw [hce]
      · have := hwf.dep_parent c hcl (by rw [hcp]; exact fun hh => hce hh.symm)
        rw [hcp] at this
        omega
    obtain ⟨h1, h2⟩ := ih hcl
    exact ⟨h1, le_trans hdep h2⟩

theorem Anc_lift {s : SGState α} {x z : ℕ}
    (h : Anc s (s.nodes x).parent z) : Anc s x z := by
  induction h with
  | refl => exact Anc.step Anc.refl
  | step _ ih => exact Anc.step ih

theorem RD_of_anc {s : SGState α} {dep : ℕ → ℕ} {bound : ℕ}
    (hwf : WFd s dep bound) {x z : ℕ} (hx : x ∈ s.live) (h : Anc s x z) :
    z ∈ s.live ∧ RD s z x := by
  induction h with
  | refl => exact ⟨hx, RD.refl x⟩
  | @step y _ ih =>
    obtain ⟨hy, hr⟩ := ih
    exact ⟨hwf.parent_live y hy,
      RD.step (hwf.mem_child _ (hwf.parent_live y hy) y hy rfl) hr⟩

theorem anc_total {s : SGState α} {dep : ℕ → ℕ} {bound : ℕ}
    (hwf : WFd s dep bound) {a b z : ℕ} (h1 : RD s a z) (h2 : RD s b z)
    (ha : a ∈ s.live) (hb : b ∈ s.live) : RD s a b ∨ RD s b a := by
  revert h2 ha
  induction h1 with
  | refl e => exact fun h2 _ => Or.inr h2
  | @step e c z hc _ ih =>
    intro h2 he
    obtain ⟨hcl, hcp⟩ := hwf.child_mem e he c hc
    rcases ih h2 hcl with hcb | hbc
    · exact Or.inl (RD.step hc hcb)
    · rcases RD_last hbc with hcb2 | ⟨z2, hz2, hcz2⟩
      · rw [hcb2] at hc
        exact Or.inl (RD.step hc (RD.refl b))
      · have hz2l := (RD_live_dep hwf hz2 hb).1
        have hpz2 := (hwf.child_mem z2 hz2l c hcz2).2
        rw [hcp] at hpz2
        rw [← hpz2] at hz2
        exact Or.inr hz2
    

theorem sibling_disjoint {s : SGState α} {dep : ℕ → ℕ} {bound : ℕ}
    (hwf : WFd s dep bound) {e c c2 : ℕ} (he : e ∈ s.live)
    (hc : c ∈ (s.nodes e).children) (hc2 : c2 ∈ (s.nodes e).children)
    (hne : c2 ≠ c) (hc2e : c2 ≠ e) (h : RD s c2 c) : False := by
  obtain ⟨hcl, hcp⟩ := hwf.child_mem e he c hc
  obtain ⟨hc2l, hc2p⟩ := hwf.child_mem e he c2 hc2
  have hdep : dep e < dep c2 := by
    have := hwf.dep_parent c2 hc2l (by rw [hc2p]; exact fun hh => hc2e hh.symm)
    rw [hc2p] at this
    exact this
  rcases RD_last h with h1 | ⟨z, hz, hxz⟩
  · exact hne h1.symm
  · have hzl := (RD_live_dep hwf hz hc2l).1
    have hpz := (hwf.child_mem z hzl c hxz).2
    rw [hcp] at hpz
    rw [← hpz] at hz
    have := (RD_live_dep hwf hz hc2l).2
    omega

theorem composeWT_congr (co si : α → α) (pt : Transform2 α) {m n : SGNode α}
    (hloc : m.loc = n.loc) (hh : m.heightForDepth = n.heightForDepth)
    (hp : m.parent = n.parent) : composeWT co si pt m = composeWT co si pt n := by
  rw [composeWT, composeWT, hloc, hh, hp]

theorem wspecF_mono (co si : α → α) {s : SGState α} :
    ∀ {f f2 : ℕ}, f ≤ f2 → ∀ {e : ℕ} {t : Transform2 α},
      wspecF co si s f e = some t → wspecF co si s f2 e = some t := by
  intro f
  induction f with
  | zero =>
    intro f2 _ e t h
    simp [wspecF] at h
  | succ g ih =>
    intro f2 hle e t h
    obtain ⟨f3, rfl⟩ : ∃ f3, f2 = f3 + 1 := ⟨f2 - 1, by omega⟩
    simp only [wspecF] at h ⊢
    by_cases hp : (s.nodes e).parent = e
    · rw [if_pos hp] at h ⊢
      exact h
    · rw [if_neg hp] at h ⊢
      rw [Option.map_eq_some'] at h ⊢
      obtain ⟨pt, hpt, hc⟩ := h
      exact ⟨pt, ih (by omega) hpt, hc⟩

theorem wspecF_total (co si : α → α) {s : SGState α} {dep : ℕ → ℕ} {bound : ℕ}
    (hwf : WFd s dep bound) :
    ∀ {f e : ℕ}, e ∈ s.live → dep e < f → ∃ t, wspecF co si s f e = some t := by
  intro f
  induction f with
  | zero =>
    intro e _ h
    omega
  | succ g ih =>
    intro e he hf
    simp only [wspecF]
    by_cases hp : (s.nodes e).parent = e
    · exact ⟨_, by rw [if_pos hp]⟩
    · have hpl := hwf.parent_live e he
      have hdp := hwf.dep_parent e he hp
      obtain ⟨pt, hpt⟩ := ih hpl (by omega)
      exact ⟨_, by rw [if_neg hp, hpt]; rfl⟩

theorem wspecF_det (co si : α → α) {s : SGState α} {f f2 e : ℕ}
    {t t2 : Transform2 α} (h : wspecF co si s f e = some t)
    (h2 : wspecF co si s f2 e = some t2) : t = t2 := by
  rcases le_total f f2 with hle | hle
  · exact Option.some.inj ((wspecF_mono co si hle h).symm.trans h2)
  · exact (Option.some.inj ((wspecF_mono co si hle h2).symm.trans h)).symm

theorem wspecF_agree_chain (co si : α → α) {s t : SGState α} :
    ∀ {f x : ℕ},
      (∀ z, Anc s x z → (t.nodes z).loc = (s.nodes z).loc ∧
        (t.nodes z).heightForDepth = (s.nodes z).heightForDepth ∧
        (t.nodes z).parent = (s.nodes z).parent) →
      wspecF co si t f x = wspecF co si s f x := by
  intro f
  induction f with
  | zero => intro x _; rfl
  | succ g ih =>
    intro x hagree
    obtain ⟨hloc, hhfd, hpar⟩ := hagree x Anc.refl
    simp only [wspecF]
    by_cases hp : (s.nodes x).parent = x
    · rw [if_pos (by rw [hpar]; exact hp), if_pos hp, hloc]
    · rw [if_neg (by rw [hpar]; exact hp), if_neg hp, hpar,
        ih (fun z hz => hagree z (Anc_lift hz))]
      cases wspecF co si s g (s.nodes x).parent with
      | none => rfl
      | some pt =>
        simp only [Option.map_some']
        rw [composeWT_congr co si pt hloc hhfd hpar]

theorem wspecF_congr (co si : α → α) {s t : SGState α}
    (h : ∀ z, (t.nodes z).loc = (s.nodes z).loc ∧
      (t.nodes z).heightForDepth = (s.nodes z).heightForDepth ∧
      (t.nodes z).parent = (s.nodes z).parent) {f x : ℕ} :
    wspecF co si t f x = wspecF co si s f x :=
  wspecF_agree_chain co si (fun z _ => h z)

theorem setDirtyF_dirty_noop {s : SGState α} {e : ℕ}
    (h : (s.nodes e).dirty = true) (f : ℕ) : setDirtyF f s e = s := by
  cases f with
  | zero => rfl
  | succ g => simp [setDirtyF, h]

theorem foldl_flagStep {g : SGState α → ℕ → SGState α}
    (hg : ∀ u c, flagStep u (g u c)) :
    ∀ (cs : List ℕ) (u : SGState α), flagStep u (cs.foldl g u) := by
  intro cs
  induction cs with
  | nil => exact fun u => flagStep_refl u
  | cons c cs ih => exact fun u => flagStep_trans (hg u c) (ih (g u c))

theorem flagStep_upd_mark (s : SGState α) (e : ℕ) :
    flagStep s (s.upd e fun m => { m with dirty := true }) := by
  refine ⟨⟨rfl, fun x => ?_⟩, fun x => ?_⟩ <;>
    by_cases hx : x = e <;>
    simp [SGState.upd, Function.update, hx]

theorem setDirty_flag : ∀ (f : ℕ) (s : SGState α) (e : ℕ),
    flagStep s (setDirtyF f s e) := by
  intro f
  induction f with
  | zero => exact fun s e => flagStep_refl s
  | succ g ih =>
    intro s e
    by_cases hd : (s.nodes e).dirty = true
    · rw [setDirtyF_dirty_noop hd]
      exact flagStep_refl s
    · rw [setDirtyF, if_neg hd]
      exact flagStep_trans (flagStep_upd_mark s e)
        (foldl_flagStep (fun u c => ih u c) _ _)

theorem dirty_chain {s : SGState α} {dep : ℕ → ℕ} {bound k : ℕ}
    (hwf : WFd s dep bound) (hdd : Hdd s dep k) {a y : ℕ} (h : RD s a y)
    (ha : a ∈ s.live) (hk : k ≤ dep a) (hd : (s.nodes a).dirty = true) :
    y ∈ s.live ∧ k ≤ dep y ∧ (s.nodes y).dirty = true := by
  revert ha hk hd
  induction h with
  | refl e => exact fun ha hk hd => ⟨ha, hk, hd⟩
  | @step e c x hc _ ih =>
    intro he hk hd
    obtain ⟨hcl, hcp⟩ := hwf.child_mem e he c hc
    have hcd := hdd e he hk hd c hc
    have hkc : k ≤ dep c := by
      by_cases hce : c = e
      · rw [hce]; exact hk
      · have := hwf.dep_parent c hcl (by rw [hcp]; exact fun hh => hce hh.symm)
        rw [hcp] at this
        omega
    exact ih hcl hkc hcd

theorem setDirty_spec :
    ∀ (fuel : ℕ) (s : SGState α) (dep : ℕ → ℕ) (bound e : ℕ),
      WFd s dep bound → e ∈ s.live → bound < fuel + dep e → Hdd s dep (dep e) →
      (∀ p, ((setDirtyF fuel s e).nodes p).dirty = true →
        (s.nodes p).dirty = true ∨
        ∀ y, RD s p y → ((setDirtyF fuel s e).nodes y).dirty = true) ∧
      (∀ y, RD s e y → ((setDirtyF fuel s e).nodes y).dirty = true) := by
  intro fuel
  induction fuel with
  | zero =>
    intro s dep bound e hwf he hfuel _
    exact absurd (hwf.dep_le e he) (by omega)
  | succ f ih =>
    intro s dep bound e hwf he hfuel hdd
    by_cases hd : (s.nodes e).dirty = true
    · rw [setDirtyF_dirty_noop hd]
      refine ⟨fun p hp => Or.inl hp, fun y hy => (dirty_chain hwf hdd hy he le_rfl hd).2.2⟩
    · have hunf : setDirtyF (f + 1) s e =
          ((s.nodes e).children).foldl (fun t c => setDirtyF f t c)
            (s.upd e fun m => { m with dirty := true }) := by
        rw [setDirtyF, if_neg hd]
      set s1 := s.upd e fun m => { m with dirty := true } with hs1
      have hflag1 : flagStep s s1 := flagStep_upd_mark s e
      have hs1e : (s1.nodes e).dirty = true := by
        simp [hs1, SGState.upd, Function.update]
      have hs1ne : ∀ p, p ≠ e → s1.nodes p = s.nodes p := by
        intro p hp
        simp [hs1, SGState.upd, Function.update, hp]
      -- the fold invariant
      have hfold : ∀ (cl : List ℕ),
          (∀ c ∈ cl, c ∈ (s.nodes e).children) →
          ∀ u, flagStep s1 u →
          (∀ p, (u.nodes p).dirty = true → (s1.nodes p).dirty = true ∨
            ∀ y, RD s p y → (u.nodes y).dirty = true) →
          flagStep u (cl.foldl (fun t c => setDirtyF f t c) u) ∧
          (∀ p, ((cl.foldl (fun t c => setDirtyF f t c) u).nodes p).dirty = true →
            (s1.nodes p).dirty = true ∨
            ∀ y, RD s p y →
              ((cl.foldl (fun t c => setDirtyF f t c) u).nodes y).dirty = true) ∧
          (∀ c ∈ cl, c ≠ e → ∀ y, RD s c y →
            ((cl.foldl (fun t c => setDirtyF f t c) u).nodes y).dirty = true) := by
        intro cl
        induction cl with
        | nil =>
          intro _ u hu1 hu2
          exact ⟨flagStep_refl u, hu2, fun c hc => absurd hc (List.not_mem_nil c)⟩
        | cons c cl ihl =>
          intro hmem u hu1 hu2
          have hcmem : c ∈ (s.nodes e).children := hmem c (List.mem_cons_self c cl)
          obtain ⟨hcl2, hcp⟩ := hwf.child_mem e he c hcmem
          simp only [List.foldl_cons]
          by_cases hce : c = e
          · -- the root re-appears among its own children: already dirty, no-op
            have hduc : (u.nodes c).dirty = true := by
              rw [hce]
              exact (hu1.2 e).2 hs1e
            rw [setDirtyF_dirty_noop hduc]
            obtain ⟨r1, r2, r3⟩ := ihl (fun x hx => hmem x (List.mem_cons_of_mem c hx)) u hu1 hu2
            refine ⟨r1, r2, fun c2 hc2 hc2e y hy => ?_⟩
            rcases List.mem_cons.mp hc2 with h1 | h1
            · exact absurd (h1.trans hce) hc2e
            · exact r3 c2 h1 hc2e y hy
          · -- a genuine child
            have hdepc : dep e < dep c := by
              have h0 := hwf.dep_parent c hcl2 (by rw [hcp]; exact fun hh => hce hh.symm)
              rw [hcp] at h0
              exact h0
            have hshape_su : shapeStep s u := shapeStep_trans hflag1.1 hu1.1
            by_cases hduc : (u.nodes c).dirty = true
            · -- already dirty at this point: skip but the subtree is covered
              rw [setDirtyF_dirty_noop hduc]
              obtain ⟨r1, r2, r3⟩ := ihl (fun x hx => hmem x (List.mem_cons_of_mem c hx)) u hu1 hu2
              refine ⟨r1, r2, fun c2 hc2 hc2e y hy => ?_⟩
              rcases List.mem_cons.mp hc2 with h1 | h1
              · -- c2 = c : coverage from the accumulated invariant
                rcases hu2 c hduc with hdc1 | hdc2
                · have hdsc : (s.nodes c).dirty = true := by
                    rw [← hs1ne c hce]
                    exact hdc1
                  have := (dirty_chain hwf hdd (h1 ▸ hy) hcl2
                    (le_of_lt hdepc) hdsc).2.2
                  have hys1 : (s1.nodes y).dirty = true := by
                    by_cases hye : y = e
                    · rw [hye]; exact hs1e
                    · rw [hs1ne y hye]; exact this
                  exact (r1.2 y).2 ((hu1.2 y).2 hys1)
                · exact (r1.2 y).2 (hdc2 y (h1 ▸ hy))
              · exact r3 c2 h1 hc2e y hy
            · -- clean: the recursive call marks the whole subtree of c
              have hwfu : WFd u dep bound := WFd_transfer hshape_su hwf
              have hclu : c ∈ u.live := by rw [hshape_su.1]; exact hcl2
              have hddu : Hdd u dep (dep c) := by
                intro p hp hdp hdirty c2 hc2
                have hps : p ∈ s.live := by rw [← hshape_su.1]; exact hp
                have hpe : p ≠ e := fun hh => by rw [hh] at hdp; omega
                have hc2s : c2 ∈ (s.nodes p).children := by
                  rw [← (hshape_su.2 p).2.2.2]; exact hc2
                rcases hu2 p hdirty with h1 | h1
                · have hdsp : (s.nodes p).dirty = true := by
                    rw [← hs1ne p hpe]; exact h1
                  have := hdd p hps (by omega) hdsp c2 hc2s
                  have hc2s1 : (s1.nodes c2).dirty = true := by
                    by_cases hc2e : c2 = e
                    · rw [hc2e]; exact hs1e
                    · rw [hs1ne c2 hc2e]; exact this
                  exact (hu1.2 c2).2 hc2s1
                · exact h1 c2 (RD.step hc2s (RD.refl c2))
              obtain ⟨nds, cov⟩ := ih u dep bound c hwfu hclu (by omega) hddu
              have hflagv : flagStep u (setDirtyF f u c) := setDirty_flag f u c
              have hu2v : ∀ p, ((setDirtyF f u c).nodes p).dirty = true →
                  (s1.nodes p).dirty = true ∨
                  ∀ y, RD s p y → ((setDirtyF f u c).nodes y).dirty = true := by
                intro p hp
                rcases nds p hp with h1 | h1
                · rcases hu2 p h1 with h2 | h2
                  · exact Or.inl h2
                  · exact Or.inr fun y hy => (hflagv.2 y).2 (h2 y hy)
                · exact Or.inr fun y hy => h1 y ((RD_shape hshape_su).mpr hy)
              obtain ⟨r1, r2, r3⟩ :=
                ihl (fun x hx => hmem x (List.mem_cons_of_mem c hx))
                  (setDirtyF f u c) (flagStep_trans hu1 hflagv) hu2v
              refine ⟨flagStep_trans hflagv r1, r2, fun c2 hc2 hc2e y hy => ?_⟩
              rcases List.mem_cons.mp hc2 with h1 | h1
              · have : ((setDirtyF f u c).nodes y).dirty = true :=
                  cov y ((RD_shape hshape_su).mpr (h1 ▸ hy))
                exact (r1.2 y).2 this
              · exact r3 c2 h1 hc2e y hy
      rw [hunf]
      obtain ⟨r1, r2, r3⟩ := hfold (s.nodes e).children (fun x hx => hx) s1
        (flagStep_refl s1) (fun p hp => Or.inl hp)
      set t := ((s.nodes e).children).foldl (fun t c => setDirtyF f t c) s1 with ht
      have hte : (t.nodes e).dirty = true := (r1.2 e).2 hs1e
      have cov : ∀ a y, RD s a y → a = e → (t.nodes y).dirty = true := by
        intro a y h
        induction h with
        | refl x => exact fun hx => by rw [hx]; exact hte
        | @step a c y hc _ ihr =>
          intro hae
          rw [hae] at hc
          by_cases hce : c = e
          · exact ihr hce
          · exact r3 c hc hce y (by assumption)
      refine ⟨fun p hp => ?_, fun y hy => cov e y hy rfl⟩
      rcases r2 p hp with h1 | h1
      · by_cases hpe : p = e
        · exact Or.inr fun y hy => cov e y (by rw [← hpe]; exact hy) rfl
        · rw [hs1ne p hpe] at h1
          exact Or.inl h1
      · exact Or.inr h1

theorem SGState.upd_nodes_same (s : SGState α) (e : ℕ) (g : SGNode α → SGNode α) :
    (s.upd e g).nodes e = g (s.nodes e) := by
  simp [SGState.upd, Function.update]

theorem SGState.upd_nodes_ne (s : SGState α) {e x : ℕ} (g : SGNode α → SGNode α)
    (h : x ≠ e) : (s.upd e g).nodes x = s.nodes x := by
  simp [SGState.upd, Function.update, h]

theorem SGState.upd_live (s : SGState α) (e : ℕ) (g : SGNode α → SGNode α) :
    (s.upd e g).live = s.live := rfl

theorem getWT_correct (co si : α → α) :
    ∀ (fuel : ℕ) (s : SGState α) (dep : ℕ → ℕ) (bound e : ℕ),
      WFd s dep bound → SGInv co si s → e ∈ s.live → dep e < fuel →
      wspecF co si s fuel e = some (getWT co si fuel s e).1 ∧
      cacheStep s (getWT co si fuel s e).2 ∧
      (((getWT co si fuel s e).2.nodes e).dirty = false ∧
        ((getWT co si fuel s e).2.nodes e).world = (getWT co si fuel s e).1) ∧
      SGInv co si (getWT co si fuel s e).2 := by
  intro fuel
  induction fuel with
  | zero =>
    intro s dep bound e _ _ _ h
    omega
  | succ f ih =>
    intro s dep bound e hwf hinv he hf
    by_cases hd : (s.nodes e).dirty = true
    · by_cases hp : (s.nodes e).parent = e
      · -- dirty root: copy the local transform
        have hunf : getWT co si (f + 1) s e =
            ((s.nodes e).loc, s.upd e fun m => { m with world := m.loc, dirty := false }) := by
          rw [getWT]
          simp only [hd, if_true, hp, ne_eq, not_true_eq_false, if_false, ite_true,
            ite_false]
        set t := s.upd e fun m => { m with world := m.loc, dirty := false } with htdef
        have hte : t.nodes e = { s.nodes e with world := (s.nodes e).loc, dirty := false } :=
          SGState.upd_nodes_same s e _
        have htne : ∀ x, x ≠ e → t.nodes x = s.nodes x := fun x hx =>
          SGState.upd_nodes_ne s _ hx
        have hcs : cacheStep s t := by
          refine ⟨⟨rfl, fun x => ?_⟩, fun x => ?_⟩ <;> by_cases hx : x = e
          · rw [hx, hte]
            exact ⟨rfl, rfl, rfl, rfl⟩
          · rw [htne x hx]
            exact ⟨rfl, rfl, rfl, rfl⟩
          · rw [hx, hte]
            intro hh
            simp at hh
          · rw [htne x hx]
            exact id
        have hws : wspecF co si s (f + 1) e = some (s.nodes e).loc := by
          simp only [wspecF]
          rw [if_pos hp]
        have hcongr : ∀ z, (t.nodes z).loc = (s.nodes z).loc ∧
            (t.nodes z).heightForDepth = (s.nodes z).heightForDepth ∧
            (t.nodes z).parent = (s.nodes z).parent := by
          intro z
          by_cases hz : z = e
          · rw [hz, hte]
            exact ⟨rfl, rfl, rfl⟩
          · rw [htne z hz]
            exact ⟨rfl, rfl, rfl⟩
        rw [hunf]
        refine ⟨hws, hcs, ⟨by rw [hte], by rw [hte]⟩, ?_, ?_⟩
        · -- dirtyDown for t
          intro q hq c hc hdq
          have hqe : q ≠ e := by
            intro hh
            rw [hh, hte] at hdq
            simp at hdq
          rw [htne q hqe] at hdq hc
          have hq2 : q ∈ s.live := hq
          have hcd := hinv.dirtyDown q hq2 c hc hdq
          by_cases hce : c = e
          · exfalso
            rw [hce] at hc
            have := (hwf.child_mem q hq2 e hc).2
            rw [hp] at this
            exact hqe this.symm
          · rw [htne c hce]
            exact hcd
        · -- cleanCache for t
          intro x hx hdx
          by_cases hxe : x = e
          · refine ⟨f + 1, ?_⟩
            rw [wspecF_congr co si hcongr, hxe, hws, hte]
          · rw [htne x hxe] at hdx ⊢
            obtain ⟨f0, h0⟩ := hinv.cleanCache x hx hdx
            exact ⟨f0, by rw [wspecF_congr co si hcongr, h0]⟩
      · -- dirty non-root: recurse on the parent, compose, cache
        have hpl := hwf.parent_live e he
        have hdp := hwf.dep_parent e he hp
        obtain ⟨ih1, ih2, ih3, ih4⟩ :=
          ih s dep bound (s.nodes e).parent hwf hinv hpl (by omega)
        set r := getWT co si f s (s.nodes e).parent with hrdef
        set w := composeWT co si r.1 (r.2.nodes e) with hwdef
        have hunf : getWT co si (f + 1) s e =
            (w, r.2.upd e fun m => { m with world := w, dirty := false }) := by
          rw [getWT]
          simp only [hd, if_true, hp, ne_eq, not_false_eq_true, if_true, ite_true]
        set t := r.2.upd e fun m => { m with world := w, dirty := false } with htdef
        have hte : t.nodes e = { r.2.nodes e with world := w, dirty := false } :=
          SGState.upd_nodes_same r.2 e _
        have htne : ∀ x, x ≠ e → t.nodes x = r.2.nodes x := fun x hx =>
          SGState.upd_nodes_ne r.2 _ hx
        have hcs2 : cacheStep r.2 t := by
          refine ⟨⟨rfl, fun x => ?_⟩, fun x => ?_⟩ <;> by_cases hx : x = e
          · rw [hx, hte]
            exact ⟨rfl, rfl, rfl, rfl⟩
          · rw [htne x hx]
            exact ⟨rfl, rfl, rfl, rfl⟩
          · rw [hx, hte]
            intro hh
            simp at hh
          · rw [htne x hx]
            exact id
        have hcs : cacheStep s t := cacheStep_trans ih2 hcs2
        have hwse : w = composeWT co si r.1 (s.nodes e) := by
          rw [hwdef]
          exact composeWT_congr co si r.1 (ih2.1.2 e).1 (ih2.1.2 e).2.1 (ih2.1.2 e).2.2.1
        have hws : wspecF co si s (f + 1) e = some w := by
          simp only [wspecF]
          rw [if_neg hp, ih1, Option.map_some', hwse]
        have hcongr2 : ∀ z, (t.nodes z).loc = (r.2.nodes z).loc ∧
            (t.nodes z).heightForDepth = (r.2.nodes z).heightForDepth ∧
            (t.nodes z).parent = (r.2.nodes z).parent := by
          intro z
          by_cases hz : z = e
          · rw [hz, hte]
            exact ⟨rfl, rfl, rfl⟩
          · rw [htne z hz]
            exact ⟨rfl, rfl, rfl⟩
        have hcongr : ∀ z, (t.nodes z).loc = (s.nodes z).loc ∧
            (t.nodes z).heightForDepth = (s.nodes z).heightForDepth ∧
            (t.nodes z).parent = (s.nodes z).parent := by
          intro z
          obtain ⟨a1, a2, a3⟩ := hcongr2 z
          obtain ⟨b1, b2, b3, _⟩ := ih2.1.2 z
          exact ⟨a1.trans b1, a2.trans b2, a3.trans b3⟩
        have hwfr : WFd r.2 dep bound := WFd_transfer ih2.1 hwf
        rw [hunf]
        refine ⟨hws, hcs, ⟨by rw [hte], by rw [hte]⟩, ?_, ?_⟩
        · -- dirtyDown for t
          intro q hq c hc hdq
          have hqe : q ≠ e := by
            intro hh
            rw [hh, hte] at hdq
            simp at hdq
          rw [htne q hqe] at hdq hc
          have hqr : q ∈ r.2.live := hq
          by_cases hce : c = e
          · exfalso
            rw [hce] at hc
            have hpe := (hwfr.child_mem q hqr e hc).2
            have : (r.2.nodes e).parent = (s.nodes e).parent := (ih2.1.2 e).2.2.1
            rw [this] at hpe
            rw [hpe] at ih3
            exact absurd hdq (by rw [ih3.1]; simp)
          · rw [htne c hce]
            exact ih4.dirtyDown q hqr c hc hdq
        · -- cleanCache for t
          intro x hx hdx
          by_cases hxe : x = e
          · refine ⟨f + 1, ?_⟩
            rw [wspecF_congr co si hcongr, hxe, hws, hte]
          · rw [htne x hxe] at hdx ⊢
            have hxr : x ∈ r.2.live := hx
            obtain ⟨f0, h0⟩ := ih4.cleanCache x hxr hdx
            exact ⟨f0, by rw [wspecF_congr co si hcongr2, h0]⟩
    · -- clean: the cache is returned untouched
      have hd2 : (s.nodes e).dirty = false := by simpa using hd
      have hunf : getWT co si (f + 1) s e = ((s.nodes e).world, s) := by
        rw [getWT]
        simp only [hd2, Bool.false_eq_true, if_false, ite_false]
      obtain ⟨f0, h0⟩ := hinv.cleanCache e he hd2
      obtain ⟨t0, ht0⟩ := wspecF_total co si hwf he hf
      have := wspecF_det co si ht0 (h0 : wspecF co si s f0 e = some ((s.nodes e).world))
      rw [hunf]
      exact ⟨by rw [ht0, this], cacheStep_refl s, ⟨hd2, rfl⟩, hinv⟩

theorem WFd_links {s t : SGState α} {dep : ℕ → ℕ} {bound : ℕ}
    (hl : t.live = s.live)
    (hn : ∀ x, (t.nodes x).parent = (s.nodes x).parent ∧
      (t.nodes x).children = (s.nodes x).children)
    (hwf : WFd s dep bound) : WFd t dep bound := by
  constructor
  · intro e he
    rw [hl] at he ⊢
    rw [(hn e).1]
    exact hwf.parent_live e he
  · intro p hp c hc
    rw [hl] at hp
    rw [(hn p).2] at hc
    obtain ⟨h1, h2⟩ := hwf.child_mem p hp c hc
    exact ⟨by rw [hl]; exact h1, by rw [(hn c).1]; exact h2⟩
  · intro p hp c hc hpc
    rw [hl] at hp hc
    rw [(hn c).1] at hpc
    rw [(hn p).2]
    exact hwf.mem_child p hp c hc hpc
  · intro p hp
    rw [hl] at hp
    rw [(hn p).2]
    exact hwf.child_nodup p hp
  · intro e he hne
    rw [hl] at he
    rw [(hn e).1] at hne ⊢
    exact hwf.dep_parent e he hne
  · intro e he
    rw [hl] at he
    exact hwf.dep_le e he

theorem RD_children_eq {s t : SGState α}
    (h : ∀ p, (t.nodes p).children = (s.nodes p).children) {a b : ℕ} :
    RD s a b ↔ RD t a b := by
  constructor
  · exact RD_mono_edges (fun p q hq => by rw [h p]; exact hq)
  · exact RD_mono_edges (fun p q hq => by rw [← h p]; exact hq)

theorem removeParent_spec {s : SGState α} {e : ℕ}
    (hmem : e ∈ (s.nodes (s.nodes e).parent).children) :
    ∃ i, findChildIdx (s.nodes (s.nodes e).parent).children e = some i ∧
      removeParent s e = ((s.upd (s.nodes e).parent
        fun m => { m with children := swapRemove m.children i }), false) ∧
      (swapRemove (s.nodes (s.nodes e).parent).children i).Perm
        (((s.nodes (s.nodes e).parent).children).erase e) := by
  obtain ⟨i, hi⟩ := findChildIdx_exists_of_mem hmem
  exact ⟨i, hi, by rw [removeParent, hi], swapRemove_perm_erase hi⟩

theorem localUpd_inv (co si : α → α) {s : SGState α} {dep : ℕ → ℕ}
    {bound e fuel : ℕ} (hwf : WFd s dep bound) (hinv : SGInv co si s)
    (he : e ∈ s.live) (hfuel : bound < fuel + dep e) (g : SGNode α → SGNode α)
    (hg : ∀ m, (g m).world = m.world ∧ (g m).dirty = m.dirty ∧
      (g m).parent = m.parent ∧ (g m).children = m.children) :
    SGInv co si (setDirtyF fuel (s.upd e g) e) ∧
    WFd (setDirtyF fuel (s.upd e g) e) dep bound ∧
    (setDirtyF fuel (s.upd e g) e).live = s.live := by
  set s1 := s.upd e g with hs1
  have hfields : ∀ x, (s1.nodes x).world = (s.nodes x).world ∧
      (s1.nodes x).dirty = (s.nodes x).dirty ∧
      (s1.nodes x).parent = (s.nodes x).parent ∧
      (s1.nodes x).children = (s.nodes x).children := by
    intro x
    by_cases hx : x = e
    · rw [hx, hs1, SGState.upd_nodes_same]
      exact hg (s.nodes e)
    · rw [hs1, SGState.upd_nodes_ne _ _ hx]
      exact ⟨rfl, rfl, rfl, rfl⟩
  have hlive1 : s1.live = s.live := rfl
  have hwf1 : WFd s1 dep bound :=
    WFd_links hlive1 (fun x => ⟨(hfields x).2.2.1, (hfields x).2.2.2⟩) hwf
  have hdd1 : Hdd s1 dep (dep e) := by
    intro p hp _ hdirty c hc
    rw [(hfields p).2.1] at hdirty
    rw [(hfields p).2.2.2] at hc
    rw [(hfields c).2.1]
    exact hinv.dirtyDown p hp c hc hdirty
  obtain ⟨nds, cov⟩ := setDirty_spec fuel s1 dep bound e hwf1 he hfuel hdd1
  set t := setDirtyF fuel s1 e with htdef
  have hflag : flagStep s1 t := setDirty_flag fuel s1 e
  have hlivet : t.live = s.live := by rw [hflag.1.1, hlive1]
  refine ⟨⟨?_, ?_⟩, WFd_transfer hflag.1 hwf1, hlivet⟩
  · -- dirtyDown
    intro q hq c hc hdq
    rw [hlivet] at hq
    rw [(hflag.1.2 q).2.2.2] at hc
    rcases nds q hdq with h1 | h1
    · rw [(hfields q).2.1] at h1
      have hcd := hinv.dirtyDown q hq c (by rw [← (hfields q).2.2.2]; exact hc) h1
      exact (hflag.2 c).2 (by rw [(hfields c).2.1]; exact hcd)
    · exact h1 c (RD.step hc (RD.refl c))
  · -- cleanCache
    intro x hx hdx
    rw [hlivet] at hx
    have hdx1 : (s1.nodes x).dirty = false := by
      by_cases hd1 : (s1.nodes x).dirty = true
      · rw [(hflag.2 x).2 hd1] at hdx
        cases hdx
      · simpa using hd1
    have hdxs : (s.nodes x).dirty = false := by
      rw [← (hfields x).2.1]
      exact hdx1
    obtain ⟨f0, h0⟩ := hinv.cleanCache x hx hdxs
    have hnotanc : ¬ Anc s x e := by
      intro hanc
      obtain ⟨hel, hre⟩ := RD_of_anc hwf hx hanc
      have hre1 : RD s1 e x :=
        (RD_children_eq (fun p => (hfields p).2.2.2)).mp hre
      have := cov x hre1
      rw [this] at hdx
      cases hdx
    have hagree : ∀ z, Anc s x z → (t.nodes z).loc = (s.nodes z).loc ∧
        (t.nodes z).heightForDepth = (s.nodes z).heightForDepth ∧
        (t.nodes z).parent = (s.nodes z).parent := by
      intro z hz
      have hze : z ≠ e := fun hh => hnotanc (hh ▸ hz)
      have hzn : s1.nodes z = s.nodes z := SGState.upd_nodes_ne _ _ hze
      obtain ⟨a1, a2, a3, a4⟩ := hflag.1.2 z
      rw [hzn] at a1 a2 a3
      exact ⟨a1, a2, a3⟩
    refine ⟨f0, ?_⟩
    rw [wspecF_agree_chain co si hagree, h0]
    have : (t.nodes x).world = (s.nodes x).world := by
      rw [(hflag.2 x).1, (hfields x).1]
    rw [this]

theorem sgCreate_inv (co si : α → α) {s : SGState α} {dep : ℕ → ℕ} {bound : ℕ}
    (hwf : WFd s dep bound) (hinv : SGInv co si s) {e p : ℕ}
    (he : e ∉ s.live) (hp : p ∈ s.live) :
    SGInv co si (sgCreate s e p) ∧
    WFd (sgCreate s e p) (fun x => if x = e then bound + 1 else dep x) (bound + 1) ∧
    (sgCreate s e p).live = insert e s.live := by
  have hep : e ≠ p := fun hh => he (hh ▸ hp)
  set u := sgCreate s e p with hu
  have hne : u.nodes e =
      { loc := ⟨⟨0, 0⟩, 0, 0⟩, world := ⟨⟨0, 0⟩, 0, 0⟩, heightForDepth := 0,
        parent := p, children := [], dirty := true } := by
    simp [hu, sgCreate, addParent, SGState.upd, Function.update, hep, SGNode.fresh]
  have hnp : u.nodes p =
      { s.nodes p with children := (s.nodes p).children ++ [e] } := by
    simp [hu, sgCreate, addParent, SGState.upd, Function.update, hep,
      Ne.symm hep, SGNode.fresh]
  have hno : ∀ x, x ≠ e → x ≠ p → u.nodes x = s.nodes x := by
    intro x h1 h2
    simp [hu, sgCreate, addParent, SGState.upd, Function.update, h1, h2]
  have hlive : u.live = insert e s.live := by
    simp [hu, sgCreate, addParent, SGState.upd]
  have hmem_live : ∀ c, c ∈ s.live → c ≠ e := fun c hc hh => he (hh ▸ hc)
  have hdirty_eq : ∀ x, x ≠ e → (u.nodes x).dirty = (s.nodes x).dirty := by
    intro x h1
    by_cases h2 : x = p
    · rw [h2, hnp]
    · rw [hno x h1 h2]
  have hparent_eq : ∀ x, x ≠ e → (u.nodes x).parent = (s.nodes x).parent := by
    intro x h1
    by_cases h2 : x = p
    · rw [h2, hnp]
    · rw [hno x h1 h2]
  have hchildren_sub : ∀ x, x ≠ e → x ≠ p →
      (u.nodes x).children = (s.nodes x).children := by
    intro x h1 h2
    rw [hno x h1 h2]
  have henochild : e ∉ (s.nodes p).children := by
    intro hc
    exact he (hwf.child_mem p hp e hc).1
  refine ⟨⟨?_, ?_⟩, ?_, hlive⟩
  · -- dirtyDown
    intro q hq c hc hdq
    rw [hlive] at hq
    by_cases hqe : q = e
    · rw [hqe, hne] at hc
      cases hc
    · have hql : q ∈ s.live := (Finset.mem_insert.mp hq).resolve_left hqe
      rw [hdirty_eq q hqe] at hdq
      by_cases hqp : q = p
      · rw [hqp, hnp] at hc
        rcases List.mem_append.mp hc with h1 | h1
        · have hcd := hinv.dirtyDown p hp c h1 (by rw [← hqp]; exact hdq)
          have hcl := (hwf.child_mem p hp c h1).1
          rw [hdirty_eq c (hmem_live c hcl)]
          exact hcd
        · have hce : c = e := by simpa using h1
          rw [hce, hne]
      · rw [hchildren_sub q hqe hqp] at hc
        have hcd := hinv.dirtyDown q hql c hc hdq
        have hcl := (hwf.child_mem q hql c hc).1
        rw [hdirty_eq c (hmem_live c hcl)]
        exact hcd
  · -- cleanCache
    intro x hx hdx
    rw [hlive] at hx
    by_cases hxe : x = e
    · rw [hxe, hne] at hdx
      cases hdx
    · have hxl : x ∈ s.live := (Finset.mem_insert.mp hx).resolve_left hxe
      rw [hdirty_eq x hxe] at hdx
      obtain ⟨f0, h0⟩ := hinv.cleanCache x hxl hdx
      have hagree : ∀ z, Anc s x z → (u.nodes z).loc = (s.nodes z).loc ∧
          (u.nodes z).heightForDepth = (s.nodes z).heightForDepth ∧
          (u.nodes z).parent = (s.nodes z).parent := by
        intro z hz
        have hzl := (RD_of_anc hwf hxl hz).1
        have hze := hmem_live z hzl
        by_cases hzp : z = p
        · rw [hzp, hnp]
          exact ⟨rfl, rfl, rfl⟩
        · rw [hno z hze hzp]
          exact ⟨rfl, rfl, rfl⟩
      refine ⟨f0, ?_⟩
      rw [wspecF_agree_chain co si hagree, h0]
      have hworld : (u.nodes x).world = (s.nodes x).world := by
        by_cases h2 : x = p
        · rw [h2, hnp]
        · rw [hno x hxe h2]
      rw [hworld]
  · -- WFd
    constructor
    · intro x hx
      rw [hlive] at hx ⊢
      by_cases hxe : x = e
      · rw [hxe, hne]
        exact Finset.mem_insert_of_mem hp
      · have hxl : x ∈ s.live := (Finset.mem_insert.mp hx).resolve_left hxe
        rw [hparent_eq x hxe]
        exact Finset.mem_insert_of_mem (hwf.parent_live x hxl)
    · intro q hq c hc
      rw [hlive] at hq ⊢
      by_cases hqe : q = e
      · rw [hqe, hne] at hc
        cases hc
      · have hql : q ∈ s.live := (Finset.mem_insert.mp hq).resolve_left hqe
        by_cases hqp : q = p
        · rw [hqp, hnp] at hc
          rcases List.mem_append.mp hc with h1 | h1
          · obtain ⟨h2, h3⟩ := hwf.child_mem p hp c h1
            refine ⟨Finset.mem_insert_of_mem h2, ?_⟩
            rw [hparent_eq c (hmem_live c h2), h3, hqp]
          · have hce : c = e := by simpa using h1
            rw [hce, hne]
            exact ⟨Finset.mem_insert_self e s.live, hqp.symm⟩
        · rw [hchildren_sub q hqe hqp] at hc
          obtain ⟨h2, h3⟩ := hwf.child_mem q hql c hc
          refine ⟨Finset.mem_insert_of_mem h2, ?_⟩
          rw [hparent_eq c (hmem_live c h2)]
          exact h3
    · intro q hq c hc hpc
      rw [hlive] at hq hc
      by_cases hce : c = e
      · rw [hce, hne] at hpc
        rw [← hpc, hnp, hce]
        simp
      · have hcl : c ∈ s.live := (Finset.mem_insert.mp hc).resolve_left hce
        rw [hparent_eq c hce] at hpc
        have hqe : q ≠ e := by
          intro hh
          rw [hh] at hpc
          exact he (hpc ▸ hwf.parent_live c hcl)
        have hql : q ∈ s.live := (Finset.mem_insert.mp hq).resolve_left hqe
        have hmc := hwf.mem_child q hql c hcl hpc
        by_cases hqp : q = p
        · rw [hqp, hnp]
          exact List.mem_append_left _ (by rw [← hqp]; exact hmc)
        · rw [hchildren_sub q hqe hqp]
          exact hmc
    · intro q hq
      rw [hlive] at hq
      by_cases hqe : q = e
      · rw [hqe, hne]
        exact List.nodup_nil
      · have hql : q ∈ s.live := (Finset.mem_insert.mp hq).resolve_left hqe
        by_cases hqp : q = p
        · rw [hqp, hnp]
          refine List.Nodup.append (hwf.child_nodup p hp) (List.nodup_singleton e) ?_
          intro a ha hb
          have : a = e := by simpa using hb
          rw [this] at ha
          exact henochild ha
        · rw [hchildren_sub q hqe hqp]
          exact hwf.child_nodup q hql
    · intro q hq hne2
      rw [hlive] at hq
      by_cases hqe : q = e
      · rw [hqe, hne]
        have h1 : ¬ (p = e) := fun hh => hep hh.symm
        simp only [h1, if_false, ite_true, ite_false, if_true, reduceIte]
        have := hwf.dep_le p hp
        omega
      · have hql : q ∈ s.live := (Finset.mem_insert.mp hq).resolve_left hqe
        rw [hparent_eq q hqe] at hne2 ⊢
        have hple : (s.nodes q).parent ≠ e :=
          hmem_live _ (hwf.parent_live q hql)
        rw [if_neg hple, if_neg hqe]
        exact hwf.dep_parent q hql hne2
    · intro q hq
      by_cases hqe : q = e
      · rw [if_pos hqe]
      · rw [if_neg hqe]
        rw [hlive] at hq
        have hql : q ∈ s.live := (Finset.mem_insert.mp hq).resolve_left hqe
        have := hwf.dep_le q hql
        omega

theorem sgDestroy_inv (co si : α → α) {s : SGState α} (hinv : SGInv co si s)
    (e : ℕ) :
    SGInv co si (sgDestroy s e) ∧ (sgDestroy s e).live = s.live.erase e ∧
    (∀ x, ((sgDestroy s e).nodes x).parent = (s.nodes x).parent ∧
      ((sgDestroy s e).nodes x).loc = (s.nodes x).loc ∧
      ((sgDestroy s e).nodes x).world = (s.nodes x).world ∧
      ((sgDestroy s e).nodes x).heightForDepth = (s.nodes x).heightForDepth ∧
      ((sgDestroy s e).nodes x).dirty = (s.nodes x).dirty) ∧
    (∀ x c, c ∈ ((sgDestroy s e).nodes x).children → c ∈ (s.nodes x).children) ∧
    (∀ x, x ≠ (s.nodes e).parent →
      ((sgDestroy s e).nodes x).children = (s.nodes x).children) := by
  have hcases : (sgDestroy s e).nodes = s.nodes ∨
      ∃ i, findChildIdx (s.nodes (s.nodes e).parent).children e = some i ∧
        (sgDestroy s e).nodes = (s.upd (s.nodes e).parent
          fun m => { m with children := swapRemove m.children i }).nodes := by
    rw [sgDestroy, removeParent]
    cases hfi : findChildIdx (s.nodes (s.nodes e).parent).children e with
    | none => exact Or.inl rfl
    | some i => exact Or.inr ⟨i, rfl, rfl⟩
  have hlive : (sgDestroy s e).live = s.live.erase e := by
    rw [sgDestroy, removeParent]
    cases hfi : findChildIdx (s.nodes (s.nodes e).parent).children e <;> rfl
  have hfields : ∀ x, ((sgDestroy s e).nodes x).parent = (s.nodes x).parent ∧
      ((sgDestroy s e).nodes x).loc = (s.nodes x).loc ∧
      ((sgDestroy s e).nodes x).world = (s.nodes x).world ∧
      ((sgDestroy s e).nodes x).heightForDepth = (s.nodes x).heightForDepth ∧
      ((sgDestroy s e).nodes x).dirty = (s.nodes x).dirty := by
    intro x
    rcases hcases with h | ⟨i, _, h⟩
    · rw [h]
      exact ⟨rfl, rfl, rfl, rfl, rfl⟩
    · rw [h]
      by_cases hx : x = (s.nodes e).parent
      · rw [hx, SGState.upd_nodes_same]
        exact ⟨rfl, rfl, rfl, rfl, rfl⟩
      · rw [SGState.upd_nodes_ne _ _ hx]
        exact ⟨rfl, rfl, rfl, rfl, rfl⟩
  have hchsub : ∀ x c, c ∈ ((sgDestroy s e).nodes x).children →
      c ∈ (s.nodes x).children := by
    intro x c hc
    rcases hcases with h | ⟨i, hfi, h⟩
    · rw [h] at hc
      exact hc
    · rw [h] at hc
      by_cases hx : x = (s.nodes e).parent
      · rw [hx, SGState.upd_nodes_same] at hc
        have hperm := swapRemove_perm_erase hfi
        have := hperm.mem_iff.mp hc
        rw [hx]
        exact List.mem_of_mem_erase this
      · rw [SGState.upd_nodes_ne _ _ hx] at hc
        exact hc
  have hchoff : ∀ x, x ≠ (s.nodes e).parent →
      ((sgDestroy s e).nodes x).children = (s.nodes x).children := by
    intro x hx
    rcases hcases with h | ⟨i, _, h⟩
    · rw [h]
    · rw [h, SGState.upd_nodes_ne _ _ hx]
  refine ⟨⟨?_, ?_⟩, hlive, hfields, hchsub, hchoff⟩
  · intro q hq c hc hdq
    rw [hlive] at hq
    have hql : q ∈ s.live := Finset.mem_of_mem_erase hq
    rw [(hfields q).2.2.2.2] at hdq
    rw [(hfields c).2.2.2.2]
    exact hinv.dirtyDown q hql c (hchsub q c hc) hdq
  · intro x hx hdx
    rw [hlive] at hx
    have hxl : x ∈ s.live := Finset.mem_of_mem_erase hx
    rw [(hfields x).2.2.2.2] at hdx
    obtain ⟨f0, h0⟩ := hinv.cleanCache x hxl hdx
    refine ⟨f0, ?_⟩
    rw [wspecF_congr co si (fun z => ⟨(hfields z).2.1, (hfields z).2.2.2.1,
      (hfields z).1⟩), h0, (hfields x).2.2.1]

theorem sgSetParent_inv (co si : α → α) {s : SGState α} {dep : ℕ → ℕ}
    {bound e p fuel : ℕ} (hwf : WFd s dep bound) (hinv : SGInv co si s)
    (he : e ∈ s.live) (hp : p ∈ s.live) (hnc : ¬ RD s e p)
    (hfuel : bound < fuel + dep e) :
    SGInv co si (sgSetParent fuel s e p) ∧
    (sgSetParent fuel s e p).live = s.live ∧
    ∃ dep2 bound2, WFd (sgSetParent fuel s e p) dep2 bound2 := by
  classical
  by_cases hpar : (s.nodes e).parent = p
  · rw [sgSetParent, if_neg (fun hh => hh hpar)]
    exact ⟨hinv, rfl, dep, bound, hwf⟩
  · have he2 : e ≠ p := fun hh => hnc (hh ▸ RD.refl e)
    have hpae : (s.nodes e).parent ≠ p := hpar
    have hpal : (s.nodes e).parent ∈ s.live := hwf.parent_live e he
    have hmem : e ∈ (s.nodes (s.nodes e).parent).children :=
      hwf.mem_child _ hpal e he rfl
    obtain ⟨i, hfi, hrp, hperm⟩ := removeParent_spec hmem
    have hsub_pa : RD s e (s.nodes e).parent → (s.nodes e).parent = e := by
      intro hr
      by_contra hh
      have h1 := (RD_live_dep hwf hr he).2
      have h2 := hwf.dep_parent e he hh
      omega
    have hsub_parent : ∀ c, RD s e c → c ≠ e →
        RD s e (s.nodes c).parent := by
      intro c hr hce
      rcases RD_last hr with h1 | ⟨z, hz, hcz⟩
      · exact absurd h1 hce
      · have hzl := (RD_live_dep hwf hz he).1
        rw [(hwf.child_mem z hzl c hcz).2]
        exact hz
    have hsub_closed : ∀ q c, RD s e q → c ∈ (s.nodes q).children → RD s e c :=
      fun q c hq hc => RD_trans hq (RD.step hc (RD.refl c))
    have henochp : e ∉ (s.nodes p).children := by
      intro hc
      exact hpar ((hwf.child_mem p hp e hc).2)
    -- the intermediate states
    set pa := (s.nodes e).parent with hpadef
    set cpa := swapRemove (s.nodes pa).children i with hcpadef
    set s2 := addParent (removeParent s e).1 e p with hs2def
    have hs2eq : s2 = ((s.upd pa fun m =>
        { m with children := swapRemove m.children i }).upd e fun m =>
        { m with parent := p }).upd p fun m =>
        { m with children := m.children ++ [e] } := by
      rw [hs2def, hrp, addParent]
    have hppa : p ≠ pa := fun hh => hpae hh.symm
    -- node-level facts about s2
    have hcpa_sub : ∀ c, c ∈ cpa → c ∈ (s.nodes pa).children := fun c hc =>
      List.mem_of_mem_erase (hperm.mem_iff.mp hc)
    have hcpa_ne : ∀ c, c ∈ cpa → c ≠ e := by
      intro c hc
      have := ((hwf.child_nodup pa hpal).mem_erase_iff).mp (hperm.mem_iff.mp hc)
      exact this.1
    have hcpa_of : ∀ c, c ∈ (s.nodes pa).children → c ≠ e → c ∈ cpa := by
      intro c hc hce
      exact hperm.mem_iff.mpr ((List.mem_erase_of_ne hce).mpr hc)
    have hF2 : ∀ x, (s2.nodes x).loc = (s.nodes x).loc ∧
        (s2.nodes x).world = (s.nodes x).world ∧
        (s2.nodes x).heightForDepth = (s.nodes x).heightForDepth ∧
        (s2.nodes x).dirty = (s.nodes x).dirty := by
      intro x
      rw [hs2eq]
      by_cases h1 : x = p
      · rw [h1, SGState.upd_nodes_same, SGState.upd_nodes_ne _ _ (Ne.symm he2),
          SGState.upd_nodes_ne _ _ hppa]
        exact ⟨rfl, rfl, rfl, rfl⟩
      · rw [SGState.upd_nodes_ne _ _ h1]
        by_cases h2 : x = e
        · rw [h2, SGState.upd_nodes_same]
          by_cases h3 : e = pa
          · rw [← h3, SGState.upd_nodes_same]
            exact ⟨rfl, rfl, rfl, rfl⟩
          · rw [SGState.upd_nodes_ne _ _ h3]
            exact ⟨rfl, rfl, rfl, rfl⟩
        · rw [SGState.upd_nodes_ne _ _ h2]
          by_cases h3 : x = pa
          · rw [h3, SGState.upd_nodes_same]
            exact ⟨rfl, rfl, rfl, rfl⟩
          · rw [SGState.upd_nodes_ne _ _ h3]
            exact ⟨rfl, rfl, rfl, rfl⟩
    have hF1e : (s2.nodes e).parent = p := by
      rw [hs2eq, SGState.upd_nodes_ne _ _ he2, SGState.upd_nodes_same]
    have hF1 : ∀ x, x ≠ e → (s2.nodes x).parent = (s.nodes x).parent := by
      intro x h2
      rw [hs2eq]
      by_cases h1 : x = p
      · rw [h1, SGState.upd_nodes_same, SGState.upd_nodes_ne _ _ (Ne.symm he2),
          SGState.upd_nodes_ne _ _ hppa]
      · rw [SGState.upd_nodes_ne _ _ h1, SGState.upd_nodes_ne _ _ h2]
        by_cases h3 : x = pa
        · rw [h3, SGState.upd_nodes_same]
        · rw [SGState.upd_nodes_ne _ _ h3]
    have hF3 : (s2.nodes p).children = (s.nodes p).children ++ [e] := by
      rw [hs2eq, SGState.upd_nodes_same, SGState.upd_nodes_ne _ _ (Ne.symm he2),
        SGState.upd_nodes_ne _ _ hppa]
    have hF4 : (s2.nodes pa).children = cpa := by
      rw [hs2eq]
      by_cases h3 : pa = e
      · simp [SGState.upd, Function.update, hppa, Ne.symm hppa, he2,
          Ne.symm he2, h3, hcpadef]
      · simp [SGState.upd, Function.update, hppa, Ne.symm hppa, h3,
          Ne.symm h3, hcpadef]
    have hF5 : ∀ x, x ≠ p → x ≠ pa → (s2.nodes x).children = (s.nodes x).children := by
      intro x h1 h3
      rw [hs2eq, SGState.upd_nodes_ne _ _ h1]
      by_cases h2 : x = e
      · rw [h2, SGState.upd_nodes_same]
        rw [h2] at h3
        rw [SGState.upd_nodes_ne _ _ h3]
      · rw [SGState.upd_nodes_ne _ _ h2, SGState.upd_nodes_ne _ _ h3]
    have hF6 : ∀ q c, q ≠ p → c ∈ (s2.nodes q).children → c ∈ (s.nodes q).children := by
      intro q c h1 hc
      by_cases h3 : q = pa
      · rw [h3, hF4] at hc
        rw [h3]
        exact hcpa_sub c hc
      · rw [hF5 q h1 h3] at hc
        exact hc
    have hlive2 : s2.live = s.live := by rw [hs2eq]; rfl
    -- the adjusted depth certificate
    set dep2 := fun x => if RD s e x then dep x + bound + 1 else dep x with hdep2
    have hdep2e : dep2 e = dep e + bound + 1 := by
      rw [hdep2]
      simp only [if_pos (RD.refl e)]
    have hdep2p : dep2 p = dep p := by
      rw [hdep2]
      simp only [if_neg hnc]
    have hwf2 : WFd s2 dep2 (2 * bound + 1) := by
      constructor
      · intro x hx
        rw [hlive2] at hx ⊢
        by_cases hxe : x = e
        · rw [hxe, hF1e]
          exact hp
        · rw [hF1 x hxe]
          exact hwf.parent_live x hx
      · intro q hq c hc
        rw [hlive2] at hq
        by_cases h1 : q = p
        · rw [h1, hF3] at hc
          rcases List.mem_append.mp hc with h2 | h2
          · obtain ⟨h3, h4⟩ := hwf.child_mem p hp c h2
            have hce : c ≠ e := fun hh => henochp (hh ▸ h2)
            rw [hlive2, hF1 c hce]
            exact ⟨h3, h4.trans h1.symm⟩
          · have hce : c = e := by simpa using h2
            rw [hce, hlive2, hF1e]
            exact ⟨he, h1.symm⟩
        · have hc2 : c ∈ (s.nodes q).children := hF6 q c h1 hc
          obtain ⟨h3, h4⟩ := hwf.child_mem q hq c hc2
          have hce : c ≠ e := by
            intro hh
            by_cases h5 : q = pa
            · rw [h5, hF4] at hc
              exact (hcpa_ne c hc) hh
            · rw [hF5 q h1 h5] at hc
              rw [hh] at hc
              exact h5 ((hwf.child_mem q hq e hc).2).symm
          rw [hlive2, hF1 c hce]
          exact ⟨h3, h4⟩
      · intro q hq c hc hpc
        rw [hlive2] at hq hc
        by_cases hce : c = e
        · rw [hce, hF1e] at hpc
          rw [← hpc, hF3, hce]
          simp
        · rw [hF1 c hce] at hpc
          have hmc := hwf.mem_child q hq c hc hpc
          by_cases h1 : q = p
          · rw [h1, hF3]
            exact List.mem_append_left _ (by rw [← h1]; exact hmc)
          · by_cases h3 : q = pa
            · rw [h3, hF4]
              exact hcpa_of c (by rw [← h3]; exact hmc) hce
            · rw [hF5 q h1 h3]
              exact hmc
      · intro q hq
        rw [hlive2] at hq
        by_cases h1 : q = p
        · rw [h1, hF3]
          refine List.Nodup.append (hwf.child_nodup p hp) (List.nodup_singleton e) ?_
          intro a ha hb
          have : a = e := by simpa using hb
          rw [this] at ha
          exact henochp ha
        · by_cases h3 : q = pa
          · rw [h3, hF4]
            exact hperm.nodup_iff.mpr ((hwf.child_nodup pa hpal).erase e)
          · rw [hF5 q h1 h3]
            exact hwf.child_nodup q hq
      · intro x hx hnex
        rw [hlive2] at hx
        by_cases hxe : x = e
        · rw [hxe, hF1e, hdep2p, hxe] at *
          rw [hF1e, hdep2p, hdep2e]
          have := hwf.dep_le p hp
          omega
        · rw [hF1 x hxe] at hnex ⊢
          have hd1 := hwf.dep_parent x hx hnex
          by_cases hDx : RD s e x
          · have hDq : RD s e (s.nodes x).parent := hsub_parent x hDx hxe
            rw [hdep2]
            simp only [if_pos hDx, if_pos hDq]
            omega
          · have hDq : ¬ RD s e (s.nodes x).parent := by
              intro hq
              exact hDx (hsub_closed _ x hq
                (hwf.mem_child _ (hwf.parent_live x hx) x hx rfl))
            rw [hdep2]
            simp only [if_neg hDx, if_neg hDq]
            exact hd1
      · intro x hx
        rw [hlive2] at hx
        have := hwf.dep_le x hx
        rw [hdep2]
        by_cases hDx : RD s e x
        · simp only [if_pos hDx]
          omega
        · simp only [if_neg hDx]
          omega
    -- one-step dirty propagation above the relocated subtree
    have hdd2 : Hdd s2 dep2 (dep2 e) := by
      intro q hq hdq hdirty c hc
      rw [hlive2] at hq
      have hDq : RD s e q := by
        by_contra hh
        rw [hdep2e, hdep2] at hdq
        simp only [if_neg hh] at hdq
        have := hwf.dep_le q hq
        omega
      have hqp : q ≠ p := fun hh => hnc (hh ▸ hDq)
      have hcs : c ∈ (s.nodes q).children := hF6 q c hqp hc
      rw [(hF2 q).2.2.2] at hdirty
      rw [(hF2 c).2.2.2]
      exact hinv.dirtyDown q hq c hcs hdirty
    obtain ⟨nds, cov⟩ := setDirty_spec fuel s2 dep2 (2 * bound + 1) e hwf2
      (by rw [hlive2]; exact he) (by rw [hdep2e]; omega) hdd2
    set t := setDirtyF fuel s2 e with htdef
    have hflag : flagStep s2 t := setDirty_flag fuel s2 e
    have hRDpres : ∀ x, RD s e x → RD s2 e x := by
      have main : ∀ a x, RD s a x → RD s e a → RD s2 a x := by
        intro a x hr
        induction hr with
        | refl q => exact fun _ => RD.refl q
        | @step a c x hc2 hr2 ih =>
          intro hea
          have heac : RD s e c := RD_trans hea (RD.step hc2 (RD.refl c))
          by_cases hae : a = e
          · by_cases hce2 : c = e
            · rw [hae]
              exact hce2 ▸ ih heac
            · have hcs2 : c ∈ (s2.nodes a).children := by
                by_cases h3 : e = pa
                · rw [hae, h3, hF4]
                  rw [hae, h3] at hc2
                  exact hcpa_of c hc2 hce2
                · rw [hae, hF5 e he2 h3]
                  rw [hae] at hc2
                  exact hc2
              exact RD.step hcs2 (ih heac)
          · have hap : a ≠ p := fun hh => hnc (hh ▸ hea)
            have hapa : a ≠ pa := by
              intro hh
              exact hae (by rw [hh]; exact hsub_pa (hh ▸ hea))
            have hcs2 : c ∈ (s2.nodes a).children := by
              rw [hF5 a hap hapa]
              exact hc2
            exact RD.step hcs2 (ih heac)
      exact fun x hr => main e x hr (RD.refl e)
    have hgoal_eq : sgSetParent fuel s e p = t := by
      rw [sgSetParent, if_pos hpar, htdef, hs2def]
    rw [hgoal_eq]
    have hlivet : t.live = s.live := by rw [hflag.1.1, hlive2]
    refine ⟨⟨?_, ?_⟩, hlivet, dep2, 2 * bound + 1, WFd_transfer hflag.1 hwf2⟩
    · -- dirtyDown
      intro q hq c hc hdq
      rw [hlivet] at hq
      rw [(hflag.1.2 q).2.2.2] at hc
      rcases nds q hdq with h1 | h1
      · rw [(hF2 q).2.2.2] at h1
        by_cases hqp : q = p
        · rw [hqp, hF3] at hc
          rcases List.mem_append.mp hc with h2 | h2
          · have hcd := hinv.dirtyDown p hp c h2 (by rw [← hqp]; exact h1)
            exact (hflag.2 c).2 (by rw [(hF2 c).2.2.2]; exact hcd)
          · have hce : c = e := by simpa using h2
            rw [hce]
            exact cov e (RD.refl e)
        · have hcs : c ∈ (s.nodes q).children := hF6 q c hqp hc
          have hcd := hinv.dirtyDown q hq c hcs h1
          exact (hflag.2 c).2 (by rw [(hF2 c).2.2.2]; exact hcd)
      · exact h1 c (RD.step hc (RD.refl c))
    · -- cleanCache
      intro x hx hdx
      rw [hlivet] at hx
      have hdx2 : (s2.nodes x).dirty = false := by
        by_cases hb : (s2.nodes x).dirty = true
        · rw [(hflag.2 x).2 hb] at hdx
          cases hdx
        · simpa using hb
      have hdxs : (s.nodes x).dirty = false := by
        rw [← (hF2 x).2.2.2]
        exact hdx2
      obtain ⟨f0, h0⟩ := hinv.cleanCache x hx hdxs
      have hnotanc : ¬ Anc s x e := by
        intro hanc
        have hre := (RD_of_anc hwf hx hanc).2
        have := cov x (hRDpres x hre)
        rw [this] at hdx
        cases hdx
      have hagree : ∀ z, Anc s x z → (t.nodes z).loc = (s.nodes z).loc ∧
          (t.nodes z).heightForDepth = (s.nodes z).heightForDepth ∧
          (t.nodes z).parent = (s.nodes z).parent := by
        intro z hz
        have hze : z ≠ e := fun hh => hnotanc (hh ▸ hz)
        obtain ⟨a1, a2, a3, a4⟩ := hflag.1.2 z
        exact ⟨a1.trans (hF2 z).1, a2.trans (hF2 z).2.2.1, a3.trans (hF1 z hze)⟩
      refine ⟨f0, ?_⟩
      rw [wspecF_agree_chain co si hagree, h0, (hflag.2 x).1, (hF2 x).2.1]

theorem chainState_wfd : WFd (chainState (0 : ℚ)) (fun x => min x 2) 2 := by
  constructor
  · intro e he
    fin_cases he <;> decide
  · intro p hp c hc
    fin_cases hp <;> fin_cases hc <;> decide
  · intro p hp c hc hpc
    fin_cases hp <;> fin_cases hc <;> revert hpc <;> decide
  · intro p hp
    fin_cases hp <;> decide
  · intro e he hne
    fin_cases he <;> revert hne <;> decide
  · intro e he
    fin_cases he <;> decide

theorem chainState_sginv (co si : ℚ → ℚ) :
    SGInv co si (chainState (0 : ℚ)) := by
  constructor
  · intro p hp c hc
    fin_cases hp <;> fin_cases hc <;> decide
  · intro x hx hdx
    exact absurd hdx (by fin_cases hx <;> decide)

/-- C1: for every live node `e` whose parent chain is certified to reach a
self-parented root (`WFd`), and under the scene graph's laziness invariant,
`getWorldTransform(e)` returns exactly the reference composition of local
transforms along the chain (`wspecF`): a self-parented root returns its
local transform unchanged, and a non-root node returns
`composeWT` of its parent's composed transform — position
`P.position + rotate(L.position, P.rotation)`, rotation
`P.rotation + L.rotation`, depth `P.depth + L.depth`, with the additional
`-(local.position.y - heightForDepth)` depth adjustment when the parent is
the root `0`.  In particular, on the 3-level chain root → A → B with
`A = (pos (1,0), rot 0)` and `B = (pos (0,1), rot π/2)`, computed over ℝ
with `Real.cos`/`Real.sin`, `getWorldTransform(B)` yields position (1,1)
and rotation π/2. -/
theorem world_transform_chain_composition :
    (∀ (co si : α → α) (s : SGState α) (dep : ℕ → ℕ) (bound e fuel : ℕ),
      WFd s dep bound → SGInv co si s → e ∈ s.live → dep e < fuel →
      wspecF co si s fuel e = some (getWT co si fuel s e).1 ∧
      ((s.nodes e).parent = e → (getWT co si fuel s e).1 = (s.nodes e).loc) ∧
      ((s.nodes e).parent ≠ e → ∀ pt,
        wspecF co si s fuel (s.nodes e).parent = some pt →
        (getWT co si fuel s e).1 = composeWT co si pt (s.nodes e))) ∧
    ((getWT Real.cos Real.sin 3 (chainState (Real.pi / 2)) 2).1.position =
        (⟨1, 1⟩ : Vec2 ℝ) ∧
      (getWT Real.cos Real.sin 3 (chainState (Real.pi / 2)) 2).1.rotation =
        Real.pi / 2) := by
  constructor
  · intro co si s dep bound e fuel hwf hinv he hf
    have h1 := (getWT_correct co si fuel s dep bound e hwf hinv he hf).1
    obtain ⟨f2, rfl⟩ : ∃ f2, fuel = f2 + 1 := ⟨fuel - 1, by omega⟩
    refine ⟨h1, ?_, ?_⟩
    · intro hp
      have h2 : wspecF co si s (f2 + 1) e = some (s.nodes e).loc := by
        simp only [wspecF]
        rw [if_pos hp]
      rw [h2] at h1
      exact (Option.some.inj h1).symm
    · intro hp pt hpt
      have h2 : wspecF co si s (f2 + 1) e =
          (wspecF co si s f2 (s.nodes e).parent).map
            (fun q => composeWT co si q (s.nodes e)) := by
        simp only [wspecF]
        rw [if_neg hp]
      rw [h2] at h1
      rw [Option.map_eq_some'] at h1
      obtain ⟨pt0, hpt0, hc⟩ := h1
      have := wspecF_det co si (wspecF_mono co si (Nat.le_succ f2) hpt0) hpt
      rw [← hc, this]
  · have hpi : Real.cos (0 : ℝ) = 1 ∧ Real.sin (0 : ℝ) = 0 :=
      ⟨Real.cos_zero, Real.sin_zero⟩
    constructor <;>
      simp [getWT, chainState, composeWT, rotate, SGState.upd, Function.update,
        Real.cos_zero, Real.sin_zero]
    exact Vec2.ext2 (by simp) (by simp)

/-- Witness for C1 at a concrete rational instance (trigonometric functions
passed as the constant cosine 1 / sine 0 pair, under which rotation is the
identity on positions). -/
theorem world_transform_chain_composition_witness :
    wspecF (fun _ : ℚ => 1) (fun _ => 0) (chainState 0) 3 2 =
      some (getWT (fun _ : ℚ => 1) (fun _ => 0) 3 (chainState 0) 2).1 ∧
    ((chainState (0 : ℚ)).nodes 0).parent = 0 ∧
    (2 : ℕ) ∈ (chainState (0 : ℚ)).live := by
  have h := (@world_transform_chain_composition ℚ _).1 (fun _ => 1)
    (fun _ => 0) (chainState 0) (fun x => min x 2) 2 2 3 chainState_wfd
    (chainState_sginv _ _) (by decide) (by decide)
  exact ⟨h.1, by decide, by decide⟩

/-- C2: (a) marking an already-dirty node is a no-op; (b) the joint laziness
invariant — every child of a dirty live node is dirty (so the no-op never
strands a stale clean cache below a dirty node), and every clean live node's
cached world transform equals the reference recomputation — is preserved by
every scene-graph operation: the four local setters, create, destroy,
setParent and getWorldTransform.  Consequently, setting A's position after
B's world transform was computed and cached leaves the next
getWorldTransform(B) equal to the reference recomputation on the updated
state (which holds A's new position): staleness never leaks through the
cache. -/
theorem dirty_propagation_invariant (co si : α → α) :
    (∀ (s : SGState α) (f e : ℕ), (s.nodes e).dirty = true →
      setDirtyF f s e = s) ∧
    (∀ (s : SGState α) (dep : ℕ → ℕ) (bound e fuel : ℕ) (v : Vec2 α),
      WFd s dep bound → SGInv co si s → e ∈ s.live → bound < fuel + dep e →
      SGInv co si (sgSetPosition fuel s e v) ∧
      WFd (sgSetPosition fuel s e v) dep bound ∧
      (sgSetPosition fuel s e v).live = s.live) ∧
    (∀ (s : SGState α) (dep : ℕ → ℕ) (bound e fuel : ℕ) (v : α),
      WFd s dep bound → SGInv co si s → e ∈ s.live → bound < fuel + dep e →
      SGInv co si (sgSetRotation fuel s e v) ∧
      WFd (sgSetRotation fuel s e v) dep bound ∧
      (sgSetRotation fuel s e v).live = s.live) ∧
    (∀ (s : SGState α) (dep : ℕ → ℕ) (bound e fuel : ℕ) (v : α),
      WFd s dep bound → SGInv co si s → e ∈ s.live → bound < fuel + dep e →
      SGInv co si (sgSetDepth fuel s e v) ∧
      WFd (sgSetDepth fuel s e v) dep bound ∧
      (sgSetDepth fuel s e v).live = s.live) ∧
    (∀ (s : SGState α) (dep : ℕ → ℕ) (bound e fuel : ℕ) (v : α),
      WFd s dep bound → SGInv co si s → e ∈ s.live → bound < fuel + dep e →
      SGInv co si (sgSetHeightForDepth fuel s e v) ∧
      WFd (sgSetHeightForDepth fuel s e v) dep bound ∧
      (sgSetHeightForDepth fuel s e v).live = s.live) ∧
    (∀ (s : SGState α) (dep : ℕ → ℕ) (bound e p : ℕ),
      WFd s dep bound → SGInv co si s → e ∉ s.live → p ∈ s.live →
      SGInv co si (sgCreate s e p) ∧
      WFd (sgCreate s e p) (fun x => if x = e then bound + 1 else dep x)
        (bound + 1)) ∧
    (∀ (s : SGState α) (e : ℕ), SGInv co si s → SGInv co si (sgDestroy s e)) ∧
    (∀ (s : SGState α) (dep : ℕ → ℕ) (bound e p fuel : ℕ),
      WFd s dep bound → SGInv co si s → e ∈ s.live → p ∈ s.live →
      ¬ RD s e p → bound < fuel + dep e →
      SGInv co si (sgSetParent fuel s e p) ∧
      ∃ dep2 bound2, WFd (sgSetParent fuel s e p) dep2 bound2) ∧
    (∀ (s : SGState α) (dep : ℕ → ℕ) (bound e fuel : ℕ),
      WFd s dep bound → SGInv co si s → e ∈ s.live → dep e < fuel →
      SGInv co si (getWT co si fuel s e).2 ∧
      WFd (getWT co si fuel s e).2 dep bound) ∧
    (∀ (s : SGState α) (dep : ℕ → ℕ) (bound a b fuel : ℕ) (v : Vec2 α),
      WFd s dep bound → SGInv co si s → a ∈ s.live → b ∈ s.live →
      bound < fuel →
      ((sgSetPosition fuel (getWT co si fuel s b).2 a v).nodes a).loc.position
        = v ∧
      wspecF co si (sgSetPosition fuel (getWT co si fuel s b).2 a v) fuel b =
        some (getWT co si fuel
          (sgSetPosition fuel (getWT co si fuel s b).2 a v) b).1) := by
  refine ⟨fun s f e h => setDirtyF_dirty_noop h f, ?_, ?_, ?_, ?_, ?_, ?_, ?_,
    ?_, ?_⟩
  · intro s dep bound e fuel v hwf hinv he hfuel
    rw [sgSetPosition]
    exact localUpd_inv co si hwf hinv he hfuel _ (fun m => ⟨rfl, rfl, rfl, rfl⟩)
  · intro s dep bound e fuel v hwf hinv he hfuel
    rw [sgSetRotation]
    exact localUpd_inv co si hwf hinv he hfuel _ (fun m => ⟨rfl, rfl, rfl, rfl⟩)
  · intro s dep bound e fuel v hwf hinv he hfuel
    rw [sgSetDepth]
    exact localUpd_inv co si hwf hinv he hfuel _ (fun m => ⟨rfl, rfl, rfl, rfl⟩)
  · intro s dep bound e fuel v hwf hinv he hfuel
    rw [sgSetHeightForDepth]
    exact localUpd_inv co si hwf hinv he hfuel _ (fun m => ⟨rfl, rfl, rfl, rfl⟩)
  · intro s dep bound e p hwf hinv he hp
    obtain ⟨h1, h2, _⟩ := sgCreate_inv co si hwf hinv he hp
    exact ⟨h1, h2⟩
  · intro s e hinv
    exact (sgDestroy_inv co si hinv e).1
  · intro s dep bound e p fuel hwf hinv he hp hnc hfuel
    obtain ⟨h1, _, h3⟩ := sgSetParent_inv co si hwf hinv he hp hnc hfuel
    exact ⟨h1, h3⟩
  · intro s dep bound e fuel hwf hinv he hf
    obtain ⟨_, h2, _, h4⟩ := getWT_correct co si fuel s dep bound e hwf hinv he hf
    exact ⟨h4, WFd_transfer h2.1 hwf⟩
  · intro s dep bound a b fuel v hwf hinv ha hb hfuel
    have hdb : dep b < fuel := by
      have := hwf.dep_le b hb
      omega
    obtain ⟨_, hcs1, _, hinv1⟩ :=
      getWT_correct co si fuel s dep bound b hwf hinv hb hdb
    set s1 := (getWT co si fuel s b).2 with hs1
    have hwf1 : WFd s1 dep bound := WFd_transfer hcs1.1 hwf
    have ha1 : a ∈ s1.live := by rw [hcs1.1.1]; exact ha
    have hfa : bound < fuel + dep a := by omega
    obtain ⟨hinv2, hwf2, hlive2⟩ := localUpd_inv co si hwf1 hinv1 ha1 hfa
      (fun m => { m with loc := { m.loc with position := v } })
      (fun m => ⟨rfl, rfl, rfl, rfl⟩)
    have hb2 : b ∈ (sgSetPosition fuel s1 a v).live := by
      rw [sgSetPosition, hlive2, hcs1.1.1]
      exact hb
    have hdb2 : dep b < fuel := hdb
    constructor
    · rw [sgSetPosition]
      have hflag := setDirty_flag fuel
        (s1.upd a fun m => { m with loc := { m.loc with position := v } }) a
      rw [(hflag.1.2 a).1, SGState.upd_nodes_same]
    · rw [sgSetPosition] at hb2 ⊢
      exact (getWT_correct co si fuel _ dep bound b hwf2 hinv2 hb2 hdb2).1

/-- Witness for C2 at the concrete rational chain: marking the already-dirty
node B is a no-op, and a position update on A preserves the joint
invariant. -/
theorem dirty_propagation_invariant_witness :
    setDirtyF 3 (chainState (0 : ℚ)) 2 = chainState 0 ∧
    SGInv (fun _ : ℚ => 1) (fun _ => 0)
      (sgSetPosition 3 (chainState (0 : ℚ)) 1 ⟨5, 0⟩) := by
  have h := @dirty_propagation_invariant ℚ _ (fun _ => 1) (fun _ => 0)
  refine ⟨h.1 (chainState 0) 3 2 (by decide), ?_⟩
  exact (h.2.1 (chainState 0) (fun x => min x 2) 2 1 3 ⟨5, 0⟩ chainState_wfd
    (chainState_sginv _ _) (by decide) (by decide)).1

theorem sgDestroy_facts (s : SGState α) (e : ℕ) :
    (sgDestroy s e).live = s.live.erase e ∧
    (∀ x, ((sgDestroy s e).nodes x).parent = (s.nodes x).parent ∧
      ((sgDestroy s e).nodes x).loc = (s.nodes x).loc ∧
      ((sgDestroy s e).nodes x).world = (s.nodes x).world ∧
      ((sgDestroy s e).nodes x).heightForDepth = (s.nodes x).heightForDepth ∧
      ((sgDestroy s e).nodes x).dirty = (s.nodes x).dirty) ∧
    (∀ x c, c ∈ ((sgDestroy s e).nodes x).children → c ∈ (s.nodes x).children) ∧
    (∀ x, x ≠ (s.nodes e).parent →
      ((sgDestroy s e).nodes x).children = (s.nodes x).children) := by
  have hcases : (sgDestroy s e).nodes = s.nodes ∨
      ∃ i, findChildIdx (s.nodes (s.nodes e).parent).children e = some i ∧
        (sgDestroy s e).nodes = (s.upd (s.nodes e).parent
          fun m => { m with children := swapRemove m.children i }).nodes := by
    rw [sgDestroy, removeParent]
    cases hfi : findChildIdx (s.nodes (s.nodes e).parent).children e with
    | none => exact Or.inl rfl
    | some i => exact Or.inr ⟨i, rfl, rfl⟩
  refine ⟨?_, ?_, ?_, ?_⟩
  · rw [sgDestroy, removeParent]
    cases hfi : findChildIdx (s.nodes (s.nodes e).parent).children e <;> rfl
  · intro x
    rcases hcases with h | ⟨i, _, h⟩
    · rw [h]
      exact ⟨rfl, rfl, rfl, rfl, rfl⟩
    · rw [h]
      by_cases hx : x = (s.nodes e).parent
      · rw [hx, SGState.upd_nodes_same]
        exact ⟨rfl, rfl, rfl, rfl, rfl⟩
      · rw [SGState.upd_nodes_ne _ _ hx]
        exact ⟨rfl, rfl, rfl, rfl, rfl⟩
  · intro x c hc
    rcases hcases with h | ⟨i, hfi, h⟩
    · rw [h] at hc
      exact hc
    · rw [h] at hc
      by_cases hx : x = (s.nodes e).parent
      · rw [hx, SGState.upd_nodes_same] at hc
        have := (swapRemove_perm_erase hfi).mem_iff.mp hc
        rw [hx]
        exact List.mem_of_mem_erase this
      · rw [SGState.upd_nodes_ne _ _ hx] at hc
        exact hc
  · intro x hx
    rcases hcases with h | ⟨i, _, h⟩
    · rw [h]
    · rw [h, SGState.upd_nodes_ne _ _ hx]

theorem sgDestroy_found_perm {s : SGState α} {e : ℕ}
    (hmem : e ∈ (s.nodes (s.nodes e).parent).children) :
    (((sgDestroy s e).nodes (s.nodes e).parent).children).Perm
      (((s.nodes (s.nodes e).parent).children).erase e) := by
  obtain ⟨i, hfi, hrp, hperm⟩ := removeParent_spec hmem
  rw [sgDestroy, hrp]
  show ((s.upd (s.nodes e).parent fun m =>
    { m with children := swapRemove m.children i }).nodes
      (s.nodes e).parent).children.Perm _
  rw [SGState.upd_nodes_same]
  exact hperm

theorem destroySeq_pairfold_fst {β : Type} [Inhabited β] (f : ℕ) :
    ∀ (cs : List ℕ) (a : World α β × List ℕ),
      (cs.foldl (fun (acc : World α β × List ℕ) c =>
        (destroyHierarchyF f acc.1 c, acc.2 ++ destroySeqF f acc.1 c)) a).1 =
      cs.foldl (fun u c => destroyHierarchyF f u c) a.1 := by
  intro cs
  induction cs with
  | nil => intro a; rfl
  | cons c cs ih => intro a; exact ih _

theorem destroyHierarchyF_eq_foldl {β : Type} [Inhabited β] :
    ∀ (fuel : ℕ) (w : World α β) (e : ℕ),
      destroyHierarchyF fuel w e = (destroySeqF fuel w e).foldl emDestroy w := by
  intro fuel
  induction fuel with
  | zero => intro w e; rfl
  | succ f ih =>
    intro w e
    have hinner : ∀ (cs : List ℕ) (a : World α β × List ℕ),
        a.2.foldl emDestroy w = a.1 →
        ((cs.foldl (fun (acc : World α β × List ℕ) c =>
          (destroyHierarchyF f acc.1 c, acc.2 ++ destroySeqF f acc.1 c)) a).2).foldl
            emDestroy w =
        (cs.foldl (fun (acc : World α β × List ℕ) c =>
          (destroyHierarchyF f acc.1 c, acc.2 ++ destroySeqF f acc.1 c)) a).1 := by
      intro cs
      induction cs with
      | nil => intro a h; exact h
      | cons c cs ih2 =>
        intro a h
        refine ih2 _ ?_
        show ((a.2 ++ destroySeqF f a.1 c).foldl emDestroy w) = _
        rw [List.foldl_append, h, ← ih a.1 c]
    rw [destroyHierarchyF, destroySeqF, List.foldl_append,
      hinner (w.sg.nodes e).children (w, []) rfl, destroySeq_pairfold_fst]
    rfl

theorem storeFold_spec {β : Type} [Inhabited β] :
    ∀ (l : List ℕ) (t : CompStore β), t.Inv →
      (l.foldl (fun u y => if u.hasC y then u.destroyC y else u) t).Inv ∧
      (∀ x, ((l.foldl (fun u y => if u.hasC y then u.destroyC y else u) t).hasC x
        = true ↔ (t.hasC x = true ∧ x ∉ l))) := by
  intro l
  induction l with
  | nil =>
    intro t ht
    exact ⟨ht, fun x => by simp⟩
  | cons y l ih =>
    intro t ht
    simp only [List.foldl_cons]
    by_cases hy : t.hasC y = true
    · have hd := CompStore.destroyC_spec t y ht hy
      obtain ⟨h1, h2⟩ := ih (t.destroyC y) hd.1
      rw [if_pos hy]
      refine ⟨h1, fun x => ?_⟩
      rw [h2 x]
      constructor
      · rintro ⟨ha, hb⟩
        by_cases hx : x = y
        · rw [hx, hd.2.2.1] at ha
          cases ha
        · rw [hd.2.2.2.1 x hx] at ha
          exact ⟨ha, by simp [hx, hb]⟩
      · rintro ⟨ha, hb⟩
        have hxy : x ≠ y := fun hh => hb (by rw [hh]; exact List.mem_cons_self y l)
        exact ⟨by rw [hd.2.2.2.1 x hxy]; exact ha,
          fun hc => hb (List.mem_cons_of_mem y hc)⟩
    · rw [if_neg hy]
      obtain ⟨h1, h2⟩ := ih t ht
      refine ⟨h1, fun x => ?_⟩
      rw [h2 x]
      constructor
      · rintro ⟨ha, hb⟩
        refine ⟨ha, fun hc => ?_⟩
        rcases List.mem_cons.mp hc with h3 | h3
        · rw [h3] at ha
          exact hy ha
        · exact hb h3
      · rintro ⟨ha, hb⟩
        exact ⟨ha, fun hc => hb (List.mem_cons_of_mem y hc)⟩

theorem foldl_emDestroy_stores {β : Type} [Inhabited β] :
    ∀ (l : List ℕ) (w : World α β),
      (l.foldl emDestroy w).stores =
        w.stores.map (fun t => l.foldl
          (fun u y => if u.hasC y then u.destroyC y else u) t) := by
  intro l
  induction l with
  | nil => intro w; simp
  | cons y l ih =>
    intro w
    simp only [List.foldl_cons]
    rw [ih]
    show ((w.stores.map fun t => if t.hasC y then t.destroyC y else t).map _) = _
    rw [List.map_map]
    rfl

theorem destroyH_main {β : Type} [Inhabited β] :
    ∀ (fuel : ℕ) (w : World α β) (dep : ℕ → ℕ) (bound e : ℕ),
      WFd w.sg dep bound → e ∈ w.sg.live →
      (∀ x, RD w.sg e x → (w.sg.nodes x).parent ≠ x) →
      bound < fuel + dep e →
      (∀ x, x ∈ (destroyHierarchyF fuel w e).sg.live ↔
        (x ∈ w.sg.live ∧ ¬ RD w.sg e x)) ∧
      WFd (destroyHierarchyF fuel w e).sg dep bound ∧
      (∀ x, ((destroyHierarchyF fuel w e).sg.nodes x).parent =
          (w.sg.nodes x).parent ∧
        ((destroyHierarchyF fuel w e).sg.nodes x).loc = (w.sg.nodes x).loc ∧
        ((destroyHierarchyF fuel w e).sg.nodes x).world =
          (w.sg.nodes x).world ∧
        ((destroyHierarchyF fuel w e).sg.nodes x).heightForDepth =
          (w.sg.nodes x).heightForDepth ∧
        ((destroyHierarchyF fuel w e).sg.nodes x).dirty =
          (w.sg.nodes x).dirty) ∧
      (∀ x c, c ∈ ((destroyHierarchyF fuel w e).sg.nodes x).children →
        c ∈ (w.sg.nodes x).children) ∧
      (∀ x, ¬ RD w.sg e x → x ≠ (w.sg.nodes e).parent →
        ((destroyHierarchyF fuel w e).sg.nodes x).children =
          (w.sg.nodes x).children) ∧
      (((destroyHierarchyF fuel w e).sg.nodes
          (w.sg.nodes e).parent).children).Perm
        (((w.sg.nodes (w.sg.nodes e).parent).children).erase e) ∧
      (∀ x, x ∈ destroySeqF fuel w e ↔ RD w.sg e x) ∧
      (destroySeqF fuel w e).Nodup ∧
      (∀ l1 b l2, destroySeqF fuel w e = l1 ++ b :: l2 →
        ∀ y, Desc w.sg b y → y ∈ l1) ∧
      (∃ l0, destroySeqF fuel w e = l0 ++ [e]) := by
  intro fuel
  induction fuel with
  | zero =>
    intro w dep bound e hwf he _ hfuel
    exact absurd (hwf.dep_le e he) (by omega)
  | succ f ihf =>
    intro w dep bound e hwf he hself hfuel
    -- basic facts about the children of e and the parent of e
    have hcs_mem : ∀ c ∈ (w.sg.nodes e).children,
        c ∈ w.sg.live ∧ (w.sg.nodes c).parent = e := fun c hc =>
      hwf.child_mem e he c hc
    have hcs_ne_e : ∀ c ∈ (w.sg.nodes e).children, c ≠ e := by
      intro c hc hh
      exact hself e (RD.refl e) (hh ▸ (hcs_mem c hc).2)
    have hcs_dep : ∀ c ∈ (w.sg.nodes e).children, dep e < dep c := by
      intro c hc
      have h0 := hwf.dep_parent c (hcs_mem c hc).1
        (by rw [(hcs_mem c hc).2]; exact fun hh => (hcs_ne_e c hc) hh.symm)
      rw [(hcs_mem c hc).2] at h0
      exact h0
    have hnocsub_e : ∀ c ∈ (w.sg.nodes e).children, ¬ RD w.sg c e := by
      intro c hc hr
      have := (RD_live_dep hwf hr (hcs_mem c hc).1).2
      have := hcs_dep c hc
      omega
    have hcnodup : ((w.sg.nodes e).children).Nodup := hwf.child_nodup e he
    have hpae : (w.sg.nodes e).parent ≠ e := hself e (RD.refl e)
    have hpal : (w.sg.nodes e).parent ∈ w.sg.live := hwf.parent_live e he
    have hpa_nsub : ¬ RD w.sg e (w.sg.nodes e).parent := by
      intro hr
      have h1 := (RD_live_dep hwf hr he).2
      have h2 := hwf.dep_parent e he hpae
      omega
    have hpa_ncsub : ∀ c ∈ (w.sg.nodes e).children,
        ¬ RD w.sg c (w.sg.nodes e).parent :=
      fun c hc hr => hpa_nsub (RD_trans (RD.step hc (RD.refl c)) hr)
    have hmempa : e ∈ (w.sg.nodes (w.sg.nodes e).parent).children :=
      hwf.mem_child _ hpal e he rfl
    -- the fold that destroys all child subtrees, paired with its sequence
    have hfold : ∀ (cs2 cs1 : List ℕ) (a : World α β × List ℕ),
        (w.sg.nodes e).children = cs1 ++ cs2 →
        (∀ x, x ∈ a.1.sg.live ↔
          (x ∈ w.sg.live ∧ ∀ c1 ∈ cs1, ¬ RD w.sg c1 x)) →
        WFd a.1.sg dep bound →
        (∀ x, (a.1.sg.nodes x).parent = (w.sg.nodes x).parent ∧
          (a.1.sg.nodes x).loc = (w.sg.nodes x).loc ∧
          (a.1.sg.nodes x).world = (w.sg.nodes x).world ∧
          (a.1.sg.nodes x).heightForDepth = (w.sg.nodes x).heightForDepth ∧
          (a.1.sg.nodes x).dirty = (w.sg.nodes x).dirty) →
        (∀ x c1, c1 ∈ (a.1.sg.nodes x).children →
          c1 ∈ (w.sg.nodes x).children) →
        (∀ x, (∀ c1 ∈ cs1, ¬ RD w.sg c1 x) → x ≠ e →
          (a.1.sg.nodes x).children = (w.sg.nodes x).children) →
        ((a.1.sg.nodes e).children).Perm cs2 →
        (∀ x, x ∈ a.2 ↔ ∃ c1 ∈ cs1, RD w.sg c1 x) →
        a.2.Nodup →
        (∀ l1 b l2, a.2 = l1 ++ b :: l2 → ∀ y, Desc w.sg b y → y ∈ l1) →
        (∀ x, x ∈ (cs2.foldl (fun (acc : World α β × List ℕ) c =>
            (destroyHierarchyF f acc.1 c, acc.2 ++ destroySeqF f acc.1 c))
            a).1.sg.live ↔
          (x ∈ w.sg.live ∧ ∀ c1 ∈ (w.sg.nodes e).children, ¬ RD w.sg c1 x)) ∧
        WFd (cs2.foldl (fun (acc : World α β × List ℕ) c =>
            (destroyHierarchyF f acc.1 c, acc.2 ++ destroySeqF f acc.1 c))
            a).1.sg dep bound ∧
        (∀ x, ((cs2.foldl (fun (acc : World α β × List ℕ) c =>
            (destroyHierarchyF f acc.1 c, acc.2 ++ destroySeqF f acc.1 c))
            a).1.sg.nodes x).parent = (w.sg.nodes x).parent ∧
          ((cs2.foldl (fun (acc : World α β × List ℕ) c =>
            (destroyHierarchyF f acc.1 c, acc.2 ++ destroySeqF f acc.1 c))
            a).1.sg.nodes x).loc = (w.sg.nodes x).loc ∧
          ((cs2.foldl (fun (acc : World α β × List ℕ) c =>
            (destroyHierarchyF f acc.1 c, acc.2 ++ destroySeqF f acc.1 c))
            a).1.sg.nodes x).world = (w.sg.nodes x).world ∧
          ((cs2.foldl (fun (acc : World α β × List ℕ) c =>
            (destroyHierarchyF f acc.1 c, acc.2 ++ destroySeqF f acc.1 c))
            a).1.sg.nodes x).heightForDepth =
            (w.sg.nodes x).heightForDepth ∧
          ((cs2.foldl (fun (acc : World α β × List ℕ) c =>
            (destroyHierarchyF f acc.1 c, acc.2 ++ destroySeqF f acc.1 c))
            a).1.sg.nodes x).dirty = (w.sg.nodes x).dirty) ∧
        (∀ x c1, c1 ∈ ((cs2.foldl (fun (acc : World α β × List ℕ) c =>
            (destroyHierarchyF f acc.1 c, acc.2 ++ destroySeqF f acc.1 c))
            a).1.sg.nodes x).children → c1 ∈ (w.sg.nodes x).children) ∧
        (∀ x, (∀ c1 ∈ (w.sg.nodes e).children, ¬ RD w.sg c1 x) → x ≠ e →
          ((cs2.foldl (fun (acc : World α β × List ℕ) c =>
            (destroyHierarchyF f acc.1 c, acc.2 ++ destroySeqF f acc.1 c))
            a).1.sg.nodes x).children = (w.sg.nodes x).children) ∧
        ((cs2.foldl (fun (acc : World α β × List ℕ) c =>
            (destroyHierarchyF f acc.1 c, acc.2 ++ destroySeqF f acc.1 c))
            a).1.sg.nodes e).children = [] ∧
        (∀ x, x ∈ (cs2.foldl (fun (acc : World α β × List ℕ) c =>
            (destroyHierarchyF f acc.1 c, acc.2 ++ destroySeqF f acc.1 c))
            a).2 ↔ ∃ c1 ∈ (w.sg.nodes e).children, RD w.sg c1 x) ∧
        ((cs2.foldl (fun (acc : World α β × List ℕ) c =>
            (destroyHierarchyF f acc.1 c, acc.2 ++ destroySeqF f acc.1 c))
            a).2).Nodup ∧
        (∀ l1 b l2, (cs2.foldl (fun (acc : World α β × List ℕ) c =>
            (destroyHierarchyF f acc.1 c, acc.2 ++ destroySeqF f acc.1 c))
            a).2 = l1 ++ b :: l2 → ∀ y, Desc w.sg b y → y ∈ l1) := by
      intro cs2
      induction cs2 with
      | nil =>
        intro cs1 a hsplit H1 H2 H3 H4 H5 H6 H7 H8 H9
        rw [List.append_nil] at hsplit
        rw [hsplit]
        exact ⟨H1, H2, H3, H4, H5, H6.eq_nil, H7, H8, H9⟩
      | cons c cs2 ihl =>
        intro cs1 a hsplit H1 H2 H3 H4 H5 H6 H7 H8 H9
        have hc_in_cs : c ∈ (w.sg.nodes e).children := by
          rw [hsplit]
          exact List.mem_append_right _ (List.mem_cons_self c cs2)
        obtain ⟨hcl, hcp⟩ := hcs_mem c hc_in_cs
        have hce : c ≠ e := hcs_ne_e c hc_in_cs
        have hdepc : dep e < dep c := hcs_dep c hc_in_cs
        have hsubc : RD w.sg e c := RD.step hc_in_cs (RD.refl c)
        have hnotin_cs1 : c ∉ cs1 := by
          have hnd := hcnodup
          rw [hsplit] at hnd
          exact fun hmem =>
            (List.nodup_append.mp hnd).2.2 hmem (List.mem_cons_self c cs2)
        have hcs1_cs : ∀ c1 ∈ cs1, c1 ∈ (w.sg.nodes e).children := by
          intro c1 hc1
          rw [hsplit]
          exact List.mem_append_left _ hc1
        have hdisjsub : ∀ c1 ∈ cs1, ¬ RD w.sg c1 c := by
          intro c1 hc1 hr
          exact sibling_disjoint hwf he hc_in_cs (hcs1_cs c1 hc1)
            (fun hh => hnotin_cs1 (hh ▸ hc1)) (hcs_ne_e c1 (hcs1_cs c1 hc1)) hr
        have hdisjC : ∀ x, RD w.sg c x → ∀ c1 ∈ cs1, ¬ RD w.sg c1 x := by
          intro x hx c1 hc1 hr
          rcases anc_total hwf hx hr hcl (hcs_mem c1 (hcs1_cs c1 hc1)).1 with
            h1 | h1
          · exact sibling_disjoint hwf he (hcs1_cs c1 hc1) hc_in_cs
              (fun hh => hnotin_cs1 (hh.symm ▸ hc1)) hce h1
          · exact hdisjsub c1 hc1 h1
        have hsubc_ne_e : ∀ x, RD w.sg c x → x ≠ e := by
          intro x hx hh
          exact hnocsub_e c hc_in_cs (hh ▸ hx)
        have hOK : ∀ z, RD w.sg c z →
            (a.1.sg.nodes z).children = (w.sg.nodes z).children := by
          intro z hz
          exact H5 z (fun c1 hc1 => hdisjC z hz c1 hc1) (hsubc_ne_e z hz)
        have hcEquiv : ∀ x, RD a.1.sg c x ↔ RD w.sg c x := by
          intro x
          exact ⟨RD_mono_edges (fun p q hq => H4 p q hq), RD_congr_on hOK⟩
        have hclive1 : c ∈ a.1.sg.live :=
          (H1 c).mpr ⟨hcl, fun c1 hc1 => hdisjsub c1 hc1⟩
        have hselfc : ∀ x, RD a.1.sg c x → (a.1.sg.nodes x).parent ≠ x := by
          intro x hx
          rw [(H3 x).1]
          exact hself x (RD_trans hsubc ((hcEquiv x).mp hx))
        obtain ⟨ih1, ih2, ih3, ih4, ih5, ih6, ih7, ih8, ih9, ih10⟩ :=
          ihf a.1 dep bound c H2 hclive1 hselfc (by omega)
        have hparc : (a.1.sg.nodes c).parent = e := (H3 c).1.trans hcp
        rw [hparc] at ih6
        have hDescEquiv : ∀ b y, RD w.sg c b → Desc w.sg b y →
            Desc a.1.sg b y := by
          intro b y hb hby
          obtain ⟨ch, hch, hchy⟩ := hby
          refine ⟨ch, by rw [hOK b hb]; exact hch, ?_⟩
          have hcch : RD w.sg c ch := RD_trans hb (RD.step hch (RD.refl ch))
          exact RD_congr_on (fun z hz => hOK z (RD_trans hcch hz)) hchy
        -- the new accumulator after processing c
        refine ihl (cs1 ++ [c])
          (destroyHierarchyF f a.1 c, a.2 ++ destroySeqF f a.1 c)
          (by rw [hsplit, List.append_assoc]; rfl) ?_ ih2 ?_ ?_ ?_ ?_ ?_ ?_ ?_
        · -- live
          intro x
          rw [ih1 x, H1 x]
          constructor
          · rintro ⟨⟨h1, h2⟩, h3⟩
            refine ⟨h1, fun c2 hc2 => ?_⟩
            rcases List.mem_append.mp hc2 with h4 | h4
            · exact h2 c2 h4
            · have hc2c : c2 = c := by simpa using h4
              rw [hc2c]
              exact fun hr => h3 ((hcEquiv x).mpr hr)
          · rintro ⟨h1, h2⟩
            exact ⟨⟨h1, fun c2 hc2 => h2 c2 (List.mem_append_left _ hc2)⟩,
              fun hr => h2 c (List.mem_append_right _ (by simp))
                ((hcEquiv x).mp hr)⟩
        · -- fields
          intro x
          obtain ⟨a1, a2, a3, a4, a5⟩ := ih3 x
          obtain ⟨b1, b2, b3, b4, b5⟩ := H3 x
          exact ⟨a1.trans b1, a2.trans b2, a3.trans b3, a4.trans b4,
            a5.trans b5⟩
        · -- shrink
          intro x c1 hc1
          exact H4 x c1 (ih4 x c1 hc1)
        · -- untouched
          intro x hall hxe
          have hnotc : ¬ RD w.sg c x :=
            hall c (List.mem_append_right _ (by simp))
          have h1 := ih5 x (fun hr => hnotc ((hcEquiv x).mp hr))
            (by rw [hparc]; exact hxe)
          rw [h1]
          exact H5 x (fun c1 hc1 => hall c1 (List.mem_append_left _ hc1)) hxe
        · -- the children list of e loses exactly c
          refine ih6.trans ?_
          refine ((H6.erase c).trans ?_)
          rw [List.erase_cons_head]
        · -- sequence membership
          intro x
          rw [List.mem_append, H7 x, ih7 x]
          constructor
          · rintro (⟨c1, hc1, hr⟩ | hr)
            · exact ⟨c1, List.mem_append_left _ hc1, hr⟩
            · exact ⟨c, List.mem_append_right _ (by simp), (hcEquiv x).mp hr⟩
          · rintro ⟨c1, hc1, hr⟩
            rcases List.mem_append.mp hc1 with h4 | h4
            · exact Or.inl ⟨c1, h4, hr⟩
            · have hc1c : c1 = c := by simpa using h4
              exact Or.inr ((hcEquiv x).mpr (hc1c ▸ hr))
        · -- sequence nodup
          refine List.Nodup.append H8 ih8 ?_
          intro x hx1 hx2
          obtain ⟨c1, hc1, hr1⟩ := (H7 x).mp hx1
          have hr2 := (hcEquiv x).mp ((ih7 x).mp hx2)
          exact hdisjC x hr2 c1 hc1 hr1
        · -- post-order
          intro l1 b l2 hsp y hy
          rcases List.append_eq_append_iff.mp hsp.symm with
            ⟨m1, hm1, hm2⟩ | ⟨m1, hm1, hm2⟩
          · -- b lies in the accumulated part or heads the fresh block
            cases m1 with
            | nil =>
              rw [List.append_nil] at hm1
              rw [List.nil_append] at hm2
              have hbmem : b ∈ destroySeqF f a.1 c := by
                rw [← hm2]
                exact List.mem_cons_self b l2
              have hbc : RD w.sg c b := (hcEquiv b).mp ((ih7 b).mp hbmem)
              have := ih9 [] b l2 hm2.symm y (hDescEquiv b y hbc hy)
              cases this
            | cons b2 m1 =>
              rw [List.cons_append] at hm2
              have hb2 : b = b2 := (List.cons.inj hm2).1
              have hl2 : l2 = m1 ++ destroySeqF f a.1 c := (List.cons.inj hm2).2
              rw [← hb2] at hm1
              exact H9 l1 b m1 hm1 y hy
          · -- b lies in the fresh block for c
            have hbmem : b ∈ destroySeqF f a.1 c := by
              rw [hm2]
              exact List.mem_append_right _ (List.mem_cons_self b l2)
            have hbc : RD w.sg c b := (hcEquiv b).mp ((ih7 b).mp hbmem)
            have := ih9 m1 b l2 hm2 y (hDescEquiv b y hbc hy)
            rw [hm1]
            exact List.mem_append_right _ this
    -- apply the fold starting from the untouched world and empty sequence
    obtain ⟨C1, C2, C3, C4, C5, C6, C7, C8, C9⟩ :=
      hfold (w.sg.nodes e).children [] ((w, []) : World α β × List ℕ)
        (by simp) (by simp) hwf (fun x => ⟨rfl, rfl, rfl, rfl, rfl⟩)
        (fun x c1 h => h) (fun x _ _ => rfl) (List.Perm.refl _) (by simp)
        List.nodup_nil
        (by intro l1 b l2 h y hy; exact absurd h.symm (by simp))
    have hplain : ((w.sg.nodes e).children.foldl
        (fun (acc : World α β × List ℕ) c =>
          (destroyHierarchyF f acc.1 c, acc.2 ++ destroySeqF f acc.1 c))
        ((w, []) : World α β × List ℕ)).1 =
        (w.sg.nodes e).children.foldl (fun u c => destroyHierarchyF f u c) w :=
      destroySeq_pairfold_fst f (w.sg.nodes e).children ((w, []) :
        World α β × List ℕ)
    have hDH : destroyHierarchyF (f + 1) w e =
        emDestroy ((w.sg.nodes e).children.foldl
          (fun (acc : World α β × List ℕ) c =>
            (destroyHierarchyF f acc.1 c, acc.2 ++ destroySeqF f acc.1 c))
          ((w, []) : World α β × List ℕ)).1 e := by
      rw [destroyHierarchyF, ← hplain]
    have hDS : destroySeqF (f + 1) w e =
        ((w.sg.nodes e).children.foldl
          (fun (acc : World α β × List ℕ) c =>
            (destroyHierarchyF f acc.1 c, acc.2 ++ destroySeqF f acc.1 c))
          ((w, []) : World α β × List ℕ)).2 ++ [e] := by
      rw [destroySeqF]
    rw [hDH, hDS]
    set A := ((w.sg.nodes e).children.foldl
      (fun (acc : World α β × List ℕ) c =>
        (destroyHierarchyF f acc.1 c, acc.2 ++ destroySeqF f acc.1 c))
      ((w, []) : World α β × List ℕ)) with hA
    have helive : e ∈ A.1.sg.live :=
      (C1 e).mpr ⟨he, fun c1 hc1 => hnocsub_e c1 hc1⟩
    have hsg : (emDestroy A.1 e).sg = sgDestroy A.1.sg e := by
      simp only [emDestroy]
      rw [if_pos helive]
    obtain ⟨SF1, SF2, SF3, SF4⟩ := sgDestroy_facts A.1.sg e
    have hpaA : (A.1.sg.nodes e).parent = (w.sg.nodes e).parent := (C3 e).1
    have hchpa : (A.1.sg.nodes (w.sg.nodes e).parent).children =
        (w.sg.nodes (w.sg.nodes e).parent).children :=
      C5 _ (fun c1 hc1 => hpa_ncsub c1 hc1) hpae
    have hpalA : (w.sg.nodes e).parent ∈ A.1.sg.live :=
      (C1 _).mpr ⟨hpal, fun c1 hc1 => hpa_ncsub c1 hc1⟩
    have hmemA : e ∈ (A.1.sg.nodes (A.1.sg.nodes e).parent).children := by
      rw [hpaA, hchpa]
      exact hmempa
    have hpermA := sgDestroy_found_perm hmemA
    have hndpa : ((A.1.sg.nodes (A.1.sg.nodes e).parent).children).Nodup := by
      rw [hpaA]
      exact C2.child_nodup _ hpalA
    have hnope : ∀ x, x ∈ A.1.sg.live → (A.1.sg.nodes x).parent = e → False := by
      intro x hx hpx
      have := C2.mem_child e helive x hx hpx
      rw [C6] at this
      simp at this
    refine ⟨?_, ?_, ?_, ?_, ?_, ?_, ?_, ?_, ?_, ⟨A.2, rfl⟩⟩
    · -- live
      intro x
      rw [hsg, SF1, Finset.mem_erase, C1 x]
      constructor
      · rintro ⟨hne, h1, h2⟩
        refine ⟨h1, fun hr => ?_⟩
        rcases RD_unfold.mp hr with h3 | ⟨c1, hc1, h3⟩
        · exact hne h3
        · exact h2 c1 hc1 h3
      · rintro ⟨h1, h2⟩
        exact ⟨fun hh => h2 (by rw [hh]; exact RD.refl e), h1,
          fun c1 hc1 hr => h2 (RD.step hc1 hr)⟩
    · -- surviving links stay mutually consistent
      rw [hsg]
      constructor
      · intro x hx
        rw [SF1, Finset.mem_erase] at hx ⊢
        rw [(SF2 x).1]
        exact ⟨fun hh => hnope x hx.2 hh, C2.parent_live x hx.2⟩
      · intro q hq c hc
        rw [SF1, Finset.mem_erase] at hq
        by_cases hqpa : q = (A.1.sg.nodes e).parent
        · rw [hqpa] at hc
          obtain ⟨hcne, hcmem⟩ := hndpa.mem_erase_iff.mp (hpermA.mem_iff.mp hc)
          obtain ⟨hcl2, hcp2⟩ := C2.child_mem _ (by rw [hpaA]; exact hpalA)
            c hcmem
          constructor
          · rw [SF1, Finset.mem_erase]
            exact ⟨hcne, hcl2⟩
          · rw [(SF2 c).1, hcp2, ← hqpa]
        · rw [SF4 q hqpa] at hc
          obtain ⟨hcl2, hcp2⟩ := C2.child_mem q hq.2 c hc
          have hcne : c ≠ e := by
            intro hh
            rw [hh] at hcp2
            exact hqpa hcp2.symm
          constructor
          · rw [SF1, Finset.mem_erase]
            exact ⟨hcne, hcl2⟩
          · rw [(SF2 c).1]
            exact hcp2
      · intro q hq c hc hpc
        rw [SF1, Finset.mem_erase] at hq hc
        rw [(SF2 c).1] at hpc
        have hcm := C2.mem_child q hq.2 c hc.2 hpc
        by_cases hqpa : q = (A.1.sg.nodes e).parent
        · rw [hqpa]
          exact hpermA.mem_iff.mpr
            ((List.mem_erase_of_ne hc.1).mpr (hqpa ▸ hcm))
        · rw [SF4 q hqpa]
          exact hcm
      · intro q hq
        rw [SF1, Finset.mem_erase] at hq
        by_cases hqpa : q = (A.1.sg.nodes e).parent
        · rw [hqpa]
          exact hpermA.nodup_iff.mpr (hndpa.erase e)
        · rw [SF4 q hqpa]
          exact C2.child_nodup q hq.2
      · intro x hx hnex
        rw [SF1, Finset.mem_erase] at hx
        rw [(SF2 x).1] at hnex ⊢
        exact C2.dep_parent x hx.2 hnex
      · intro x hx
        rw [SF1, Finset.mem_erase] at hx
        exact C2.dep_le x hx.2
    · -- fields
      intro x
      rw [hsg]
      obtain ⟨a1, a2, a3, a4, a5⟩ := SF2 x
      obtain ⟨b1, b2, b3, b4, b5⟩ := C3 x
      exact ⟨a1.trans b1, a2.trans b2, a3.trans b3, a4.trans b4, a5.trans b5⟩
    · -- shrink
      intro x c hc
      rw [hsg] at hc
      exact C4 x c (SF3 x c hc)
    · -- untouched
      intro x hnr hxpa
      rw [hsg]
      have hxe : x ≠ e := fun hh => hnr (by rw [hh]; exact RD.refl e)
      rw [SF4 x (by rw [hpaA]; exact hxpa)]
      exact C5 x (fun c1 hc1 hr => hnr (RD.step hc1 hr)) hxe
    · -- the parent loses exactly e
      rw [hsg]
      have h1 := hpermA
      rw [hpaA] at h1
      rw [hchpa] at h1
      exact h1
    · -- sequence membership
      intro x
      rw [List.mem_append, C7 x]
      constructor
      · rintro (⟨c1, hc1, hr⟩ | hx)
        · exact RD.step hc1 hr
        · have hxe : x = e := by simpa using hx
          rw [hxe]
          exact RD.refl e
      · intro hr
        rcases RD_unfold.mp hr with h3 | ⟨c1, hc1, h3⟩
        · exact Or.inr (by simp [h3])
        · exact Or.inl ⟨c1, hc1, h3⟩
    · -- sequence nodup
      refine List.Nodup.append C8 (List.nodup_singleton e) ?_
      intro x hx1 hx2
      have hxe : x = e := by simpa using hx2
      rw [hxe] at hx1
      obtain ⟨c1, hc1, hr⟩ := (C7 e).mp hx1
      exact hnocsub_e c1 hc1 hr
    · -- post-order with e last
      intro l1 b l2 hsp y hy
      rcases List.append_eq_append_iff.mp hsp.symm with
        ⟨m1, hm1, hm2⟩ | ⟨m1, hm1, hm2⟩
      · cases m1 with
        | nil =>
          rw [List.append_nil] at hm1
          rw [List.nil_append] at hm2
          have hbe : b = e := (List.cons.inj hm2).1
          obtain ⟨ch, hch, hchy⟩ := hy
          rw [hbe] at hch
          rw [← hm1]
          exact (C7 y).mpr ⟨ch, hch, hchy⟩
        | cons b2 m1 =>
          rw [List.cons_append] at hm2
          have hb2 : b = b2 := (List.cons.inj hm2).1
          rw [← hb2] at hm1
          exact C9 l1 b m1 hm1 y hy
      · cases m1 with
        | nil =>
          rw [List.append_nil] at hm1
          rw [List.nil_append] at hm2
          have hbe : b = e := (List.cons.inj hm2.symm).1
          obtain ⟨ch, hch, hchy⟩ := hy
          rw [hbe] at hch
          rw [hm1]
          exact (C7 y).mpr ⟨ch, hch, hchy⟩
        | cons b2 m1 =>
          rw [List.cons_append] at hm2
          have := (List.cons.inj hm2.symm).2
          simp at this

theorem destroyWorld_wfd : WFd destroyWorld.sg (fun x => min x 2) 2 := by
  constructor
  · intro e he
    fin_cases he <;> decide
  · intro p hp c hc
    fin_cases hp <;> fin_cases hc <;> decide
  · intro p hp c hc hpc
    fin_cases hp <;> fin_cases hc <;> revert hpc <;> decide
  · intro p hp
    fin_cases hp <;> decide
  · intro e he hne
    fin_cases he <;> revert hne <;> decide
  · intro e he
    fin_cases he <;> decide

theorem destroyWorld_stores_inv : ∀ t ∈ destroyWorld.stores, t.Inv := by
  intro t ht
  have ht2 : t = ⟨[10, 20, 30, 40], [0, 1, 2, 3], [0, 1, 2, 3]⟩ := by
    simpa [destroyWorld] using ht
  rw [ht2]
  refine ⟨rfl, ?_, ?_, by norm_num [InvalidIndex]⟩
  · intro i e h
    rcases Nat.lt_or_ge i 4 with hi | hi
    · interval_cases i <;> simp at h <;> subst h <;> decide
    · rw [List.getElem?_eq_none_iff.mpr (by simpa using hi)] at h
      cases h
  · intro e i h hne
    rcases Nat.lt_or_ge e 4 with hLT | hGE
    · interval_cases e <;> simp at h <;> subst h <;> decide
    · rw [List.getElem?_eq_none_iff.mpr (by simpa using hGE)] at h
      cases h

theorem destroyWorld_sub : ∀ x, RD destroyWorld.sg 1 x →
    x = 1 ∨ x = 2 ∨ x = 3 := by
  have main : ∀ a x, RD destroyWorld.sg a x → (a = 1 ∨ a = 2 ∨ a = 3) →
      x = 1 ∨ x = 2 ∨ x = 3 := by
    intro a x h
    induction h with
    | refl e => exact fun ha => ha
    | @step a c x hc _ ih =>
      intro ha
      refine ih ?_
      rcases ha with h1 | h1 | h1
      · rw [h1] at hc
        have h2 : c = 2 ∨ c = 3 := by simpa [destroyWorld] using hc
        rcases h2 with h2 | h2
        · exact Or.inr (Or.inl h2)
        · exact Or.inr (Or.inr h2)
      · rw [h1] at hc
        exact absurd hc (by simp [destroyWorld])
      · rw [h1] at hc
        exact absurd hc (by simp [destroyWorld])
  exact fun x h => main 1 x h (Or.inl rfl)

theorem destroyWorld_hself : ∀ x, RD destroyWorld.sg 1 x →
    (destroyWorld.sg.nodes x).parent ≠ x := by
  intro x hx
  rcases destroyWorld_sub x hx with h | h | h <;> rw [h] <;> decide

/-- C6: under a depth-certified hierarchy with all stores satisfying the
packed/sparse invariant, `destroyHierarchy(e)` (for `e` whose subtree
contains no self-parented node) removes exactly `e` and its descendants from
the scene graph and from every registered component store; the sequence of
`EntityManager::destroy` calls visits exactly the subtree, each node once,
every proper descendant strictly before its ancestor (post-order), with `e`
itself last; the whole operation equals folding `EntityManager::destroy`
over that sequence; and the surviving parent/children links remain mutually
consistent — for every subtree shape, including nodes with two or more
children. -/
theorem destroy_hierarchy_postorder {β : Type} [Inhabited β]
    (w : World α β) (dep : ℕ → ℕ) (bound e fuel : ℕ)
    (hwf : WFd w.sg dep bound) (hst : ∀ t ∈ w.stores, t.Inv)
    (he : e ∈ w.sg.live)
    (hself : ∀ x, RD w.sg e x → (w.sg.nodes x).parent ≠ x)
    (hfuel : bound < fuel + dep e) :
    (∀ x, x ∈ (destroyHierarchyF fuel w e).sg.live ↔
      (x ∈ w.sg.live ∧ ¬ RD w.sg e x)) ∧
    List.Forall₂ (fun t2 t => t2.Inv ∧ ∀ x, (t2.hasC x = true ↔
        (t.hasC x = true ∧ ¬ RD w.sg e x)))
      (destroyHierarchyF fuel w e).stores w.stores ∧
    (∀ x, x ∈ destroySeqF fuel w e ↔ RD w.sg e x) ∧
    (destroySeqF fuel w e).Nodup ∧
    (∀ l1 a l2, destroySeqF fuel w e = l1 ++ a :: l2 →
      ∀ b, Desc w.sg a b → b ∈ l1) ∧
    (∃ l0, destroySeqF fuel w e = l0 ++ [e]) ∧
    destroyHierarchyF fuel w e = (destroySeqF fuel w e).foldl emDestroy w ∧
    WFd (destroyHierarchyF fuel w e).sg dep bound := by
  obtain ⟨M1, M2, M3, M4, M5, M6, M7, M8, M9, M10⟩ :=
    destroyH_main fuel w dep bound e hwf he hself hfuel
  have hEq := destroyHierarchyF_eq_foldl fuel w e
  refine ⟨M1, ?_, M7, M8, M9, M10, hEq, M2⟩
  rw [hEq, foldl_emDestroy_stores, List.forall₂_map_left_iff,
    List.forall₂_same]
  intro t ht
  obtain ⟨S1, S2⟩ := storeFold_spec (destroySeqF fuel w e) t (hst t ht)
  refine ⟨S1, fun x => ?_⟩
  rw [S2 x]
  constructor
  · rintro ⟨h1, h2⟩
    exact ⟨h1, fun hr => h2 ((M7 x).mpr hr)⟩
  · rintro ⟨h1, h2⟩
    exact ⟨h1, fun hm => h2 ((M7 x).mp hm)⟩

/-- Witness for C6: destroying node 1 (children 2 and 3) in the concrete
rational world. -/
theorem destroy_hierarchy_postorder_witness :
    (∀ x, x ∈ (destroyHierarchyF 3 destroyWorld 1).sg.live ↔
      (x ∈ destroyWorld.sg.live ∧ ¬ RD destroyWorld.sg 1 x)) ∧
    (∃ l0, destroySeqF 3 destroyWorld 1 = l0 ++ [1]) ∧
    WFd (destroyHierarchyF 3 destroyWorld 1).sg (fun x => min x 2) 2 := by
  have h := destroy_hierarchy_postorder destroyWorld (fun x => min x 2) 2 1 3
    destroyWorld_wfd destroyWorld_stores_inv (by decide) destroyWorld_hself
    (by decide)
  exact ⟨h.1, h.2.2.2.2.2.1, h.2.2.2.2.2.2.2⟩

end LD53
